import Mathlib

/-!
# QuickMod dependency resolver and version records

A shallow embedding of `logic/quickmod/QuickModDependencyResolver.cpp`:
the dependency graph (`DepNode`, `DepNode::build`, `getParents`, `hasHardParent`,
`findNode`), the graph queries (`resolveChildren`, `resolveOrphans`,
`hasResolveError`) and the recursive version resolution (`resolve`); and of the
reading and writing of version records in `logic/quickmod/QuickModVersion.cpp`
(`BaseQuickModVersion::parse`, `parseSingle`, `toJson`, `Library::toJson`,
`highestPriorityDownload`).

Conventions of the embedding.

* A `const DepNode *` is represented by the uid of the node it points to; it is
  dereferenced by looking the uid up in the node list (`DepNode.findNode`).  The node
  map of `build` holds one node per uid, so a uid names one node.
* `Q_ASSERT` is a checked assertion: a failing assertion ends the run with
  `Failure.assertion`.
* The recursive functions of the source have no cycle guard.  They are embedded with a
  recursion budget (`fuel`, the maximal call depth); `Failure.outOfFuel` stands for a
  run that did not return within that depth.
* The version database (`MMC->qmdb()`) and the version selector
  (`QuickMods.GetVersion`) are collaborators outside of the sources; they are
  parameters of the embedding.
* A function that throws returns an `Except`: an `MMCError` thrown ends the run with
  `Except.error`.  The member function `parse(object)`, which changes the version it is
  called on, takes that version (`self`) and returns the version changed.
* JSON values are the values of the inductive type `JsonValue`, with the operations of
  `QJsonValue` and `QJsonObject` that the code calls.
* The headers of the helpers that `QuickModVersion.cpp` calls (`logic/MMCJson.h`,
  `QuickModRef.h`, `QuickModVersionRef.h`, `QuickModVersion.h`) are not among the
  sources.  What is used of them is a definition marked as modelled, or a parameter:
  the texts of the uids (`UidText`) and `QuickModDownload::toJson()`.
-/

namespace QuickMod

/-! ## Data model -/

/-- A package uid (`QuickModRef`): an opaque, totally ordered identifier. -/
abbrev QuickModRef := Nat

/-- Modelled from the spec: `QuickModVersionRef` (its header is not among the sources):
a (package uid, version tag) pair that may be unset.  `none` is the default-constructed,
invalid reference `QuickModVersionRef()`; `isValid()` is `Option.isSome`. -/
abbrev QuickModVersionRef := Option (QuickModRef × String)

/-- A `QMap<QuickModRef, V>`: its entries in iteration order, which is strictly
ascending key order (so no key occurs twice). -/
structure QMap (V : Type) where
  entries : List (QuickModRef × V)
  sorted : (entries.map Prod.fst).Pairwise (fun a b => a < b)

/-- The empty map. -/
def QMap.empty {V : Type} : QMap V := ⟨[], List.Pairwise.nil⟩

/-- Package metadata (`QuickModMetadata`).  `m_metadata` of the database holds one
metadata object per uid and repository, so an object is identified with its record:
equality of records stands for equality of `QuickModMetadata *` pointers. -/
structure QuickModMetadata where
  uid : QuickModRef
  repo : String
  name : String
deriving DecidableEq, Repr

/-- A version record (`BaseQuickModVersion`), with the parts the resolver reads:
the metadata it belongs to (`mod`), its name (`name()`), and the `dependencies` map
from target uid to (version constraint, isSoft). -/
structure QuickModVersion where
  mod : QuickModMetadata
  name : String
  dependencies : QMap (QuickModVersionRef × Bool)

/-- An entry of the installed-mods iterator (`iterateQuickMods()`):
`uid()`, `version()`, `asDependency()`. -/
structure InstalledMod where
  uid : QuickModRef
  version : QuickModVersionRef
  asDependency : Bool
deriving DecidableEq, Repr

/-- The node of the dependency graph (`struct DepNode`); `children` and `parents`
hold node pointers, represented by uids. -/
structure DepNode where
  version : QuickModVersionRef
  uid : QuickModRef
  children : List QuickModRef
  parents : List QuickModRef
  isHard : Bool
deriving DecidableEq, Repr

/-- How a run can end without a result. -/
inductive Failure where
  | assertion
  | nullPointer
  | outOfFuel
deriving DecidableEq, Repr

/-! ## The node map of `build` (`QMap<QuickModRef, const DepNode *> nodes`) -/

/-- The map `nodes` as the list of its entries in key order. -/
abbrev NodeMap := List (QuickModRef × DepNode)

/-- `QMap::contains`. -/
def NodeMap.contains (m : NodeMap) (k : QuickModRef) : Bool :=
  m.any (fun e => e.1 == k)

/-- `QMap::insert`: put the value at its place in key order, replacing the value of
an equal key. -/
def NodeMap.insert : NodeMap → QuickModRef → DepNode → NodeMap
  | [], k, v => [(k, v)]
  | (k', v') :: t, k, v =>
    if k < k' then (k, v) :: (k', v') :: t
    else if k = k' then (k, v) :: t
    else (k', v') :: NodeMap.insert t k v

/-- `QMap::values`: the values in key order. -/
def NodeMap.values (m : NodeMap) : List DepNode := m.map Prod.snd

/-! ## `DepNode::build` -/

/-- Stage one of `build`: one node per iterator entry.  `Q_ASSERT(!nodes.contains(uid))`
is checked; `isHard = !asDependency`; an invalid version leaves the node's version
default-constructed and clears the flag. -/
def stageOne : List InstalledMod → NodeMap → Bool → Except Failure (NodeMap × Bool)
  | [], nodes, ok => .ok (nodes, ok)
  | e :: rest, nodes, ok =>
    if nodes.contains e.uid then .error Failure.assertion
    else
      match e.version with
      | some v =>
        stageOne rest (nodes.insert e.uid ⟨some v, e.uid, [], [], !e.asDependency⟩) ok
      | none =>
        stageOne rest (nodes.insert e.uid ⟨none, e.uid, [], [], !e.asDependency⟩) false

/-- The inner loop of stage two over `ptr->dependencies`: a target that is not soft and
is a key of `nodes` is appended to the children, any other edge clears the flag. -/
def stageTwoDeps (nodes : NodeMap) :
    List (QuickModRef × (QuickModVersionRef × Bool)) → List QuickModRef → Bool →
      List QuickModRef × Bool
  | [], children, ok => (children, ok)
  | (k, (_, isSoft)) :: rest, children, ok =>
    if !isSoft && nodes.contains k then stageTwoDeps nodes rest (children ++ [k]) ok
    else stageTwoDeps nodes rest children false

/-- Stage two of `build`: the loop over the entries of `nodes` (first argument: the whole
map, second: the entries still to visit).  A node whose version the database does not
know clears the flag and is left as it is. -/
def stageTwo (db : QuickModVersionRef → Option QuickModVersion) (nodes : NodeMap) :
    NodeMap → Bool → NodeMap × Bool
  | [], ok => ([], ok)
  | (k, node) :: rest, ok =>
    match db node.version with
    | none =>
      let r := stageTwo db nodes rest false
      ((k, node) :: r.1, r.2)
    | some ptr =>
      let c := stageTwoDeps nodes ptr.dependencies.entries node.children ok
      let r := stageTwo db nodes rest c.2
      ((k, { node with children := c.1 }) :: r.1, r.2)

/-- The statement `const_cast<DepNode *>(dep)->parents.append(node)`: the node `dep`
points to gets `node` appended to its parents. -/
def appendParent (nodes : NodeMap) (dep node : QuickModRef) : NodeMap :=
  nodes.map (fun e => if e.1 = dep then (e.1, { e.2 with parents := e.2.parents ++ [node] }) else e)

/-- The inner loop of stage three over `node->children`. -/
def stageThreeInner (node : QuickModRef) : List QuickModRef → NodeMap → NodeMap
  | [], nodes => nodes
  | dep :: rest, nodes => stageThreeInner node rest (appendParent nodes dep node)

/-- Stage three of `build`: the loop over the nodes (first argument: the entries still
to visit, second: the map being updated). -/
def stageThree : NodeMap → NodeMap → NodeMap
  | [], nodes => nodes
  | (_, node) :: rest, nodes => stageThree rest (stageThreeInner node.uid node.children nodes)

/-- `DepNode::build`: the node list `nodes.values()` together with `ok_internal`. -/
def DepNode.build (db : QuickModVersionRef → Option QuickModVersion)
    (installed : List InstalledMod) : Except Failure (List DepNode × Bool) :=
  match stageOne installed [] true with
  | .error e => .error e
  | .ok (n1, ok1) =>
    let r := stageTwo db n1 n1 ok1
    .ok ((stageThree r.1 r.1).values, r.2)

/-- `DepNode::findNode`: the first node of the list with the uid, `none` for `nullptr`. -/
def DepNode.findNode (nodes : List DepNode) (uid : QuickModRef) : Option DepNode :=
  nodes.find? (fun n => n.uid == uid)

/-! ## Graph walks -/

/-- The loop of `getParents`: append `child->getParents()` for every parent. -/
def getParentsLoop (rec : QuickModRef → Except Failure (List QuickModRef)) :
    List QuickModRef → List QuickModRef → Except Failure (List QuickModRef)
  | [], out => .ok out
  | p :: ps, out =>
    match rec p with
    | .error e => .error e
    | .ok l => getParentsLoop rec ps (out ++ l)

/-- `DepNode::getParents` of the node `uid` points to, with call depth at most `fuel`. -/
def DepNode.getParents (nodes : List DepNode) :
    Nat → QuickModRef → Except Failure (List QuickModRef)
  | 0, _ => .error Failure.outOfFuel
  | fuel + 1, uid =>
    match DepNode.findNode nodes uid with
    | none => .error Failure.nullPointer
    | some node => getParentsLoop (DepNode.getParents nodes fuel) node.parents node.parents

/-- The loop of `hasHardParent`: stop with `true` at the first parent that has a hard
parent. -/
def hasHardParentLoop (rec : QuickModRef → Except Failure Bool) :
    List QuickModRef → Except Failure Bool
  | [] => .ok false
  | p :: ps =>
    match rec p with
    | .error e => .error e
    | .ok true => .ok true
    | .ok false => hasHardParentLoop rec ps

/-- `DepNode::hasHardParent` of the node `uid` points to, with call depth at most `fuel`. -/
def DepNode.hasHardParent (nodes : List DepNode) : Nat → QuickModRef → Except Failure Bool
  | 0, _ => .error Failure.outOfFuel
  | fuel + 1, uid =>
    match DepNode.findNode nodes uid with
    | none => .error Failure.nullPointer
    | some node =>
      if node.isHard then .ok true
      else hasHardParentLoop (DepNode.hasHardParent nodes fuel) node.parents

/-! ## Graph queries -/

/-- The first loop of `resolveChildren`: for every uid the node found and its
`getParents()`. -/
def resolveChildrenLoop (nodes : List DepNode) (fuel : Nat) :
    List QuickModRef → List QuickModRef → Except Failure (List QuickModRef)
  | [], parents => .ok parents
  | uid :: rest, parents =>
    match DepNode.findNode nodes uid with
    | none => .error Failure.nullPointer
    | some node =>
      match DepNode.getParents nodes fuel node.uid with
      | .error e => .error e
      | .ok l => resolveChildrenLoop nodes fuel rest (parents ++ [node.uid] ++ l)

/-- The second loop of `resolveChildren`: the uids without repetition. -/
def resolveChildrenOut : List QuickModRef → List QuickModRef → List QuickModRef
  | [], out => out
  | uid :: rest, out =>
    if out.contains uid then resolveChildrenOut rest out
    else resolveChildrenOut rest (out ++ [uid])

/-- `QuickModDependencyResolver::resolveChildren`. -/
def resolveChildren (db : QuickModVersionRef → Option QuickModVersion)
    (installed : List InstalledMod) (fuel : Nat) (uids : List QuickModRef) :
    Except Failure (List QuickModRef) :=
  match DepNode.build db installed with
  | .error e => .error e
  | .ok (nodes, _) =>
    match resolveChildrenLoop nodes fuel uids [] with
    | .error e => .error e
    | .ok parents => .ok (resolveChildrenOut parents [])

/-- The loop of `resolveOrphans` over the installed mods; `Q_ASSERT(node)` is checked. -/
def resolveOrphansLoop (nodes : List DepNode) (fuel : Nat) :
    List InstalledMod → List QuickModRef → Except Failure (List QuickModRef)
  | [], orphans => .ok orphans
  | e :: rest, orphans =>
    match DepNode.findNode nodes e.uid with
    | none => .error Failure.assertion
    | some node =>
      match DepNode.hasHardParent nodes fuel node.uid with
      | .error err => .error err
      | .ok true => resolveOrphansLoop nodes fuel rest orphans
      | .ok false => resolveOrphansLoop nodes fuel rest (orphans ++ [e.uid])

/-- `QuickModDependencyResolver::resolveOrphans`. -/
def resolveOrphans (db : QuickModVersionRef → Option QuickModVersion)
    (installed : List InstalledMod) (fuel : Nat) : Except Failure (List QuickModRef) :=
  match DepNode.build db installed with
  | .error e => .error e
  | .ok (nodes, _) => resolveOrphansLoop nodes fuel installed []

/-- `QuickModDependencyResolver::hasResolveError`. -/
def hasResolveError (db : QuickModVersionRef → Option QuickModVersion)
    (installed : List InstalledMod) : Except Failure Bool :=
  match DepNode.build db installed with
  | .error e => .error e
  | .ok (_, ok) => .ok (!ok)

/-! ## Version resolution (`QuickModDependencyResolver::resolve`) -/

/-- The collaborators of the version resolution.  Their code is not among the sources;
the selector is taken to be deterministic (a function of its arguments). -/
structure Env (K : Type) where
  /-- `MMC->qmdb()->allModMetadata(uid)`: the metadata records known for the uid. -/
  allModMetadata : QuickModRef → List QuickModMetadata
  /-- `getVersion(uid, filter, &ok)`, the blocking request "QuickMods.GetVersion":
  the version pointer returned (`none` for a null pointer) and the flag `ok`. -/
  getVersion : QuickModRef → QuickModVersionRef → Option QuickModVersion × Bool
  /-- Modelled from the spec: `Util::Version(name)` (modutils.h is not among the
  sources): the comparison value of a version name in a total order; two names with
  equal value compare equal. -/
  Version : String → K

/-- The texts of the signals, with their arguments. -/
inductive Message where
  /-- "Didn't select a version for %1". -/
  | didntSelect (mod : QuickModRef)
  /-- "Didn't select a version while resolving from %1 (%2) to %3". -/
  | didntSelectWhileResolving (modName versionName : String) (target : QuickModRef)
  /-- "The dependency from %1 (%2) to %3 cannot be resolved". -/
  | cannotBeResolved (modName versionName : String) (target : QuickModRef)
  /-- "Successfully resolved dependency from %1 (%2) to %3 (%4)". -/
  | resolved (modName versionName depModName depName : String)
deriving DecidableEq, Repr

/-- What a run of `resolve` does towards its environment, in order: the requests to the
selector and the signals `error`, `warning`, `success`. -/
inductive Event where
  | getVersion (uid : QuickModRef) (filter : QuickModVersionRef)
  | error (msg : Message)
  | warning (msg : Message)
  | success (msg : Message)
deriving DecidableEq, Repr

/-- The member `m_mods`: a map from `QuickModMetadata *` to the version selected, as the
list of its entries.  (The declaration of the member is not among the sources; the order
of the entries, here the order of first insertion, is not specified by the code read.) -/
abbrev Selection := List (QuickModMetadata × QuickModVersion)

/-- `m_mods.contains(key)`. -/
def Selection.contains (m : Selection) (k : QuickModMetadata) : Bool :=
  m.any (fun e => e.1 == k)

/-- `m_mods[key]`, for a key the map contains. -/
def Selection.value (m : Selection) (k : QuickModMetadata) : Option QuickModVersion :=
  (m.find? (fun e => e.1 == k)).map Prod.snd

/-- `m_mods.insert(key, value)`: the value of an existing key is replaced. -/
def Selection.insert : Selection → QuickModMetadata → QuickModVersion → Selection
  | [], k, v => [(k, v)]
  | (k', v') :: t, k, v =>
    if k' = k then (k, v) :: t else (k', v') :: Selection.insert t k v

/-- `m_mods.values()`. -/
def Selection.values (m : Selection) : List QuickModVersion := m.map Prod.snd

/-- The test that ends `resolve(version)` early: `m_mods` contains the package of the
version and the version does not compare greater than the one selected. -/
def nonImproving {K : Type} [LinearOrder K] (env : Env K) (mods : Selection)
    (version : QuickModVersion) : Bool :=
  mods.contains version.mod &&
    match mods.value version.mod with
    | some cur => decide (env.Version version.name ≤ env.Version cur.name)
    | none => false

/-- The first half of the body of the loop over the dependencies: the dependency version
`dep` (null without metadata for the target, else the answer of the selector) and what
was requested and emitted for it. -/
def askDependency {K : Type} (env : Env K) (version : QuickModVersion)
    (key : QuickModRef) (filter : QuickModVersionRef) :
    Option QuickModVersion × List Event :=
  if (env.allModMetadata key).isEmpty then (none, [])
  else
    let a := env.getVersion key filter
    (a.1, Event.getVersion key filter ::
      (if a.2 then []
       else [Event.error
         (Message.didntSelectWhileResolving version.mod.name version.name key)]))

/-- The loop of `resolve(version)` over `version->dependencies`; `rec` is the recursive
call `resolve(dep)`.  (The last `else` of the loop body cannot be reached, `dep` being
non-null there.) -/
def resolveDeps {K : Type} (env : Env K)
    (rec : QuickModVersion → Selection → Except Failure (Selection × List Event))
    (version : QuickModVersion) :
    List (QuickModRef × (QuickModVersionRef × Bool)) → Selection → List Event →
      Except Failure (Selection × List Event)
  | [], mods, evs => .ok (mods, evs)
  | (key, (filter, _)) :: rest, mods, evs =>
    match askDependency env version key filter with
    | (none, asked) =>
      resolveDeps env rec version rest mods
        (evs ++ asked ++
          [Event.warning (Message.cannotBeResolved version.mod.name version.name key)])
    | (some dep, asked) =>
      match rec dep mods with
      | .error e => .error e
      | .ok (mods', evs') =>
        resolveDeps env rec version rest mods'
          (evs ++ asked ++
            [Event.success (Message.resolved version.mod.name version.name
              dep.mod.name dep.name)] ++ evs')

/-- `QuickModDependencyResolver::resolve(const QuickModVersionPtr version)` with call
depth at most `fuel`: the new `m_mods` and what was requested and emitted. -/
def resolveVersion {K : Type} [LinearOrder K] (env : Env K) :
    Nat → Option QuickModVersion → Selection → Except Failure (Selection × List Event)
  | 0, _, _ => .error Failure.outOfFuel
  | _ + 1, none, mods => .ok (mods, [])
  | fuel + 1, some version, mods =>
    if nonImproving env mods version then .ok (mods, [])
    else
      resolveDeps env (fun dep m => resolveVersion env fuel (some dep) m) version
        version.dependencies.entries (mods.insert version.mod version) []

/-- `QuickModDependencyResolver::resolve(const QList<QuickModRef> &mods)` on a resolver
whose `m_mods` is `sel`: the list returned, the new `m_mods`, and what was requested and
emitted (after `evs`). -/
def resolve {K : Type} [LinearOrder K] (env : Env K) (fuel : Nat) :
    List QuickModRef → Selection → List Event →
      Except Failure (List QuickModVersion × Selection × List Event)
  | [], sel, evs => .ok (sel.values, sel, evs)
  | mod :: rest, sel, evs =>
    let a := env.getVersion mod none
    match resolveVersion env fuel a.1 sel with
    | .error e => .error e
    | .ok (sel', evs') =>
      if a.2 then resolve env fuel rest sel' (evs ++ [Event.getVersion mod none] ++ evs')
      else
        .ok ([], sel', evs ++ [Event.getVersion mod none] ++ evs' ++
          [Event.error (Message.didntSelect mod)])

/-! ## Closed forms of the stages of `build` -/

/-- The node stage one creates for an entry. -/
def mkNode (e : InstalledMod) : DepNode := ⟨e.version, e.uid, [], [], !e.asDependency⟩

/-- The targets of the edges of `deps` that are not soft and are among `keys`. -/
def depTargets (keys : List QuickModRef)
    (deps : List (QuickModRef × (QuickModVersionRef × Bool))) : List QuickModRef :=
  (deps.filter (fun d => !d.2.2 && decide (d.1 ∈ keys))).map Prod.fst

/-- The edges of `deps` are all not soft with a target among `keys`. -/
def depsGood (keys : List QuickModRef)
    (deps : List (QuickModRef × (QuickModVersionRef × Bool))) : Bool :=
  deps.all (fun d => !d.2.2 && decide (d.1 ∈ keys))

/-- What stage two makes of a node. -/
def withChildren (db : QuickModVersionRef → Option QuickModVersion) (keys : List QuickModRef)
    (node : DepNode) : DepNode :=
  match db node.version with
  | none => node
  | some ptr => { node with children := node.children ++ depTargets keys ptr.dependencies.entries }

/-- The version of the node is known and its edges are all good. -/
def nodeGood (db : QuickModVersionRef → Option QuickModVersion) (keys : List QuickModRef)
    (node : DepNode) : Bool :=
  match db node.version with
  | none => false
  | some ptr => depsGood keys ptr.dependencies.entries

/-- A node with more parents. -/
def addParents (node : DepNode) (ps : List QuickModRef) : DepNode :=
  { node with parents := node.parents ++ ps }

/-- The parents stage three collects for the node `k`: every visited node, once per
occurrence of `k` among its children. -/
def parentsOf (iter : NodeMap) (k : QuickModRef) : List QuickModRef :=
  iter.flatMap (fun m => List.replicate (m.2.children.count k) m.2.uid)

/-- The children `build` gives a node with version `v`, in a graph with the uids `keys`. -/
def childrenFor (db : QuickModVersionRef → Option QuickModVersion) (keys : List QuickModRef)
    (v : QuickModVersionRef) : List QuickModRef :=
  match db v with
  | none => []
  | some ptr => depTargets keys ptr.dependencies.entries

/-- The parents `build` gives the node `k` in the graph `nodes`: every node, once per
occurrence of `k` among its children, in the order of the node list. -/
def parentsIn (nodes : List DepNode) (k : QuickModRef) : List QuickModRef :=
  nodes.flatMap (fun m => List.replicate (m.children.count k) m.uid)

/-- The node of the graph `nodes` made for the entry `e`. -/
def builtNode (db : QuickModVersionRef → Option QuickModVersion) (nodes : List DepNode)
    (e : InstalledMod) : DepNode :=
  ⟨e.version, e.uid, childrenFor db (nodes.map (fun n => n.uid)) e.version,
    parentsIn nodes e.uid, !e.asDependency⟩

/-- The flag of `build` for the graph `nodes`: every entry has a valid version, every
node's version is known to the database and all its edges are good. -/
def builtFlag (db : QuickModVersionRef → Option QuickModVersion) (nodes : List DepNode)
    (snap : List InstalledMod) : Bool :=
  snap.all (fun e => e.version.isSome) &&
    nodes.all (fun n => nodeGood db (nodes.map (fun n => n.uid)) n)

/-! ## Relations on a graph -/

/-- The uid `p` is a parent pointer of the node `n` of the graph. -/
def IsParent (nodes : List DepNode) (p n : QuickModRef) : Prop :=
  ∃ node ∈ nodes, node.uid = n ∧ p ∈ node.parents

/-- The uid `c` is a child pointer of the node `n` of the graph (an edge from `n` to `c`). -/
def IsChild (nodes : List DepNode) (c n : QuickModRef) : Prop :=
  ∃ node ∈ nodes, node.uid = n ∧ c ∈ node.children

/-- The node `a` of the graph is hard. -/
def IsHardNode (nodes : List DepNode) (a : QuickModRef) : Prop :=
  ∃ node ∈ nodes, node.uid = a ∧ node.isHard = true

/-- No node is its own transitive parent. -/
def Acyclic (nodes : List DepNode) : Prop :=
  ∀ u, ¬ Relation.TransGen (IsParent nodes) u u

/-- No node is reached from itself along one or more edges (child pointers). -/
def AcyclicEdges (nodes : List DepNode) : Prop :=
  ∀ u, ¬ Relation.TransGen (IsChild nodes) u u

/-- The graph invariant the walks rely on: one node per uid, and every parent pointer
points to a node of the graph. -/
structure GraphOk (nodes : List DepNode) : Prop where
  nodup : (nodes.map (fun n => n.uid)).Nodup
  parents_mem : ∀ n ∈ nodes, ∀ p ∈ n.parents, p ∈ nodes.map (fun n => n.uid)

/-- Some hard node is the node `u` itself or a transitive parent of it. -/
def HardAncestor (nodes : List DepNode) (u : QuickModRef) : Prop :=
  ∃ a, Relation.ReflTransGen (IsParent nodes) a u ∧ IsHardNode nodes a

/-! ## Example data for the graph -/

/-- A dependency map with one edge, to `k` at version "1", not soft. -/
def exDeps (k : QuickModRef) : QMap (QuickModVersionRef × Bool) :=
  ⟨[(k, (some (k, "1"), false))], List.pairwise_singleton _ _⟩

/-- Example database: A (uid 0) version 1 depends on B (uid 1) version 1, which
depends on nothing. -/
def exDb : QuickModVersionRef → Option QuickModVersion := fun r =>
  if r = some (0, "1") then some ⟨⟨0, "repo", "A"⟩, "1", exDeps 1⟩
  else if r = some (1, "1") then some ⟨⟨1, "repo", "B"⟩, "1", QMap.empty⟩
  else none

/-- Example database with a cycle: A (uid 0) depends on B (uid 1) and B on A. -/
def exDbCyclic : QuickModVersionRef → Option QuickModVersion := fun r =>
  if r = some (0, "1") then some ⟨⟨0, "repo", "A"⟩, "1", exDeps 1⟩
  else if r = some (1, "1") then some ⟨⟨1, "repo", "B"⟩, "1", exDeps 0⟩
  else none

/-- Example snapshot: A installed as a dependency, B on request. -/
def exSnapDepHard : List InstalledMod :=
  [⟨0, some (0, "1"), true⟩, ⟨1, some (1, "1"), false⟩]

/-- Example snapshot: A installed on request, B as a dependency. -/
def exSnapHardDep : List InstalledMod :=
  [⟨0, some (0, "1"), false⟩, ⟨1, some (1, "1"), true⟩]

/-- Example snapshot for the cyclic database: A on request, B as a dependency, and a
package C (uid 2) installed as a dependency that nothing depends on. -/
def exSnapCyclic : List InstalledMod :=
  [⟨0, some (0, "1"), false⟩, ⟨1, some (1, "1"), true⟩, ⟨2, some (2, "1"), true⟩]

/-- Example snapshot whose second entry has no valid version. -/
def exSnapInvalid : List InstalledMod :=
  [⟨0, some (0, "1"), false⟩, ⟨1, none, true⟩]

/-- Example snapshot with A only: the target B of its dependency is not installed. -/
def exSnapMissing : List InstalledMod :=
  [⟨0, some (0, "1"), false⟩]

/-! ## Invariants of the version resolution -/

/-- The dependency `d` of a version is satisfied in the selection: if the target has
metadata and the selector returns a version for the edge, the selection holds a version
of the package of that version. -/
def EdgeSatisfied {K : Type} (env : Env K) (sel : Selection)
    (d : QuickModRef × (QuickModVersionRef × Bool)) : Prop :=
  env.allModMetadata d.1 ≠ [] → ∀ dep, (env.getVersion d.1 d.2.1).1 = some dep →
    ∃ x ∈ sel, x.1 = dep.mod

/-- The selection is keyed by the package of each version and closed under resolved
dependencies. -/
def Closed {K : Type} (env : Env K) (sel : Selection) : Prop :=
  ∀ x ∈ sel, x.1 = x.2.mod ∧ ∀ d ∈ x.2.dependencies.entries, EdgeSatisfied env sel d

/-- Every key of the first selection is a key of the second. -/
def KeysSubset (sel sel' : Selection) : Prop :=
  ∀ x ∈ sel, ∃ y ∈ sel', y.1 = x.1

/-- What a call of the recursive step guarantees. -/
def StepOk {K : Type} (env : Env K) (sel sel' : Selection) : Prop :=
  KeysSubset sel sel' ∧
    ∀ x ∈ sel', x ∈ sel ∨
      (x.1 = x.2.mod ∧ ∀ d ∈ x.2.dependencies.entries, EdgeSatisfied env sel' d)

/-- Example version A 1, depending on B. -/
def exVersionA : QuickModVersion := ⟨⟨0, "repo", "A"⟩, "1", exDeps 1⟩

/-- Example version B 1, depending on C. -/
def exVersionB : QuickModVersion := ⟨⟨1, "repo", "B"⟩, "1", exDeps 2⟩

/-- Example version C 1, without dependencies. -/
def exVersionC : QuickModVersion := ⟨⟨2, "repo", "C"⟩, "1", QMap.empty⟩

/-- Example comparison values of version names. -/
def exVersionValue (s : String) : Nat :=
  if s = "1" then 1 else if s = "2" then 2 else 0

/-- Example environment: the packages A, B, C (uids 0, 1, 2) are known and the selector
answers with their version 1. -/
def exEnvChain : Env Nat where
  allModMetadata := fun uid =>
    if uid = 0 then [⟨0, "repo", "A"⟩] else if uid = 1 then [⟨1, "repo", "B"⟩]
    else if uid = 2 then [⟨2, "repo", "C"⟩] else []
  getVersion := fun uid _ =>
    if uid = 0 then (some exVersionA, true) else if uid = 1 then (some exVersionB, true)
    else if uid = 2 then (some exVersionC, true) else (none, false)
  Version := exVersionValue

/-- The selection holds, for the package of the candidate `c`, a version that compares
greater than or equal to `c`. -/
def Covers {K : Type} [LinearOrder K] (env : Env K) (sel : Selection)
    (c : QuickModVersion) : Prop :=
  ∃ w, sel.value c.mod = some w ∧ env.Version c.name ≤ env.Version w.name

/-- From the first selection to the second no package loses its selection and no
selected version is replaced by one that compares smaller. -/
def Mono {K : Type} [LinearOrder K] (env : Env K) (sel sel' : Selection) : Prop :=
  ∀ k cur, sel.value k = some cur →
    ∃ cur', sel'.value k = some cur' ∧ env.Version cur.name ≤ env.Version cur'.name

/-- Every non-null answer to a selector request among the events is covered by the
selection. -/
def AllCovered {K : Type} [LinearOrder K] (env : Env K) (sel : Selection)
    (evs : List Event) : Prop :=
  ∀ uid filter, Event.getVersion uid filter ∈ evs →
    ∀ c, (env.getVersion uid filter).1 = some c → Covers env sel c

/-- Example version B with the given name, without dependencies. -/
def exVersionBNamed (name : String) : QuickModVersion :=
  ⟨⟨1, "repo", "B"⟩, name, QMap.empty⟩

/-- Example environment for two candidates of one package: A (uid 0) depends on B
(uid 1) with constraint `fA` and on C (uid 2); C depends on B with constraint `fC`; the
selector answers a request for B with the version named by the constraint. -/
def exEnvTwo (fA fC : String) : Env Nat where
  allModMetadata := fun uid =>
    if uid = 0 then [⟨0, "repo", "A"⟩] else if uid = 1 then [⟨1, "repo", "B"⟩]
    else if uid = 2 then [⟨2, "repo", "C"⟩] else []
  getVersion := fun uid filter =>
    if uid = 0 then
      (some ⟨⟨0, "repo", "A"⟩, "1",
        ⟨[(1, (some (1, fA), false)), (2, (none, false))],
          List.pairwise_pair.2 (Nat.lt_succ_self 1)⟩⟩, true)
    else if uid = 2 then
      (some ⟨⟨2, "repo", "C"⟩, "1",
        ⟨[(1, (some (1, fC), false))], List.pairwise_singleton _ _⟩⟩, true)
    else if uid = 1 then
      match filter with
      | some (_, name) => (some (exVersionBNamed name), true)
      | none => (none, false)
    else (none, false)
  Version := exVersionValue

/-- The names of the packages and versions of a result of `resolve`. -/
def selectedNames (r : Except Failure (List QuickModVersion × Selection × List Event)) :
    Except Failure (List (String × String)) :=
  r.map (fun x => x.1.map (fun v => (v.mod.name, v.name)))

/-! ## The measure of the termination of the version resolution -/

/-- The test of `Covers` as a Boolean. -/
def coversB {K : Type} [LinearOrder K] (env : Env K) (sel : Selection)
    (c : QuickModVersion) : Bool :=
  match sel.value c.mod with
  | some w => decide (env.Version c.name ≤ env.Version w.name)
  | none => false

/-- The number of versions of the list `answers` that the selection does not cover. -/
def uncovered {K : Type} [LinearOrder K] (env : Env K) (answers : List QuickModVersion)
    (sel : Selection) : Nat :=
  (answers.filter (fun c => !coversB env sel c)).length

/-- Example version B 1 that depends on A. -/
def exVersionBCyclic : QuickModVersion := ⟨⟨1, "repo", "B"⟩, "1", exDeps 0⟩

/-- Example environment with a dependency cycle: A 1 depends on B and B 1 on A; the
selector answers with these versions. -/
def exEnvCycle : Env Nat where
  allModMetadata := fun uid =>
    if uid = 0 then [⟨0, "repo", "A"⟩] else if uid = 1 then [⟨1, "repo", "B"⟩] else []
  getVersion := fun uid _ =>
    if uid = 0 then (some exVersionA, true)
    else if uid = 1 then (some exVersionBCyclic, true) else (none, false)
  Version := exVersionValue

/-- Example version D 1 (uid 3), depending on the uid 7. -/
def exVersionD : QuickModVersion := ⟨⟨3, "repo", "D"⟩, "1", exDeps 7⟩

/-- Example environment: A 1 depends on B; for B the selector answers with `answerB`;
the packages A and B have metadata. -/
def exEnvEdge (answerB : Option QuickModVersion × Bool) : Env Nat where
  allModMetadata := fun uid =>
    if uid = 0 then [⟨0, "repo", "A"⟩] else if uid = 1 then [⟨1, "repo", "B"⟩] else []
  getVersion := fun uid _ =>
    if uid = 0 then (some exVersionA, true) else if uid = 1 then answerB else (none, false)
  Version := exVersionValue

/-! ## The shape of the trace of the version resolution -/

/-- The error the loop over the dependencies emits for an edge to `key` when the
selector reports failure: a list with that one signal, or the empty list. -/
def edgeFailure {K : Type} (env : Env K) (version : QuickModVersion)
    (d : QuickModRef × (QuickModVersionRef × Bool)) : List Event :=
  if (env.getVersion d.1 d.2.1).2 then []
  else [Event.error (Message.didntSelectWhileResolving version.mod.name version.name d.1)]

/-- The list `block` is what a run emits and requests for the edge `d` of `version`:
without metadata for the target, the warning alone; with metadata, the request to the
selector, the error if the selector reports failure, and then either the warning (no
version returned) or the success followed by the trace of a recursive call `rec` on the
version returned. -/
def EdgeBlock {K : Type} (env : Env K)
    (rec : QuickModVersion → Selection → Except Failure (Selection × List Event))
    (version : QuickModVersion) (d : QuickModRef × (QuickModVersionRef × Bool))
    (block : List Event) : Prop :=
  if env.allModMetadata d.1 = [] then
    block = [Event.warning (Message.cannotBeResolved version.mod.name version.name d.1)]
  else
    match (env.getVersion d.1 d.2.1).1 with
    | none =>
      block = Event.getVersion d.1 d.2.1 :: edgeFailure env version d ++
        [Event.warning (Message.cannotBeResolved version.mod.name version.name d.1)]
    | some dep =>
      ∃ sel sel' nested, rec dep sel = .ok (sel', nested) ∧
        block = Event.getVersion d.1 d.2.1 :: edgeFailure env version d ++
          [Event.success (Message.resolved version.mod.name version.name
            dep.mod.name dep.name)] ++ nested

/-- The requested packages that `resolve(mods)` processes: those up to and including the
first one for which the selector reports failure. -/
def processed {K : Type} (env : Env K) : List QuickModRef → List QuickModRef
  | [] => []
  | mod :: rest => if (env.getVersion mod none).2 then mod :: processed env rest else [mod]

/-- The list `block` is what a run of `resolve(mods)` with call depth `fuel` emits and
requests for the requested package `mod`: the request to the selector, the trace of the
recursive step on its answer, and the error if the selector reports failure. -/
def RequestBlock {K : Type} [LinearOrder K] (env : Env K) (fuel : Nat) (mod : QuickModRef)
    (block : List Event) : Prop :=
  ∃ sel sel' nested, resolveVersion env fuel (env.getVersion mod none).1 sel = .ok (sel', nested) ∧
    block = Event.getVersion mod none :: nested ++
      (if (env.getVersion mod none).2 then [] else [Event.error (Message.didntSelect mod)])

/-- Example database: X (uid 2) depends on A (uid 0), A on B (uid 1), B on D (uid 3). -/
def exDbFour : QuickModVersionRef → Option QuickModVersion := fun r =>
  if r = some (0, "1") then some ⟨⟨0, "repo", "A"⟩, "1", exDeps 1⟩
  else if r = some (1, "1") then some ⟨⟨1, "repo", "B"⟩, "1", exDeps 3⟩
  else if r = some (2, "1") then some ⟨⟨2, "repo", "X"⟩, "1", exDeps 0⟩
  else if r = some (3, "1") then some ⟨⟨3, "repo", "D"⟩, "1", QMap.empty⟩
  else none

/-- Example snapshot: B installed on request, A, X and D as dependencies. -/
def exSnapFour : List InstalledMod :=
  [⟨0, some (0, "1"), true⟩, ⟨1, some (1, "1"), false⟩, ⟨2, some (2, "1"), true⟩,
    ⟨3, some (3, "1"), true⟩]

/-- The graph of the example snapshot. -/
def exNodesFour : List DepNode :=
  [⟨some (0, "1"), 0, [1], [2], false⟩, ⟨some (1, "1"), 1, [3], [0], true⟩,
    ⟨some (2, "1"), 2, [0], [], false⟩, ⟨some (3, "1"), 3, [], [1], false⟩]

/-- Example environment with two metadata records for the uid of B: A depends on B
(constraint "1") and on C, C depends on B (constraint "2"); for the constraint "2" the
selector answers with a version of B from the repository "other". -/
def exEnvRepos : Env Nat where
  allModMetadata := fun uid =>
    if uid = 0 then [⟨0, "repo", "A"⟩]
    else if uid = 1 then [⟨1, "repo", "B"⟩, ⟨1, "other", "B"⟩]
    else if uid = 2 then [⟨2, "repo", "C"⟩] else []
  getVersion := fun uid filter =>
    if uid = 0 then
      (some ⟨⟨0, "repo", "A"⟩, "1",
        ⟨[(1, (some (1, "1"), false)), (2, (none, false))],
          List.pairwise_pair.2 (Nat.lt_succ_self 1)⟩⟩, true)
    else if uid = 2 then
      (some ⟨⟨2, "repo", "C"⟩, "1",
        ⟨[(1, (some (1, "2"), false))], List.pairwise_singleton _ _⟩⟩, true)
    else if uid = 1 then
      if filter = some (1, "2") then (some ⟨⟨1, "other", "B"⟩, "2", QMap.empty⟩, true)
      else (some ⟨⟨1, "repo", "B"⟩, "1", QMap.empty⟩, true)
    else (none, false)
  Version := exVersionValue

/-- The uid, repository and version name of the versions of a result of `resolve`. -/
def selectedPackages (r : Except Failure (List QuickModVersion × Selection × List Event)) :
    Except Failure (List (QuickModRef × String × String)) :=
  r.map (fun x => x.1.map (fun v => (v.mod.uid, v.mod.repo, v.name)))

/-! ## Entries of the selection kept across calls -/

/-- A `QJsonValue`.  A number is represented by its integer value: the numbers read by
the code embedded here are read through `MMCJson::ensureInteger`, which accepts no
other number. -/
inductive JsonValue where
  | undefined
  | null
  | bool (b : Bool)
  | number (n : Int)
  | string (s : String)
  | array (items : List JsonValue)
  | object (members : List (String × JsonValue))

/-- A `QJsonObject`, as the list of its members; a key occurs once.  The order of the
members is not observed by `value` and `contains`. -/
abbrev JsonObject := List (String × JsonValue)

/-- `QJsonObject::value(key)`: the value of the key, `Undefined` if there is none. -/
def JsonObject.value (o : JsonObject) (key : String) : JsonValue :=
  match o.find? (fun m => m.1 = key) with
  | some m => m.2
  | none => JsonValue.undefined

/-- `QJsonObject::contains(key)`. -/
def JsonObject.contains (o : JsonObject) (key : String) : Bool :=
  o.any (fun m => m.1 = key)

/-- `QJsonObject::insert(key, value)`: a member with the key is replaced. -/
def JsonObject.insert (o : JsonObject) (key : String) (v : JsonValue) : JsonObject :=
  (key, v) :: o.filter (fun m => m.1 ≠ key)

/-- `QJsonValue::toString(defaultValue)`. -/
def JsonValue.toString (v : JsonValue) (defaultValue : String) : String :=
  match v with
  | .string s => s
  | _ => defaultValue

/-- `QJsonValue::toBool(defaultValue)`. -/
def JsonValue.toBool (v : JsonValue) (defaultValue : Bool) : Bool :=
  match v with
  | .bool b => b
  | _ => defaultValue

/-- `QJsonValue::toObject()`: the empty object for a value that is not an object. -/
def JsonValue.toObject (v : JsonValue) : JsonObject :=
  match v with
  | .object members => members
  | _ => []

/-- The errors thrown while reading or using a version (`MMCError` and its subclass
`JSONValidationError`), by their text. -/
inductive MMCError where
  /-- The error of an `MMCJson::ensure...` helper about the item named `what`. -/
  | validation (what : String)
  /-- The error "No downloads available". -/
  | noDownloads
  /-- The error "Unknown value for \"installType\" field". -/
  | unknownInstallType
  /-- The error "Unknown reference type '%1'". -/
  | unknownReferenceType (type : String)
  /-- The error "Unknown value for \"downloadType\" field". -/
  | unknownDownloadType
deriving DecidableEq, Repr

/-- Modelled from the spec: `MMCJson::ensureString(val, what)` (logic/MMCJson.h is not
among the sources): the text of a string value; any other value is a validation error. -/
def MMCJson.ensureString (val : JsonValue) (what : String) : Except MMCError String :=
  match val with
  | .string s => .ok s
  | _ => .error (.validation what)

/-- Modelled from the spec: `MMCJson::ensureArray(val, what)` (logic/MMCJson.h is not
among the sources): the items of an array value; any other value is a validation
error. -/
def MMCJson.ensureArray (val : JsonValue) (what : String) :
    Except MMCError (List JsonValue) :=
  match val with
  | .array items => .ok items
  | _ => .error (.validation what)

/-- Modelled from the spec: `MMCJson::ensureObject(val, what)` (logic/MMCJson.h is not
among the sources): the members of an object value; any other value is a validation
error. -/
def MMCJson.ensureObject (val : JsonValue) (what : String) : Except MMCError JsonObject :=
  match val with
  | .object members => .ok members
  | _ => .error (.validation what)

/-- Modelled from the spec: `MMCJson::ensureInteger(val, what, def)` (logic/MMCJson.h is
not among the sources): the default `def` for an undefined value, the number of a number
value; any other value is a validation error.  The range of `int` is not modelled: the
priorities read are compared and never computed with. -/
def MMCJson.ensureInteger (val : JsonValue) (what : String) (defaultValue : Int) :
    Except MMCError Int :=
  match val with
  | .undefined => .ok defaultValue
  | .number n => .ok n
  | _ => .error (.validation what)

/-- A `QUrl`, represented by its fully encoded text (`toString(QUrl::FullyEncoded)`);
the empty text is the empty URL. -/
abbrev QUrl := String

/-- Modelled from the spec: `MMCJson::ensureUrl(val, what)` (logic/MMCJson.h is not among
the sources): the URL of a string value; any other value is a validation error.  The
validity test on the text of the URL is not modelled. -/
def MMCJson.ensureUrl (val : JsonValue) (what : String) : Except MMCError QUrl :=
  MMCJson.ensureString val what

/-- Modelled from the spec: `MMCJson::writeString(to, key, value)` (logic/MMCJson.h is
not among the sources): inserts the text under the key unless the text is empty. -/
def MMCJson.writeString (obj : JsonObject) (key : String) (value : String) : JsonObject :=
  if value = "" then obj else obj.insert key (.string value)

/-- Modelled from the spec: `MMCJson::writeObjectList(to, key, values)` (logic/MMCJson.h
is not among the sources): inserts the array of the `toJson()` objects of the values
under the key unless the list is empty.  The argument is the list of these objects. -/
def MMCJson.writeObjectList (obj : JsonObject) (key : String) (values : List JsonObject) :
    JsonObject :=
  if values.isEmpty then obj else obj.insert key (.array (values.map JsonValue.object))

/-! ## Version records (`BaseQuickModVersion`) -/

/-- Modelled from the spec: the conversions between a `QuickModRef` and its text
(QuickModRef.h is not among the sources): `QuickModRef(const QString &)` and
`QuickModRef::toString()`. -/
structure UidText where
  ofString : String → QuickModRef
  toString : QuickModRef → String

/-- Modelled from the spec: the constructor `QuickModVersionRef(mod, id)`
(QuickModVersionRef.h is not among the sources): the reference to the version `id`
of the package `mod`. -/
def QuickModVersionRef.make (mod : QuickModRef) (id : String) : QuickModVersionRef :=
  some (mod, id)

/-- Modelled from the spec: `QuickModVersionRef::toString()` (QuickModVersionRef.h is not
among the sources): the version tag of the reference, empty for an unset reference. -/
def QuickModVersionRef.toString (v : QuickModVersionRef) : String :=
  match v with
  | some (_, id) => id
  | none => ""

/-- The entries of a map after `QMap::insert(k, v)`: the value of an existing key is
replaced, a new key is put at its place in the ascending order. -/
def QMap.insertEntry {V : Type} (k : QuickModRef) (v : V) :
    List (QuickModRef × V) → List (QuickModRef × V)
  | [] => [(k, v)]
  | e :: l =>
    if e.1 < k then e :: QMap.insertEntry k v l
    else if e.1 = k then (k, v) :: l
    else (k, v) :: e :: l

/-- `QMap::insert(k, v)`. -/
def QMap.insert {V : Type} (m : QMap V) (k : QuickModRef) (v : V) : QMap V :=
  ⟨QMap.insertEntry k v m.entries, by
    have key : ∀ l : List (QuickModRef × V), (l.map Prod.fst).Pairwise (fun a b => a < b) →
        ((QMap.insertEntry k v l).map Prod.fst).Pairwise (fun a b => a < b) ∧
        ∀ x ∈ (QMap.insertEntry k v l).map Prod.fst, x = k ∨ x ∈ l.map Prod.fst := by
      intro l
      induction l with
      | nil => intro _; simp [QMap.insertEntry]
      | cons e l ih =>
        intro h
        rw [List.map_cons, List.pairwise_cons] at h
        obtain ⟨h1, h2⟩ := h
        obtain ⟨ih1, ih2⟩ := ih h2
        unfold QMap.insertEntry
        by_cases hlt : e.1 < k
        · rw [if_pos hlt]
          refine ⟨?_, ?_⟩
          · rw [List.map_cons, List.pairwise_cons]
            refine ⟨fun x hx => ?_, ih1⟩
            rcases ih2 x hx with hxk | hxl
            · rw [hxk]; exact hlt
            · exact h1 x hxl
          · intro x hx
            rw [List.map_cons, List.mem_cons] at hx
            rcases hx with hx | hx
            · exact Or.inr (by rw [hx]; exact List.mem_cons_self _ _)
            · rcases ih2 x hx with hxk | hxl
              · exact Or.inl hxk
              · exact Or.inr (List.mem_cons_of_mem _ hxl)
        · rw [if_neg hlt]
          by_cases heq : e.1 = k
          · rw [if_pos heq]
            refine ⟨?_, ?_⟩
            · rw [List.map_cons, List.pairwise_cons]
              exact ⟨fun x hx => heq ▸ h1 x hx, h2⟩
            · intro x hx
              rw [List.map_cons, List.mem_cons] at hx
              rcases hx with hx | hx
              · exact Or.inl hx
              · exact Or.inr (List.mem_cons_of_mem _ hx)
          · rw [if_neg heq]
            have hk : k < e.1 := lt_of_le_of_ne (not_lt.mp hlt) (Ne.symm heq)
            refine ⟨?_, ?_⟩
            · rw [List.map_cons, List.pairwise_cons]
              refine ⟨fun x hx => ?_, ?_⟩
              · rw [List.map_cons, List.mem_cons] at hx
                rcases hx with hx | hx
                · rw [hx]; exact hk
                · exact lt_trans hk (h1 x hx)
              · rw [List.map_cons, List.pairwise_cons]
                exact ⟨h1, h2⟩
            · intro x hx
              rw [List.map_cons, List.mem_cons] at hx
              rcases hx with hx | hx
              · exact Or.inl hx
              · exact Or.inr hx
    exact (key m.entries m.sorted).1⟩

/-- The enumeration `BaseQuickModVersion::InstallType`, with the values that `toJson`
distinguishes. -/
inductive InstallType where
  | ForgeMod | ForgeCoreMod | LiteLoaderMod | Extract | ConfigPack | Group
deriving DecidableEq, Repr

/-- The enumeration `QuickModDownload::DownloadType`. -/
inductive DownloadType where
  | Direct | Parallel | Sequential | Encoded
deriving DecidableEq, Repr

/-- A download of a version (`QuickModDownload`), with the fields that `parse` sets. -/
structure QuickModDownload where
  url : String
  priority : Int
  type : DownloadType
  hint : String
  group : String
deriving DecidableEq, Repr

/-- A library of a version (`BaseQuickModVersion::Library`). -/
structure Library where
  name : String
  repo : QUrl
deriving DecidableEq, Repr

/-- A version record (`BaseQuickModVersion`), with the members that `parse` and `toJson`
read and write.  The member `m_version` is `Util::Version(versionString)` and is left
out.  The record `QuickModVersion` above is the part of it that the resolver reads. -/
structure BaseQuickModVersion where
  mod : QuickModMetadata
  installType : InstallType
  versionName : String
  versionString : String
  type : String
  sha1 : String
  dependencies : QMap (QuickModVersionRef × Bool)
  recommendations : QMap QuickModVersionRef
  suggestions : QMap QuickModVersionRef
  conflicts : QMap QuickModVersionRef
  provides : QMap QuickModVersionRef
  libraries : List Library
  downloads : List QuickModDownload

/-- Modelled from the spec: the constructor of `BaseQuickModVersion` (QuickModVersion.h
is not among the sources): a fresh version of the package `mod` with the install type
given, empty texts, maps and lists. -/
def BaseQuickModVersion.create (mod : QuickModMetadata) (type : InstallType) :
    BaseQuickModVersion :=
  ⟨mod, type, "", "", "", "", QMap.empty, QMap.empty, QMap.empty, QMap.empty, QMap.empty,
    [], []⟩

/-- Modelled from the spec: the constructor `QuickModForgeModVersion(mod, type)`
(QuickModVersion.h is not among the sources): a fresh version of the install type
given.  The second argument is optional (`parseSingle` omits it for "forgeMod") and is
taken to default to `ForgeMod`. -/
def QuickModForgeModVersion (mod : QuickModMetadata) (type : InstallType) :
    BaseQuickModVersion :=
  BaseQuickModVersion.create mod type

/-- Modelled from the spec: the constructor `QuickModLiteloaderVersion(mod)`
(QuickModVersion.h is not among the sources): a fresh version of the install type
`LiteLoaderMod`. -/
def QuickModLiteloaderVersion (mod : QuickModMetadata) : BaseQuickModVersion :=
  BaseQuickModVersion.create mod InstallType.LiteLoaderMod

/-- Modelled from the spec: the constructor `QuickModExtractVersion(mod)`
(QuickModVersion.h is not among the sources): a fresh version of the install type
`Extract`. -/
def QuickModExtractVersion (mod : QuickModMetadata) : BaseQuickModVersion :=
  BaseQuickModVersion.create mod InstallType.Extract

/-- Modelled from the spec: the constructor `QuickModConfigPackVersion(mod)`
(QuickModVersion.h is not among the sources): a fresh version of the install type
`ConfigPack`. -/
def QuickModConfigPackVersion (mod : QuickModMetadata) : BaseQuickModVersion :=
  BaseQuickModVersion.create mod InstallType.ConfigPack

/-- Modelled from the spec: the constructor `QuickModGroupVersion(mod)`
(QuickModVersion.h is not among the sources): a fresh version of the install type
`Group`. -/
def QuickModGroupVersion (mod : QuickModMetadata) : BaseQuickModVersion :=
  BaseQuickModVersion.create mod InstallType.Group

/-- `BaseQuickModVersion::highestPriorityDownload(type)`: the first download of the
list, the error "No downloads available" for an empty list. -/
def BaseQuickModVersion.highestPriorityDownload (self : BaseQuickModVersion)
    (type : DownloadType) : Except MMCError QuickModDownload :=
  match self.downloads with
  | [] => .error MMCError.noDownloads
  | first :: _ => .ok first

/-! ## Reading a version (`BaseQuickModVersion::parse`) -/

/-- The first part of `parse(object)`: the members `versionName`, `versionString`,
`type` and `sha1`.  `ensureString` is called without `what` for "version"; the text of
its error is then taken to name the item "value". -/
def BaseQuickModVersion.parseNames (self : BaseQuickModVersion) (object : JsonObject) :
    Except MMCError BaseQuickModVersion := do
  let self ←
    if JsonObject.contains object "name" && JsonObject.contains object "version" then do
      let versionName ← MMCJson.ensureString (JsonObject.value object "name") "name"
      let versionString ← MMCJson.ensureString (JsonObject.value object "version") "value"
      pure { self with versionName := versionName, versionString := versionString }
    else if JsonObject.contains object "name" then do
      let versionName ← MMCJson.ensureString (JsonObject.value object "name") "name"
      pure { self with versionName := versionName, versionString := versionName }
    else do
      let versionName ← MMCJson.ensureString (JsonObject.value object "version") "value"
      pure { self with versionName := versionName, versionString := versionName }
  let type ←
    if JsonObject.contains object "type" then
      MMCJson.ensureString (JsonObject.value object "type") "type"
    else pure "Release"
  pure { self with type := type, sha1 := (JsonObject.value object "sha1").toString "" }

/-- The body of the loop over the array "references" in `parse(object)`. -/
def BaseQuickModVersion.parseReference (t : UidText) (self : BaseQuickModVersion)
    (val : JsonValue) : Except MMCError BaseQuickModVersion := do
  let obj ← MMCJson.ensureObject val "reference"
  let uid ← MMCJson.ensureString (JsonObject.value obj "uid") "uid"
  let versionText ← MMCJson.ensureString (JsonObject.value obj "version") "version"
  let version := QuickModVersionRef.make (t.ofString uid) versionText
  let type ← MMCJson.ensureString (JsonObject.value obj "type") "type"
  if type = "depends" then
    let isSoft := (JsonObject.value obj "isSoft").toBool false
    pure { self with dependencies := self.dependencies.insert (t.ofString uid) (version, isSoft) }
  else if type = "recommends" then
    pure { self with recommendations := self.recommendations.insert (t.ofString uid) version }
  else if type = "suggests" then
    pure { self with suggestions := self.suggestions.insert (t.ofString uid) version }
  else if type = "conflicts" then
    pure { self with conflicts := self.conflicts.insert (t.ofString uid) version }
  else if type = "provides" then
    pure { self with provides := self.provides.insert (t.ofString uid) version }
  else
    throw (MMCError.unknownReferenceType type)

/-- The loop over the array "references" in `parse(object)`. -/
def BaseQuickModVersion.parseReferencesLoop (t : UidText) :
    List JsonValue → BaseQuickModVersion → Except MMCError BaseQuickModVersion
  | [], self => .ok self
  | val :: rest, self =>
    match BaseQuickModVersion.parseReference t self val with
    | .error e => .error e
    | .ok self => BaseQuickModVersion.parseReferencesLoop t rest self

/-- The second part of `parse(object)`: the five maps of references are cleared and
filled from the array "references", if there is one. -/
def BaseQuickModVersion.parseReferences (t : UidText) (self : BaseQuickModVersion)
    (object : JsonObject) : Except MMCError BaseQuickModVersion := do
  let self := { self with
    dependencies := QMap.empty, recommendations := QMap.empty, suggestions := QMap.empty,
    conflicts := QMap.empty, provides := QMap.empty }
  if JsonObject.contains object "references" then do
    let vals ← MMCJson.ensureArray (JsonObject.value object "references") "references"
    BaseQuickModVersion.parseReferencesLoop t vals self
  else
    pure self

/-- The body of the loop over the array "libraries" in `parse(object)`. -/
def BaseQuickModVersion.parseLibrary (lib : JsonValue) : Except MMCError Library := do
  let libObj ← MMCJson.ensureObject lib "library"
  let name ← MMCJson.ensureString (JsonObject.value libObj "name") "library \x27name\x27"
  if JsonObject.contains libObj "url" then do
    let repo ← MMCJson.ensureUrl (JsonObject.value libObj "repo") "library repo"
    pure { name := name, repo := repo }
  else
    pure { name := name, repo := "http://repo1.maven.org/maven2/" }

/-- The loop over the array "libraries" in `parse(object)`. -/
def BaseQuickModVersion.parseLibrariesLoop :
    List JsonValue → List Library → Except MMCError (List Library)
  | [], libraries => .ok libraries
  | lib :: rest, libraries =>
    match BaseQuickModVersion.parseLibrary lib with
    | .error e => .error e
    | .ok library => BaseQuickModVersion.parseLibrariesLoop rest (libraries ++ [library])

/-- The third part of `parse(object)`: the list of libraries is cleared and filled from
the array "libraries", if there is one. -/
def BaseQuickModVersion.parseLibraries (self : BaseQuickModVersion) (object : JsonObject) :
    Except MMCError BaseQuickModVersion := do
  if JsonObject.contains object "libraries" then do
    let vals ← MMCJson.ensureArray (JsonObject.value object "libraries") "libraries"
    let libraries ← BaseQuickModVersion.parseLibrariesLoop vals []
    pure { self with libraries := libraries }
  else
    pure { self with libraries := [] }

/-- The body of the loop over the array "urls" in `parse(object)`. -/
def BaseQuickModVersion.parseDownload (dlValue : JsonValue) :
    Except MMCError QuickModDownload := do
  let dlObject := dlValue.toObject
  let url ← MMCJson.ensureString (JsonObject.value dlObject "url") "url"
  let priority ← MMCJson.ensureInteger (JsonObject.value dlObject "priority") "priority" 0
  let typeString := (JsonObject.value dlObject "downloadType").toString "parallel"
  let type ←
    if typeString = "direct" then pure DownloadType.Direct
    else if typeString = "parallel" then pure DownloadType.Parallel
    else if typeString = "sequential" then pure DownloadType.Sequential
    else if typeString = "encoded" then pure DownloadType.Encoded
    else throw MMCError.unknownDownloadType
  pure { url := url, priority := priority, type := type,
         hint := (JsonObject.value dlObject "hint").toString "",
         group := (JsonObject.value dlObject "group").toString "" }

/-- The loop over the array "urls" in `parse(object)`. -/
def BaseQuickModVersion.parseDownloadsLoop :
    List JsonValue → List QuickModDownload → Except MMCError (List QuickModDownload)
  | [], downloads => .ok downloads
  | dlValue :: rest, downloads =>
    match BaseQuickModVersion.parseDownload dlValue with
    | .error e => .error e
    | .ok download => BaseQuickModVersion.parseDownloadsLoop rest (downloads ++ [download])

/-- Insertion of `a` into a list sorted by `less`, of elements that came after `a`:
behind the elements less than `a`, in front of all others. -/
def insertSorted {α : Type} (less : α → α → Bool) (a : α) : List α → List α
  | [] => [a]
  | b :: l => if less b a then b :: insertSorted less a l else a :: b :: l

/-- `std::stable_sort(first, last, less)`: the list sorted by `less`, elements of which
none is less than the other in their original order.  The result, which the C++
standard fixes, is computed by insertion. -/
def stableSort {α : Type} (less : α → α → Bool) : List α → List α
  | [] => []
  | a :: l => insertSorted less a (stableSort less l)

/-- The last part of `parse(object)`: the list of downloads is cleared, filled from the
array "urls" and sorted by priority. -/
def BaseQuickModVersion.parseDownloads (self : BaseQuickModVersion) (object : JsonObject) :
    Except MMCError BaseQuickModVersion := do
  let vals ← MMCJson.ensureArray (JsonObject.value object "urls") "urls"
  let downloads ← BaseQuickModVersion.parseDownloadsLoop vals []
  pure { self with
    downloads := stableSort (fun dl1 dl2 => decide (dl1.priority < dl2.priority)) downloads }

/-- `BaseQuickModVersion::parse(object)`. -/
def BaseQuickModVersion.parse (t : UidText) (self : BaseQuickModVersion)
    (object : JsonObject) : Except MMCError BaseQuickModVersion := do
  let self ← self.parseNames object
  let self ← self.parseReferences t object
  let self ← self.parseLibraries object
  self.parseDownloads object

/-- The first part of `parseSingle(object, mod)`: the object of the class that the
field "installType" names. -/
def BaseQuickModVersion.construct (object : JsonObject) (mod : QuickModMetadata) :
    Except MMCError BaseQuickModVersion :=
  let typeString := (JsonObject.value object "installType").toString "forgeMod"
  if typeString = "forgeMod" then .ok (QuickModForgeModVersion mod InstallType.ForgeMod)
  else if typeString = "forgeCoreMod" then
    .ok (QuickModForgeModVersion mod InstallType.ForgeCoreMod)
  else if typeString = "liteloaderMod" then .ok (QuickModLiteloaderVersion mod)
  else if typeString = "extract" then .ok (QuickModExtractVersion mod)
  else if typeString = "configPack" then .ok (QuickModConfigPackVersion mod)
  else if typeString = "group" then .ok (QuickModGroupVersion mod)
  else .error MMCError.unknownInstallType

/-- `BaseQuickModVersion::parseSingle(object, mod)`. -/
def BaseQuickModVersion.parseSingle (t : UidText) (object : JsonObject)
    (mod : QuickModMetadata) : Except MMCError BaseQuickModVersion := do
  let ptr ← BaseQuickModVersion.construct object mod
  ptr.parse t object

/-! ## Writing a version (`BaseQuickModVersion::toJson`) -/

/-- `BaseQuickModVersion::Library::toJson()`. -/
def Library.toJson (self : Library) : JsonObject :=
  let obj : JsonObject := JsonObject.insert [] "name" (.string self.name)
  if self.repo ≠ "" then JsonObject.insert obj "url" (.string self.repo) else obj

/-- The object that the loop over `dependencies` in `toJson` appends for an entry. -/
def dependsToJson (t : UidText) (it : QuickModRef × (QuickModVersionRef × Bool)) :
    JsonValue :=
  let obj : JsonObject := JsonObject.insert [] "type" (.string "depends")
  let obj := JsonObject.insert obj "uid" (.string (t.toString it.1))
  let obj := JsonObject.insert obj "version" (.string (QuickModVersionRef.toString it.2.1))
  let obj := JsonObject.insert obj "isSoft" (.bool it.2.2)
  .object obj

/-- The object that the lambda `refToJson` in `toJson` appends for an entry. -/
def referenceToJson (t : UidText) (type : String) (it : QuickModRef × QuickModVersionRef) :
    JsonValue :=
  let obj : JsonObject := JsonObject.insert [] "type" (.string type)
  let obj := JsonObject.insert obj "uid" (.string (t.toString it.1))
  let obj := JsonObject.insert obj "version" (.string (QuickModVersionRef.toString it.2))
  .object obj

/-- The lambda `refToJson` in `toJson`: the array `refs` after the objects of the
entries of the map were appended. -/
def refToJson (t : UidText) (refs : List JsonValue) (type : String)
    (references : QMap QuickModVersionRef) : List JsonValue :=
  refs ++ references.entries.map (referenceToJson t type)

/-- `BaseQuickModVersion::toJson()`.  `QuickModDownload::toJson()` is not among the
sources and is the parameter `downloadToJson`. -/
def BaseQuickModVersion.toJson (t : UidText) (downloadToJson : QuickModDownload → JsonObject)
    (self : BaseQuickModVersion) : JsonObject :=
  let refs : List JsonValue := []
  let obj : JsonObject := JsonObject.insert [] "name" (.string self.versionName)
  let obj := MMCJson.writeString obj "version" self.versionString
  let obj := MMCJson.writeString obj "type" self.type
  let obj := MMCJson.writeString obj "sha1" self.sha1
  let obj := MMCJson.writeObjectList obj "libraries" (self.libraries.map Library.toJson)
  let refs := refs ++ self.dependencies.entries.map (dependsToJson t)
  let refs := refToJson t refs "recommends" self.recommendations
  let refs := refToJson t refs "suggests" self.suggestions
  let refs := refToJson t refs "conflicts" self.conflicts
  let refs := refToJson t refs "provides" self.provides
  let obj := JsonObject.insert obj "references" (.array refs)
  let obj :=
    match self.installType with
    | .ForgeMod => JsonObject.insert obj "installType" (.string "forgeMod")
    | .ForgeCoreMod => JsonObject.insert obj "installType" (.string "forgeCoreMod")
    | .LiteLoaderMod => JsonObject.insert obj "installType" (.string "liteloaderMod")
    | .Extract => JsonObject.insert obj "installType" (.string "extract")
    | .ConfigPack => JsonObject.insert obj "installType" (.string "configPack")
    | .Group => JsonObject.insert obj "installType" (.string "group")
  MMCJson.writeObjectList obj "urls" (self.downloads.map downloadToJson)

/-! ## Properties of version records and of the objects written -/

/-- The version reference of an edge names the uid that the edge is filed under: it is
set, and its package is the key of the entry. -/
def NamesUid (k : QuickModRef) (v : QuickModVersionRef) : Prop :=
  v.map Prod.fst = some k

/-- Every reference of the version names the uid that it is filed under. -/
def RefsNameKeys (self : BaseQuickModVersion) : Prop :=
  (∀ e ∈ self.dependencies.entries, NamesUid e.1 e.2.1) ∧
  (∀ e ∈ self.recommendations.entries, NamesUid e.1 e.2) ∧
  (∀ e ∈ self.suggestions.entries, NamesUid e.1 e.2) ∧
  (∀ e ∈ self.conflicts.entries, NamesUid e.1 e.2) ∧
  (∀ e ∈ self.provides.entries, NamesUid e.1 e.2)

/-- The text that `toJson` writes for an install type. -/
def installTypeText : InstallType → String
  | .ForgeMod => "forgeMod"
  | .ForgeCoreMod => "forgeCoreMod"
  | .LiteLoaderMod => "liteloaderMod"
  | .Extract => "extract"
  | .ConfigPack => "configPack"
  | .Group => "group"

/-- The array "references" that `toJson` writes. -/
def referencesJson (t : UidText) (self : BaseQuickModVersion) : List JsonValue :=
  self.dependencies.entries.map (dependsToJson t) ++
    self.recommendations.entries.map (referenceToJson t "recommends") ++
    self.suggestions.entries.map (referenceToJson t "suggests") ++
    self.conflicts.entries.map (referenceToJson t "conflicts") ++
    self.provides.entries.map (referenceToJson t "provides")

/-- The object that `toJson` has written before it inserts the array "references":
the members "name", "version", "type", "sha1" and "libraries". -/
def toJsonHead (self : BaseQuickModVersion) : JsonObject :=
  MMCJson.writeObjectList
    (MMCJson.writeString
      (MMCJson.writeString
        (MMCJson.writeString (JsonObject.insert [] "name" (.string self.versionName))
          "version" self.versionString)
        "type" self.type)
      "sha1" self.sha1)
    "libraries" (self.libraries.map Library.toJson)

/-- The texts of the five types of references that `parse` knows. -/
def referenceTypes : List String :=
  ["depends", "recommends", "suggests", "conflicts", "provides"]

/-- The texts of the six install types that `parseSingle` knows. -/
def installTypes : List String :=
  ["forgeMod", "forgeCoreMod", "liteloaderMod", "extract", "configPack", "group"]

/-! ## Example data for versions -/

/-- Example texts of uids: the uid `n` is written as `n` letters. -/
def exText : UidText :=
  ⟨String.length, fun n => String.mk (List.replicate n 'u')⟩

/-- Example: a fresh version of the package A. -/
def exFresh : BaseQuickModVersion :=
  QuickModForgeModVersion ⟨0, "repo", "A"⟩ InstallType.ForgeMod

/-- Example: the array "urls" of `exVersionObject`, with the priorities 2, none, 0
and -1. -/
def exUrls : List JsonValue :=
  [.object [("url", .string "a"), ("priority", .number 2)],
   .object [("url", .string "b")],
   .object [("url", .string "c"), ("priority", .number 0), ("downloadType", .string "direct")],
   .object [("url", .string "d"), ("priority", .number (-1))]]

/-- Example: the JSON object of a version named "1.0" with four downloads. -/
def exVersionObject : JsonObject :=
  [("name", .string "1.0"), ("urls", .array exUrls)]

/-- Example: the version read from `exVersionObject`. -/
def exParsed : BaseQuickModVersion :=
  { exFresh with
    versionName := "1.0", versionString := "1.0", type := "Release",
    downloads :=
      [⟨"d", -1, DownloadType.Parallel, "", ""⟩, ⟨"b", 0, DownloadType.Parallel, "", ""⟩,
       ⟨"c", 0, DownloadType.Direct, "", ""⟩, ⟨"a", 2, DownloadType.Parallel, "", ""⟩] }

/-- Example: `QuickModDownload::toJson()` taken to write the field "url" alone. -/
def exDownloadToJson (d : QuickModDownload) : JsonObject :=
  [("url", .string d.url)]

/-- Example: a library with a repository URL. -/
def exLibrary : Library :=
  ⟨"lib", "http://example.org/maven/"⟩

/-- Example: the JSON object of a version of the install type "forgeCoreMod" with a
soft dependency on the uid 1, a recommendation of the uid 2, a suggestion of the uid 1,
a provision of the uid 3 and one download. -/
def exReadObject : JsonObject :=
  [("name", .string "1.0"), ("installType", .string "forgeCoreMod"),
   ("references", .array
     [.object [("type", .string "depends"), ("uid", .string "u"), ("version", .string "x"),
        ("isSoft", .bool true)],
      .object [("type", .string "recommends"), ("uid", .string "uu"),
        ("version", .string "y")],
      .object [("type", .string "suggests"), ("uid", .string "u"), ("version", .string "z")],
      .object [("type", .string "provides"), ("uid", .string "uuu"),
        ("version", .string "")]]),
   ("urls", .array [.object [("url", .string "a")]])]

/-- Example: the version that `parseSingle` reads from `exReadObject`. -/
def exRead : BaseQuickModVersion :=
  { exFresh with
    installType := InstallType.ForgeCoreMod
    versionName := "1.0"
    versionString := "1.0"
    type := "Release"
    dependencies := ⟨[(1, (some (1, "x"), true))], List.pairwise_singleton _ _⟩
    recommendations := ⟨[(2, some (2, "y"))], List.pairwise_singleton _ _⟩
    suggestions := ⟨[(1, some (1, "z"))], List.pairwise_singleton _ _⟩
    provides := ⟨[(3, some (3, ""))], List.pairwise_singleton _ _⟩
    downloads := [⟨"a", 0, DownloadType.Parallel, "", ""⟩] }

/-- Example: the version that `parseSingle` reads from an object with the name "1.0"
and an empty array "urls". -/
def exNoUrls : BaseQuickModVersion :=
  { exFresh with versionName := "1.0", versionString := "1.0", type := "Release" }

/-- Example: the version that `parseSingle` reads from an object with the name "1.0",
the library "lib" without a URL and one download. -/
def exWithLibrary : BaseQuickModVersion :=
  { exFresh with
    versionName := "1.0"
    versionString := "1.0"
    type := "Release"
    libraries := [⟨"lib", "http://repo1.maven.org/maven2/"⟩]
    downloads := [⟨"a", 0, DownloadType.Parallel, "", ""⟩] }

/-- Example: a version with one download whose edge to the uid 1 carries a reference to
a version of the uid 2. -/
def exMismatch : BaseQuickModVersion :=
  { exFresh with
    dependencies := ⟨[(1, (some (2, "x"), false))], List.pairwise_singleton _ _⟩
    downloads := [⟨"a", 0, DownloadType.Parallel, "", ""⟩] }

/-! ## Lemmas on `build` -/

theorem NodeMap.contains_iff (m : NodeMap) (k : QuickModRef) :
    m.contains k = true ↔ k ∈ m.map Prod.fst := by
  simp only [NodeMap.contains, List.any_eq_true, beq_iff_eq, List.mem_map]

theorem NodeMap.insert_perm (m : NodeMap) (k : QuickModRef) (v : DepNode)
    (h : k ∉ m.map Prod.fst) : (m.insert k v).Perm ((k, v) :: m) := by
  induction m with
  | nil => simp [NodeMap.insert]
  | cons a t ih =>
    obtain ⟨k', v'⟩ := a
    simp only [List.map_cons, List.mem_cons, not_or] at h
    simp only [NodeMap.insert]
    split_ifs with h1 h2
    · exact List.Perm.refl _
    · exact absurd h2 h.1
    · exact ((ih h.2).cons (k', v')).trans (List.Perm.swap _ _ _)

theorem stageOne_spec (snap : List InstalledMod) :
    ∀ (nodes : NodeMap) (ok : Bool) (n1 : NodeMap) (ok1 : Bool),
      stageOne snap nodes ok = .ok (n1, ok1) →
        n1.Perm (nodes ++ snap.map (fun e => (e.uid, mkNode e))) ∧
        ok1 = (ok && snap.all (fun e => e.version.isSome)) ∧
        (∀ e ∈ snap, e.uid ∉ nodes.map Prod.fst) ∧ (snap.map (fun e => e.uid)).Nodup := by
  induction snap with
  | nil =>
    intro nodes ok n1 ok1 h
    simp only [stageOne, Except.ok.injEq, Prod.mk.injEq] at h
    simp [h.1, h.2]
  | cons e rest ih =>
    intro nodes ok n1 ok1 h
    simp only [stageOne] at h
    split_ifs at h with hc
    have hk : e.uid ∉ nodes.map Prod.fst := fun hm => hc ((NodeMap.contains_iff _ _).2 hm)
    have key : ∀ (node : DepNode) (ok' : Bool), node = mkNode e →
        stageOne rest (nodes.insert e.uid node) ok' = .ok (n1, ok1) →
        n1.Perm (nodes ++ (e :: rest).map (fun e => (e.uid, mkNode e))) ∧
        ok1 = (ok' && rest.all (fun e => e.version.isSome)) ∧
        (∀ x ∈ e :: rest, x.uid ∉ nodes.map Prod.fst) ∧
        ((e :: rest).map (fun e => e.uid)).Nodup := by
      intro node ok' hn h'
      obtain ⟨hp, hok, hdis, hnd⟩ := ih _ _ _ _ h'
      have hins := NodeMap.insert_perm nodes e.uid node hk
      refine ⟨?_, hok, ?_, ?_⟩
      · refine hp.trans ?_
        refine (List.Perm.append_right _ hins).trans ?_
        subst hn
        simp only [List.map_cons, List.cons_append]
        exact List.perm_middle.symm
      · intro x hx
        rcases List.mem_cons.1 hx with rfl | hx
        · exact hk
        · intro hm
          refine hdis x hx ?_
          exact (hins.map Prod.fst).mem_iff.2 (List.mem_cons_of_mem _ hm)
      · simp only [List.map_cons, List.nodup_cons]
        refine ⟨?_, hnd⟩
        intro hm
        obtain ⟨x, hx, hxe⟩ := List.mem_map.1 hm
        refine hdis x hx ?_
        refine (hins.map Prod.fst).mem_iff.2 ?_
        simp [hxe]
    cases hv : e.version with
    | none =>
      rw [hv] at h
      simp only at h
      obtain ⟨a, b, c, d⟩ := key _ false (by simp [mkNode, hv]) h
      refine ⟨a, ?_, c, d⟩
      simp [b, hv]
    | some v =>
      rw [hv] at h
      simp only at h
      obtain ⟨a, b, c, d⟩ := key _ ok (by simp [mkNode, hv]) h
      refine ⟨a, ?_, c, d⟩
      simp [b, hv]

theorem stageOne_total (snap : List InstalledMod) :
    ∀ (nodes : NodeMap) (ok : Bool), (∀ e ∈ snap, e.uid ∉ nodes.map Prod.fst) →
      (snap.map (fun e => e.uid)).Nodup → ∃ r, stageOne snap nodes ok = .ok r := by
  induction snap with
  | nil => intro nodes ok _ _; exact ⟨_, rfl⟩
  | cons e rest ih =>
    intro nodes ok hdis hnd
    have hk : e.uid ∉ nodes.map Prod.fst := hdis e (List.mem_cons_self _ _)
    have hc : ¬ nodes.contains e.uid = true := fun h => hk ((NodeMap.contains_iff _ _).1 h)
    simp only [List.map_cons, List.nodup_cons] at hnd
    have hstep : ∀ node : DepNode, ∀ x ∈ rest, x.uid ∉ (nodes.insert e.uid node).map Prod.fst := by
      intro node x hx hm
      have := ((NodeMap.insert_perm nodes e.uid node hk).map Prod.fst).mem_iff.1 hm
      rcases List.mem_cons.1 this with h | h
      · exact hnd.1 (List.mem_map.2 ⟨x, hx, h⟩)
      · exact hdis x (List.mem_cons_of_mem _ hx) h
    simp only [stageOne, hc, if_false]
    cases e.version with
    | none => exact ih _ _ (hstep _) hnd.2
    | some v => exact ih _ _ (hstep _) hnd.2

theorem NodeMap.contains_eq (m : NodeMap) (k : QuickModRef) :
    m.contains k = decide (k ∈ m.map Prod.fst) := by
  rw [Bool.eq_iff_iff, NodeMap.contains_iff]; simp

theorem stageTwoDeps_spec (nodes : NodeMap)
    (deps : List (QuickModRef × (QuickModVersionRef × Bool))) :
    ∀ (children : List QuickModRef) (ok : Bool),
      stageTwoDeps nodes deps children ok =
        (children ++ depTargets (nodes.map Prod.fst) deps,
          ok && depsGood (nodes.map Prod.fst) deps) := by
  induction deps with
  | nil => intro children ok; simp [stageTwoDeps, depTargets, depsGood]
  | cons d rest ih =>
    intro children ok
    obtain ⟨k, r, isSoft⟩ := d
    simp only [stageTwoDeps, NodeMap.contains_eq]
    by_cases h : (!isSoft && decide (k ∈ nodes.map Prod.fst)) = true
    · rw [if_pos h, ih]
      simp [depTargets, depsGood, List.filter_cons, h]
    · rw [if_neg h, ih]
      simp only [Bool.not_eq_true] at h
      simp [depTargets, depsGood, List.filter_cons, h]

theorem stageTwo_spec (db : QuickModVersionRef → Option QuickModVersion) (nodes : NodeMap)
    (todo : NodeMap) :
    ∀ ok : Bool, stageTwo db nodes todo ok =
      (todo.map (fun e => (e.1, withChildren db (nodes.map Prod.fst) e.2)),
        ok && todo.all (fun e => nodeGood db (nodes.map Prod.fst) e.2)) := by
  induction todo with
  | nil => intro ok; simp [stageTwo]
  | cons e rest ih =>
    intro ok
    obtain ⟨k, node⟩ := e
    simp only [stageTwo]
    cases hdb : db node.version with
    | none =>
      simp only [ih, List.map_cons, List.all_cons]
      simp [withChildren, nodeGood, hdb]
    | some ptr =>
      simp only [ih, stageTwoDeps_spec, List.map_cons, List.all_cons]
      simp [withChildren, nodeGood, hdb, Bool.and_assoc]

theorem stageThreeInner_spec (p : QuickModRef) (deps : List QuickModRef) :
    ∀ nodes : NodeMap, stageThreeInner p deps nodes =
      nodes.map (fun e => (e.1, addParents e.2 (List.replicate (deps.count e.1) p))) := by
  induction deps with
  | nil =>
    intro nodes
    simp only [stageThreeInner, List.count_nil, List.replicate_zero, addParents,
      List.append_nil]
    exact (List.map_id _).symm
  | cons d rest ih =>
    intro nodes
    simp only [stageThreeInner, ih, appendParent, List.map_map]
    apply List.map_congr_left
    intro e _
    by_cases h : e.1 = d
    · subst h
      simp [addParents, List.count_cons_self, List.replicate_succ]
    · have h' : ¬ d = e.1 := fun x => h x.symm
      simp [addParents, h, List.count_cons_of_ne h']

theorem stageThree_spec (iter : NodeMap) :
    ∀ nodes : NodeMap, stageThree iter nodes =
      nodes.map (fun e => (e.1, addParents e.2 (parentsOf iter e.1))) := by
  induction iter with
  | nil =>
    intro nodes
    simp only [stageThree, parentsOf, List.flatMap_nil, addParents, List.append_nil]
    exact (List.map_id _).symm
  | cons m rest ih =>
    intro nodes
    obtain ⟨k, node⟩ := m
    simp only [stageThree, ih, stageThreeInner_spec, List.map_map]
    apply List.map_congr_left
    intro e _
    simp [addParents, parentsOf, List.flatMap_cons]

theorem all_map_fun {α β : Type} (f : α → β) (p : β → Bool) (l : List α) :
    (l.map f).all p = l.all (fun x => p (f x)) := by
  induction l with
  | nil => rfl
  | cons a t ih => simp only [List.map_cons, List.all_cons, ih]

theorem build_spec (db : QuickModVersionRef → Option QuickModVersion)
    (snap : List InstalledMod) (nodes : List DepNode) (flag : Bool)
    (h : DepNode.build db snap = .ok (nodes, flag)) :
    (snap.map (fun e => e.uid)).Nodup ∧ nodes.Perm (snap.map (builtNode db nodes)) ∧
      flag = builtFlag db nodes snap := by
  unfold DepNode.build at h
  cases h1 : stageOne snap [] true with
  | error e => rw [h1] at h; cases h
  | ok r =>
    obtain ⟨n1, ok1⟩ := r
    rw [h1] at h
    simp only [stageTwo_spec, stageThree_spec, NodeMap.values, List.map_map, Except.ok.injEq,
      Prod.mk.injEq] at h
    obtain ⟨hp, hok, -, hnd⟩ := stageOne_spec snap [] true n1 ok1 h1
    simp only [List.nil_append] at hp
    obtain ⟨hn, hf⟩ := h
    -- keys and uids
    have hkey : ∀ x ∈ n1, x.2.uid = x.1 ∧ x.2.children = [] ∧ x.2.parents = [] := by
      intro x hx
      obtain ⟨e, -, rfl⟩ := List.mem_map.1 (hp.mem_iff.1 hx)
      simp [mkNode]
    have huid : ∀ (keys : List QuickModRef) (n : DepNode),
        (withChildren db keys n).uid = n.uid := by
      intro keys n; unfold withChildren; cases db n.version <;> rfl
    have hver : ∀ (keys : List QuickModRef) (n : DepNode),
        (withChildren db keys n).version = n.version := by
      intro keys n; unfold withChildren; cases db n.version <;> rfl
    have hkeys : nodes.map (fun n => n.uid) = n1.map Prod.fst := by
      rw [← hn, List.map_map]
      apply List.map_congr_left
      intro x hx
      simp [addParents, huid, (hkey x hx).1]
    have hpar : ∀ k, parentsOf (n1.map (fun e => (e.1, withChildren db (n1.map Prod.fst) e.2))) k
        = parentsIn nodes k := by
      intro k
      rw [← hn]
      simp only [parentsOf, parentsIn, List.flatMap, List.map_map]
      congr 1
    refine ⟨hnd, ?_, ?_⟩
    · have hn' : nodes = n1.map (fun x => builtNode db nodes ⟨x.1, x.2.version, !x.2.isHard⟩) := by
        conv_lhs => rw [← hn]
        apply List.map_congr_left
        intro x hx
        obtain ⟨h1, h2, h3⟩ := hkey x hx
        simp only [Function.comp, hpar, hkeys]
        simp only [builtNode, addParents, childrenFor, withChildren]
        cases hdb : db x.2.version with
        | none => simp [h1, h2, h3]
        | some ptr => simp [h1, h2, h3, hkeys]
      have hperm := hp.map (fun x => builtNode db nodes ⟨x.1, x.2.version, !x.2.isHard⟩)
      rw [← hn', List.map_map] at hperm
      refine hperm.trans (List.Perm.of_eq ?_)
      apply List.map_congr_left
      intro e _
      simp [mkNode]
    · rw [← hf, hok, builtFlag, hkeys]
      simp only [Bool.true_and]
      congr 1
      rw [← hn, all_map_fun]
      congr 1
      funext x
      simp only [Function.comp, nodeGood, addParents, hver]

/-! ## Lemmas on the graph that `build` returns -/

theorem build_total (db : QuickModVersionRef → Option QuickModVersion)
    (snap : List InstalledMod) (hnd : (snap.map (fun e => e.uid)).Nodup) :
    ∃ nodes flag, DepNode.build db snap = .ok (nodes, flag) := by
  obtain ⟨⟨n1, ok1⟩, h1⟩ := stageOne_total snap [] true (by simp) hnd
  refine ⟨(stageThree (stageTwo db n1 n1 ok1).1 (stageTwo db n1 n1 ok1).1).values,
    (stageTwo db n1 n1 ok1).2, ?_⟩
  simp only [DepNode.build, h1]

theorem built_mem {db : QuickModVersionRef → Option QuickModVersion}
    {snap : List InstalledMod} {nodes : List DepNode} {flag : Bool}
    (h : DepNode.build db snap = .ok (nodes, flag)) (n : DepNode) :
    n ∈ nodes ↔ ∃ e ∈ snap, builtNode db nodes e = n := by
  rw [(build_spec db snap nodes flag h).2.1.mem_iff, List.mem_map]

theorem built_uids {db : QuickModVersionRef → Option QuickModVersion}
    {snap : List InstalledMod} {nodes : List DepNode} {flag : Bool}
    (h : DepNode.build db snap = .ok (nodes, flag)) :
    (nodes.map (fun n => n.uid)).Perm (snap.map (fun e => e.uid)) := by
  have := ((build_spec db snap nodes flag h).2.1).map (fun n => n.uid)
  rw [List.map_map] at this
  exact this

theorem built_nodup {db : QuickModVersionRef → Option QuickModVersion}
    {snap : List InstalledMod} {nodes : List DepNode} {flag : Bool}
    (h : DepNode.build db snap = .ok (nodes, flag)) :
    (nodes.map (fun n => n.uid)).Nodup :=
  (built_uids h).nodup_iff.2 (build_spec db snap nodes flag h).1

/-- In a list with one node per uid, a node is determined by its uid. -/
theorem eq_of_uid_eq {nodes : List DepNode} (hnd : (nodes.map (fun n => n.uid)).Nodup)
    {a b : DepNode} (ha : a ∈ nodes) (hb : b ∈ nodes) (h : a.uid = b.uid) : a = b :=
  List.inj_on_of_nodup_map hnd ha hb h

theorem findNode_eq_some {nodes : List DepNode} (hnd : (nodes.map (fun n => n.uid)).Nodup)
    {u : QuickModRef} {n : DepNode} :
    DepNode.findNode nodes u = some n ↔ n ∈ nodes ∧ n.uid = u := by
  constructor
  · intro h
    have h1 := List.find?_some h
    have h2 := List.mem_of_find?_eq_some h
    exact ⟨h2, by simpa using h1⟩
  · rintro ⟨hm, rfl⟩
    cases hf : DepNode.findNode nodes n.uid with
    | none =>
      have := List.find?_eq_none.1 hf n hm
      simp at this
    | some m =>
      have h1 := List.find?_some hf
      have h2 := List.mem_of_find?_eq_some hf
      exact congrArg some (eq_of_uid_eq hnd h2 hm (by simpa using h1))

theorem findNode_isSome {nodes : List DepNode} {u : QuickModRef}
    (h : u ∈ nodes.map (fun n => n.uid)) :
    ∃ n, DepNode.findNode nodes u = some n ∧ n ∈ nodes ∧ n.uid = u := by
  obtain ⟨m, hm, rfl⟩ := List.mem_map.1 h
  cases hf : DepNode.findNode nodes m.uid with
  | none =>
    have := List.find?_eq_none.1 hf m hm
    simp at this
  | some n =>
    exact ⟨n, rfl, List.mem_of_find?_eq_some hf, by simpa using List.find?_some hf⟩

theorem mem_parentsIn {nodes : List DepNode} {k p : QuickModRef} :
    p ∈ parentsIn nodes k ↔ ∃ m ∈ nodes, m.uid = p ∧ k ∈ m.children := by
  simp only [parentsIn, List.mem_flatMap, List.mem_replicate, ne_eq, List.count_eq_zero,
    not_not]
  constructor
  · rintro ⟨m, hm, hk, rfl⟩; exact ⟨m, hm, rfl, hk⟩
  · rintro ⟨m, hm, rfl, hk⟩; exact ⟨m, hm, hk, rfl⟩

theorem count_parentsIn {nodes : List DepNode} (hnd : (nodes.map (fun n => n.uid)).Nodup)
    (k : QuickModRef) {p : DepNode} (hp : p ∈ nodes) :
    (parentsIn nodes k).count p.uid = p.children.count k := by
  induction nodes with
  | nil => cases hp
  | cons a t ih =>
    simp only [List.map_cons, List.nodup_cons] at hnd
    simp only [parentsIn, List.flatMap_cons, List.count_append] at ih ⊢
    rcases List.mem_cons.1 hp with rfl | hp'
    · have : List.count p.uid
          (t.flatMap (fun m => List.replicate (m.children.count k) m.uid)) = 0 := by
        rw [List.count_eq_zero]
        intro hm
        obtain ⟨m, hm, hmem⟩ := List.mem_flatMap.1 hm
        have := (List.mem_replicate.1 hmem).2
        exact hnd.1 (List.mem_map.2 ⟨m, hm, this.symm⟩)
      rw [this, List.count_replicate_self, Nat.add_zero]
    · have hne : a.uid ≠ p.uid := fun h => hnd.1 (List.mem_map.2 ⟨p, hp', h.symm⟩)
      rw [ih hnd.2 hp', List.count_replicate]
      simp [hne]

theorem depTargets_nodup (keys : List QuickModRef) (deps : QMap (QuickModVersionRef × Bool)) :
    (depTargets keys deps.entries).Nodup := by
  have h : (deps.entries.map Prod.fst).Nodup :=
    deps.sorted.imp (fun h => Nat.ne_of_lt h)
  exact (List.Nodup.sublist ((List.filter_sublist _).map Prod.fst) h)

theorem mem_depTargets {keys : List QuickModRef}
    {deps : List (QuickModRef × (QuickModVersionRef × Bool))} {k : QuickModRef} :
    k ∈ depTargets keys deps ↔ ∃ d ∈ deps, d.1 = k ∧ d.2.2 = false ∧ k ∈ keys := by
  simp only [depTargets, List.mem_map, List.mem_filter, Bool.and_eq_true, Bool.not_eq_true',
    decide_eq_true_eq]
  constructor
  · rintro ⟨d, ⟨hd, hs, hk⟩, rfl⟩; exact ⟨d, hd, rfl, hs, hk⟩
  · rintro ⟨d, hd, rfl, hs, hk⟩; exact ⟨d, ⟨hd, hs, hk⟩, rfl⟩

theorem built_children_nodup {db : QuickModVersionRef → Option QuickModVersion}
    {snap : List InstalledMod} {nodes : List DepNode} {flag : Bool}
    (h : DepNode.build db snap = .ok (nodes, flag)) {n : DepNode} (hn : n ∈ nodes) :
    n.children.Nodup := by
  obtain ⟨e, -, rfl⟩ := (built_mem h n).1 hn
  simp only [builtNode, childrenFor]
  cases db e.version with
  | none => exact List.nodup_nil
  | some ptr => exact depTargets_nodup _ _

theorem built_parents {db : QuickModVersionRef → Option QuickModVersion}
    {snap : List InstalledMod} {nodes : List DepNode} {flag : Bool}
    (h : DepNode.build db snap = .ok (nodes, flag)) {n : DepNode} (hn : n ∈ nodes) :
    n.parents = parentsIn nodes n.uid := by
  obtain ⟨e, -, rfl⟩ := (built_mem h n).1 hn
  rfl

theorem built_isParent_iff {db : QuickModVersionRef → Option QuickModVersion}
    {snap : List InstalledMod} {nodes : List DepNode} {flag : Bool}
    (h : DepNode.build db snap = .ok (nodes, flag)) (p n : QuickModRef) :
    IsParent nodes p n ↔ IsChild nodes n p := by
  constructor
  · rintro ⟨node, hm, rfl, hp⟩
    rw [built_parents h hm] at hp
    exact mem_parentsIn.1 hp
  · rintro ⟨m, hm, rfl, hc⟩
    obtain ⟨e, -, rfl⟩ := (built_mem h m).1 hm
    obtain ⟨node, hnode, hu⟩ : ∃ node ∈ nodes, node.uid = n := by
      have hc' : n ∈ childrenFor db (nodes.map (fun n => n.uid)) e.version := hc
      unfold childrenFor at hc'
      cases hdb : db e.version with
      | none => rw [hdb] at hc'; cases hc'
      | some ptr =>
        rw [hdb] at hc'
        obtain ⟨d, -, -, -, hk⟩ := mem_depTargets.1 hc'
        obtain ⟨node, hnode, hu⟩ := List.mem_map.1 hk
        exact ⟨node, hnode, hu⟩
    refine ⟨node, hnode, hu, ?_⟩
    rw [built_parents h hnode, hu]
    exact mem_parentsIn.2 ⟨_, hm, rfl, hc⟩

theorem built_graphOk {db : QuickModVersionRef → Option QuickModVersion}
    {snap : List InstalledMod} {nodes : List DepNode} {flag : Bool}
    (h : DepNode.build db snap = .ok (nodes, flag)) : GraphOk nodes := by
  refine ⟨built_nodup h, ?_⟩
  intro n hn p hp
  rw [built_parents h hn] at hp
  obtain ⟨m, hm, rfl, -⟩ := mem_parentsIn.1 hp
  exact List.mem_map.2 ⟨m, hm, rfl⟩

theorem isParent_mem {nodes : List DepNode} (hok : GraphOk nodes) {p n : QuickModRef}
    (h : IsParent nodes p n) : p ∈ nodes.map (fun n => n.uid) := by
  obtain ⟨node, hm, -, hp⟩ := h
  exact hok.parents_mem node hm p hp

theorem isParent_iff_of_mem {nodes : List DepNode} (hok : GraphOk nodes) {node : DepNode}
    (hm : node ∈ nodes) (p : QuickModRef) : IsParent nodes p node.uid ↔ p ∈ node.parents := by
  constructor
  · rintro ⟨m, hmm, hu, hp⟩
    rwa [eq_of_uid_eq hok.nodup hmm hm hu] at hp
  · intro hp
    exact ⟨node, hm, rfl, hp⟩

/-- Without a cycle, the parent relation of a finite graph is well founded. -/
theorem acc_isParent {nodes : List DepNode} (hok : GraphOk nodes) (hac : Acyclic nodes)
    (u : QuickModRef) : Acc (IsParent nodes) u := by
  let S := { x : QuickModRef // x ∈ nodes.map (fun n => n.uid) }
  let r : S → S → Prop := fun a b => Relation.TransGen (IsParent nodes) a.1 b.1
  haveI : Finite S :=
    Set.Finite.to_subtype (List.finite_toSet (nodes.map (fun n : DepNode => n.uid)))
  haveI : IsTrans S r := ⟨fun _ _ _ h1 h2 => Relation.TransGen.trans h1 h2⟩
  haveI : IsIrrefl S r := ⟨fun a h => hac a.1 h⟩
  have wf : WellFounded r := Finite.wellFounded_of_trans_of_irrefl r
  have key : ∀ s : S, Acc (IsParent nodes) s.1 := by
    intro s
    induction s using wf.induction with
    | _ s ih =>
      refine Acc.intro _ ?_
      intro p hp
      exact ih ⟨p, isParent_mem hok hp⟩ (Relation.TransGen.single hp)
  refine Acc.intro _ ?_
  intro p hp
  exact key ⟨p, isParent_mem hok hp⟩

/-- A bound that serves every element of a list. -/
theorem exists_bound_forall_mem {α : Type} (P : Nat → α → Prop) (l : List α)
    (h : ∀ x ∈ l, ∃ F, ∀ f, F ≤ f → P f x) : ∃ F, ∀ f, F ≤ f → ∀ x ∈ l, P f x := by
  induction l with
  | nil => exact ⟨0, fun _ _ x hx => by cases hx⟩
  | cons a t ih =>
    obtain ⟨F1, h1⟩ := h a (List.mem_cons_self _ _)
    obtain ⟨F2, h2⟩ := ih (fun x hx => h x (List.mem_cons_of_mem _ hx))
    refine ⟨max F1 F2, fun f hf x hx => ?_⟩
    rcases List.mem_cons.1 hx with rfl | hx
    · exact h1 f (le_trans (le_max_left _ _) hf)
    · exact h2 f (le_trans (le_max_right _ _) hf) x hx

/-! ### `hasHardParent` -/

theorem hasHardParentLoop_true (rec : QuickModRef → Except Failure Bool)
    (ps : List QuickModRef) (h : hasHardParentLoop rec ps = .ok true) :
    ∃ p ∈ ps, rec p = .ok true := by
  induction ps with
  | nil => simp [hasHardParentLoop] at h
  | cons p t ih =>
    simp only [hasHardParentLoop] at h
    cases hr : rec p with
    | error e => rw [hr] at h; cases h
    | ok b =>
      cases b with
      | true => exact ⟨p, List.mem_cons_self _ _, hr⟩
      | false =>
        rw [hr] at h
        obtain ⟨q, hq, hq'⟩ := ih h
        exact ⟨q, List.mem_cons_of_mem _ hq, hq'⟩

theorem hasHardParentLoop_false (rec : QuickModRef → Except Failure Bool)
    (ps : List QuickModRef) (h : hasHardParentLoop rec ps = .ok false) :
    ∀ p ∈ ps, rec p = .ok false := by
  induction ps with
  | nil => intro p hp; cases hp
  | cons p t ih =>
    simp only [hasHardParentLoop] at h
    cases hr : rec p with
    | error e => rw [hr] at h; cases h
    | ok b =>
      cases b with
      | true => rw [hr] at h; cases h
      | false =>
        rw [hr] at h
        intro q hq
        rcases List.mem_cons.1 hq with rfl | hq
        · exact hr
        · exact ih h q hq

theorem hasHardParentLoop_total (rec : QuickModRef → Except Failure Bool)
    (ps : List QuickModRef) (h : ∀ p ∈ ps, ∃ b, rec p = .ok b) :
    ∃ b, hasHardParentLoop rec ps = .ok b := by
  induction ps with
  | nil => exact ⟨false, rfl⟩
  | cons p t ih =>
    obtain ⟨b, hb⟩ := h p (List.mem_cons_self _ _)
    simp only [hasHardParentLoop, hb]
    cases b with
    | true => exact ⟨true, rfl⟩
    | false => exact ih (fun q hq => h q (List.mem_cons_of_mem _ hq))

theorem hasHardParentLoop_error (rec : QuickModRef → Except Failure Bool)
    (ps : List QuickModRef) (e : Failure) (h : hasHardParentLoop rec ps = .error e) :
    ∃ p ∈ ps, rec p = .error e := by
  induction ps with
  | nil => simp [hasHardParentLoop] at h
  | cons p t ih =>
    simp only [hasHardParentLoop] at h
    cases hr : rec p with
    | error e' => rw [hr] at h; cases h; exact ⟨p, List.mem_cons_self _ _, hr⟩
    | ok b =>
      cases b with
      | true => rw [hr] at h; cases h
      | false =>
        rw [hr] at h
        obtain ⟨q, hq, hq'⟩ := ih h
        exact ⟨q, List.mem_cons_of_mem _ hq, hq'⟩

/-- The answer of `hasHardParent`, when it returns: a hard node is the node itself or
one of its transitive parents.  No assumption on cycles. -/
theorem hasHardParent_spec {nodes : List DepNode} (hok : GraphOk nodes) :
    ∀ (fuel : Nat) (u : QuickModRef) (b : Bool),
      DepNode.hasHardParent nodes fuel u = .ok b → (b = true ↔ HardAncestor nodes u) := by
  intro fuel
  induction fuel with
  | zero => intro u b h; simp [DepNode.hasHardParent] at h
  | succ f ih =>
    intro u b h
    simp only [DepNode.hasHardParent] at h
    cases hf : DepNode.findNode nodes u with
    | none => rw [hf] at h; cases h
    | some node =>
      rw [hf] at h
      simp only at h
      obtain ⟨hm, rfl⟩ := (findNode_eq_some hok.nodup).1 hf
      by_cases hh : node.isHard = true
      · rw [if_pos hh] at h
        cases h
        simp only [true_iff]
        exact ⟨node.uid, Relation.ReflTransGen.refl, node, hm, rfl, hh⟩
      · rw [if_neg hh] at h
        cases b with
        | true =>
          simp only [true_iff]
          obtain ⟨p, hp, hrec⟩ := hasHardParentLoop_true _ _ h
          obtain ⟨a, ha, hhard⟩ := (ih p true hrec).1 rfl
          exact ⟨a, ha.tail ⟨node, hm, rfl, hp⟩, hhard⟩
        | false =>
          simp only [Bool.false_eq_true, false_iff]
          rintro ⟨a, ha, hhard⟩
          have hall := hasHardParentLoop_false _ _ h
          rcases Relation.ReflTransGen.cases_tail ha with heq | ⟨p, hap, hp⟩
          · obtain ⟨m, hmm, hu, hmh⟩ := hhard
            rw [← heq] at hu
            rw [eq_of_uid_eq hok.nodup hmm hm hu] at hmh
            exact hh hmh
          · have hp' := (isParent_iff_of_mem hok hm p).1 hp
            have := (ih p false (hall p hp')).2 ⟨a, hap, hhard⟩
            cases this

/-- In a graph without a cycle `hasHardParent` returns for every node, given enough
recursion depth. -/
theorem hasHardParent_total {nodes : List DepNode} (hok : GraphOk nodes)
    (hac : Acyclic nodes) (u : QuickModRef) (hu : u ∈ nodes.map (fun n => n.uid)) :
    ∃ F, ∀ f, F ≤ f → ∃ b, DepNode.hasHardParent nodes f u = .ok b := by
  induction acc_isParent hok hac u with
  | intro u _ ih =>
    obtain ⟨node, hf, hm, rfl⟩ := findNode_isSome hu
    obtain ⟨F, hF⟩ := exists_bound_forall_mem
      (fun f p => ∃ b, DepNode.hasHardParent nodes f p = .ok b) node.parents
      (fun p hp => ih p ⟨node, hm, rfl, hp⟩ (hok.parents_mem node hm p hp))
    refine ⟨F + 1, fun f hle => ?_⟩
    obtain ⟨g, rfl⟩ : ∃ g, f = g + 1 := ⟨f - 1, by omega⟩
    simp only [DepNode.hasHardParent, hf]
    by_cases hh : node.isHard = true
    · exact ⟨true, by rw [if_pos hh]⟩
    · rw [if_neg hh]
      exact hasHardParentLoop_total _ _ (hF g (by omega))

/-- `hasHardParent` never ends in a failed assertion. -/
theorem hasHardParent_ne_assertion (nodes : List DepNode) :
    ∀ (fuel : Nat) (u : QuickModRef),
      DepNode.hasHardParent nodes fuel u ≠ .error Failure.assertion := by
  intro fuel
  induction fuel with
  | zero => intro u h; simp [DepNode.hasHardParent] at h
  | succ f ih =>
    intro u h
    simp only [DepNode.hasHardParent] at h
    cases hf : DepNode.findNode nodes u with
    | none => rw [hf] at h; cases h
    | some node =>
      rw [hf] at h
      simp only at h
      by_cases hh : node.isHard = true
      · rw [if_pos hh] at h; cases h
      · rw [if_neg hh] at h
        obtain ⟨p, -, hp⟩ := hasHardParentLoop_error _ _ _ h
        exact ih p hp

/-! ### `getParents` -/

theorem getParentsLoop_spec (rec : QuickModRef → Except Failure (List QuickModRef))
    (ps : List QuickModRef) :
    ∀ (out l : List QuickModRef), getParentsLoop rec ps out = .ok l →
      (∀ p ∈ ps, ∃ lp, rec p = .ok lp) ∧
      (∀ a, a ∈ l ↔ a ∈ out ∨ ∃ p ∈ ps, ∃ lp, rec p = .ok lp ∧ a ∈ lp) := by
  induction ps with
  | nil =>
    intro out l h
    simp only [getParentsLoop, Except.ok.injEq] at h
    subst h
    simp
  | cons p t ih =>
    intro out l h
    simp only [getParentsLoop] at h
    cases hr : rec p with
    | error e => rw [hr] at h; cases h
    | ok lp =>
      rw [hr] at h
      obtain ⟨h1, h2⟩ := ih _ _ h
      refine ⟨?_, ?_⟩
      · intro q hq
        rcases List.mem_cons.1 hq with rfl | hq
        · exact ⟨lp, hr⟩
        · exact h1 q hq
      · intro a
        rw [h2 a, List.mem_append]
        constructor
        · rintro ((ha | ha) | ⟨q, hq, lq, hlq, ha⟩)
          · exact Or.inl ha
          · exact Or.inr ⟨p, List.mem_cons_self _ _, lp, hr, ha⟩
          · exact Or.inr ⟨q, List.mem_cons_of_mem _ hq, lq, hlq, ha⟩
        · rintro (ha | ⟨q, hq, lq, hlq, ha⟩)
          · exact Or.inl (Or.inl ha)
          · rcases List.mem_cons.1 hq with rfl | hq
            · rw [hr] at hlq
              cases hlq
              exact Or.inl (Or.inr ha)
            · exact Or.inr ⟨q, hq, lq, hlq, ha⟩

theorem getParentsLoop_total (rec : QuickModRef → Except Failure (List QuickModRef))
    (ps : List QuickModRef) (h : ∀ p ∈ ps, ∃ lp, rec p = .ok lp) :
    ∀ out : List QuickModRef, ∃ l, getParentsLoop rec ps out = .ok l := by
  induction ps with
  | nil => intro out; exact ⟨out, rfl⟩
  | cons p t ih =>
    intro out
    obtain ⟨lp, hlp⟩ := h p (List.mem_cons_self _ _)
    simp only [getParentsLoop, hlp]
    exact ih (fun q hq => h q (List.mem_cons_of_mem _ hq)) _

/-- The list `getParents` returns holds exactly the transitive parents of the node. -/
theorem getParents_spec {nodes : List DepNode} (hok : GraphOk nodes) :
    ∀ (fuel : Nat) (u : QuickModRef) (l : List QuickModRef),
      DepNode.getParents nodes fuel u = .ok l →
        ∀ a, a ∈ l ↔ Relation.TransGen (IsParent nodes) a u := by
  intro fuel
  induction fuel with
  | zero => intro u l h; simp [DepNode.getParents] at h
  | succ f ih =>
    intro u l h a
    simp only [DepNode.getParents] at h
    cases hf : DepNode.findNode nodes u with
    | none => rw [hf] at h; cases h
    | some node =>
      rw [hf] at h
      simp only at h
      obtain ⟨hm, rfl⟩ := (findNode_eq_some hok.nodup).1 hf
      obtain ⟨h1, h2⟩ := getParentsLoop_spec _ _ _ _ h
      rw [h2 a]
      constructor
      · rintro (ha | ⟨p, hp, lp, hlp, ha⟩)
        · exact Relation.TransGen.single ⟨node, hm, rfl, ha⟩
        · exact ((ih p lp hlp a).1 ha).tail ⟨node, hm, rfl, hp⟩
      · intro ha
        obtain ⟨p, hap, hp⟩ := Relation.TransGen.tail'_iff.1 ha
        have hp' := (isParent_iff_of_mem hok hm p).1 hp
        rcases Relation.reflTransGen_iff_eq_or_transGen.1 hap with heq | hap'
        · left; exact heq ▸ hp'
        · right
          obtain ⟨lp, hlp⟩ := h1 p hp'
          exact ⟨p, hp', lp, hlp, (ih p lp hlp a).2 hap'⟩

/-- In a graph without a cycle `getParents` returns for every node, given enough
recursion depth. -/
theorem getParents_total {nodes : List DepNode} (hok : GraphOk nodes)
    (hac : Acyclic nodes) (u : QuickModRef) (hu : u ∈ nodes.map (fun n => n.uid)) :
    ∃ F, ∀ f, F ≤ f → ∃ l, DepNode.getParents nodes f u = .ok l := by
  induction acc_isParent hok hac u with
  | intro u _ ih =>
    obtain ⟨node, hf, hm, rfl⟩ := findNode_isSome hu
    obtain ⟨F, hF⟩ := exists_bound_forall_mem
      (fun f p => ∃ l, DepNode.getParents nodes f p = .ok l) node.parents
      (fun p hp => ih p ⟨node, hm, rfl, hp⟩ (hok.parents_mem node hm p hp))
    refine ⟨F + 1, fun f hle => ?_⟩
    obtain ⟨g, rfl⟩ : ∃ g, f = g + 1 := ⟨f - 1, by omega⟩
    simp only [DepNode.getParents, hf]
    exact getParentsLoop_total _ _ (hF g (by omega)) _

/-! ### The loops of the queries -/

theorem resolveChildrenOut_spec (l : List QuickModRef) :
    ∀ out : List QuickModRef, out.Nodup →
      (resolveChildrenOut l out).Nodup ∧
        ∀ a, a ∈ resolveChildrenOut l out ↔ a ∈ out ∨ a ∈ l := by
  induction l with
  | nil => intro out h; simp [resolveChildrenOut, h]
  | cons u t ih =>
    intro out h
    simp only [resolveChildrenOut]
    by_cases hc : out.contains u = true
    · rw [if_pos hc]
      obtain ⟨h1, h2⟩ := ih out h
      refine ⟨h1, fun a => ?_⟩
      rw [h2 a, List.mem_cons]
      have hu : u ∈ out := by simpa using hc
      constructor
      · rintro (ha | ha)
        · exact Or.inl ha
        · exact Or.inr (Or.inr ha)
      · rintro (ha | rfl | ha)
        · exact Or.inl ha
        · exact Or.inl hu
        · exact Or.inr ha
    · rw [if_neg hc]
      have hu : u ∉ out := by simpa using hc
      obtain ⟨h1, h2⟩ := ih (out ++ [u]) (by
        rw [List.nodup_append]
        refine ⟨h, List.nodup_singleton u, ?_⟩
        intro x hx hx'
        rw [List.mem_singleton] at hx'
        exact hu (hx' ▸ hx))
      refine ⟨h1, fun a => ?_⟩
      rw [h2 a, List.mem_append, List.mem_singleton, List.mem_cons, or_assoc]

theorem resolveChildrenLoop_spec {nodes : List DepNode} (hok : GraphOk nodes) (fuel : Nat)
    (uids : List QuickModRef) :
    ∀ (acc l : List QuickModRef), resolveChildrenLoop nodes fuel uids acc = .ok l →
      ∀ a, a ∈ l ↔ a ∈ acc ∨ ∃ u ∈ uids, a = u ∨ Relation.TransGen (IsParent nodes) a u := by
  induction uids with
  | nil =>
    intro acc l h
    simp only [resolveChildrenLoop, Except.ok.injEq] at h
    subst h
    simp
  | cons u t ih =>
    intro acc l h a
    simp only [resolveChildrenLoop] at h
    cases hf : DepNode.findNode nodes u with
    | none => rw [hf] at h; cases h
    | some node =>
      rw [hf] at h
      simp only at h
      obtain ⟨hm, rfl⟩ := (findNode_eq_some hok.nodup).1 hf
      cases hg : DepNode.getParents nodes fuel node.uid with
      | error e => rw [hg] at h; cases h
      | ok lp =>
        rw [hg] at h
        simp only at h
        rw [ih _ _ h a]
        have hs := getParents_spec hok fuel node.uid lp hg a
        simp only [List.mem_append, List.mem_singleton, List.mem_cons, List.not_mem_nil,
          or_false, hs]
        constructor
        · rintro (((ha | ha) | ha) | ⟨v, hv, hav⟩)
          · exact Or.inl ha
          · exact Or.inr ⟨node.uid, Or.inl rfl, Or.inl ha⟩
          · exact Or.inr ⟨node.uid, Or.inl rfl, Or.inr ha⟩
          · exact Or.inr ⟨v, Or.inr hv, hav⟩
        · rintro (ha | ⟨v, rfl | hv, hav⟩)
          · exact Or.inl (Or.inl (Or.inl ha))
          · rcases hav with ha | ha
            · exact Or.inl (Or.inl (Or.inr ha))
            · exact Or.inl (Or.inr ha)
          · exact Or.inr ⟨v, hv, hav⟩

theorem resolveChildrenLoop_total {nodes : List DepNode} (fuel : Nat)
    (uids : List QuickModRef)
    (h : ∀ u ∈ uids, u ∈ nodes.map (fun n => n.uid) ∧
      ∃ l, DepNode.getParents nodes fuel u = .ok l) :
    ∀ acc : List QuickModRef, ∃ l, resolveChildrenLoop nodes fuel uids acc = .ok l := by
  induction uids with
  | nil => intro acc; exact ⟨acc, rfl⟩
  | cons u t ih =>
    intro acc
    obtain ⟨hu, lp, hlp⟩ := h u (List.mem_cons_self _ _)
    obtain ⟨node, hf, -, rfl⟩ := findNode_isSome hu
    simp only [resolveChildrenLoop, hf, hlp]
    exact ih (fun v hv => h v (List.mem_cons_of_mem _ hv)) _

theorem resolveOrphansLoop_spec (nodes : List DepNode) (fuel : Nat)
    (es : List InstalledMod) :
    ∀ (acc l : List QuickModRef), resolveOrphansLoop nodes fuel es acc = .ok l →
      ∃ l', l = acc ++ l' ∧ l'.Sublist (es.map (fun e => e.uid)) ∧
        (∀ e ∈ es, ∃ b, DepNode.hasHardParent nodes fuel e.uid = .ok b) ∧
        ∀ u, u ∈ l' ↔ u ∈ es.map (fun e => e.uid) ∧
          DepNode.hasHardParent nodes fuel u = .ok false := by
  induction es with
  | nil =>
    intro acc l h
    simp only [resolveOrphansLoop, Except.ok.injEq] at h
    subst h
    exact ⟨[], by simp⟩
  | cons e t ih =>
    intro acc l h
    simp only [resolveOrphansLoop] at h
    cases hf : DepNode.findNode nodes e.uid with
    | none => rw [hf] at h; cases h
    | some node =>
      rw [hf] at h
      simp only at h
      have hu : node.uid = e.uid := by simpa using List.find?_some hf
      rw [hu] at h
      cases hh : DepNode.hasHardParent nodes fuel e.uid with
      | error err => rw [hh] at h; cases h
      | ok b =>
        rw [hh] at h
        cases b with
        | true =>
          simp only at h
          obtain ⟨l', h1, h2, h3, h4⟩ := ih _ _ h
          refine ⟨l', h1, h2.trans (List.sublist_cons_self _ _), ?_, ?_⟩
          · intro x hx
            rcases List.mem_cons.1 hx with rfl | hx
            · exact ⟨true, hh⟩
            · exact h3 x hx
          · intro u
            rw [h4 u, List.map_cons, List.mem_cons]
            constructor
            · rintro ⟨a, b⟩; exact ⟨Or.inr a, b⟩
            · rintro ⟨rfl | a, b⟩
              · rw [hh] at b; cases b
              · exact ⟨a, b⟩
        | false =>
          simp only at h
          obtain ⟨l', h1, h2, h3, h4⟩ := ih _ _ h
          refine ⟨e.uid :: l', by simp [h1], h2.cons₂ _, ?_, ?_⟩
          · intro x hx
            rcases List.mem_cons.1 hx with rfl | hx
            · exact ⟨false, hh⟩
            · exact h3 x hx
          · intro u
            rw [List.mem_cons, h4 u, List.map_cons, List.mem_cons]
            constructor
            · rintro (rfl | ⟨a, b⟩)
              · exact ⟨Or.inl rfl, hh⟩
              · exact ⟨Or.inr a, b⟩
            · rintro ⟨rfl | a, b⟩
              · exact Or.inl rfl
              · exact Or.inr ⟨a, b⟩

theorem resolveOrphansLoop_total (nodes : List DepNode) (fuel : Nat)
    (es : List InstalledMod)
    (h : ∀ e ∈ es, e.uid ∈ nodes.map (fun n => n.uid) ∧
      ∃ b, DepNode.hasHardParent nodes fuel e.uid = .ok b) :
    ∀ acc : List QuickModRef, ∃ l, resolveOrphansLoop nodes fuel es acc = .ok l := by
  induction es with
  | nil => intro acc; exact ⟨acc, rfl⟩
  | cons e t ih =>
    intro acc
    obtain ⟨hu, b, hb⟩ := h e (List.mem_cons_self _ _)
    obtain ⟨node, hf, -, hnu⟩ := findNode_isSome hu
    simp only [resolveOrphansLoop, hf, hnu, hb]
    cases b with
    | true => exact ih (fun v hv => h v (List.mem_cons_of_mem _ hv)) _
    | false => exact ih (fun v hv => h v (List.mem_cons_of_mem _ hv)) _

theorem resolveOrphansLoop_ne_assertion (nodes : List DepNode) (fuel : Nat)
    (es : List InstalledMod) (h : ∀ e ∈ es, e.uid ∈ nodes.map (fun n => n.uid)) :
    ∀ acc : List QuickModRef,
      resolveOrphansLoop nodes fuel es acc ≠ .error Failure.assertion := by
  induction es with
  | nil => intro acc hc; cases hc
  | cons e t ih =>
    intro acc hc
    obtain ⟨node, hf, -, hnu⟩ := findNode_isSome (h e (List.mem_cons_self _ _))
    simp only [resolveOrphansLoop, hf, hnu] at hc
    cases hh : DepNode.hasHardParent nodes fuel e.uid with
    | error err =>
      rw [hh] at hc
      simp only [Except.error.injEq] at hc
      exact hasHardParent_ne_assertion nodes fuel e.uid (hc ▸ hh)
    | ok b =>
      rw [hh] at hc
      cases b with
      | true => exact ih (fun v hv => h v (List.mem_cons_of_mem _ hv)) _ hc
      | false => exact ih (fun v hv => h v (List.mem_cons_of_mem _ hv)) _ hc

/-! ### Acyclic graphs and the example graph -/

theorem acyclic_of_rank {nodes : List DepNode} (rank : QuickModRef → Nat)
    (h : ∀ p n, IsParent nodes p n → rank p < rank n) : Acyclic nodes := by
  have key : ∀ a b, Relation.TransGen (IsParent nodes) a b → rank a < rank b := by
    intro a b hab
    induction hab with
    | single h1 => exact h _ _ h1
    | tail _ h2 ih => exact lt_trans ih (h _ _ h2)
  intro u hu
  exact lt_irrefl _ (key u u hu)

theorem acyclic_of_acyclicEdges {db : QuickModVersionRef → Option QuickModVersion}
    {snap : List InstalledMod} {nodes : List DepNode} {flag : Bool}
    (h : DepNode.build db snap = .ok (nodes, flag)) (hac : AcyclicEdges nodes) :
    Acyclic nodes := by
  have key : ∀ a b, Relation.TransGen (IsParent nodes) a b →
      Relation.TransGen (IsChild nodes) b a := by
    intro a b hab
    induction hab with
    | single h1 => exact Relation.TransGen.single ((built_isParent_iff h _ _).1 h1)
    | tail _ h2 ih => exact Relation.TransGen.head ((built_isParent_iff h _ _).1 h2) ih
  intro u hu
  exact hac u (key u u hu)

theorem build_exSnapDepHard : DepNode.build exDb exSnapDepHard =
    .ok ([⟨some (0, "1"), 0, [1], [], false⟩, ⟨some (1, "1"), 1, [], [0], true⟩], true) := by
  rfl

theorem build_exSnapHardDep : DepNode.build exDb exSnapHardDep =
    .ok ([⟨some (0, "1"), 0, [1], [], true⟩, ⟨some (1, "1"), 1, [], [0], false⟩], true) := by
  rfl

theorem isParent_ex {a b : Bool} {p n : QuickModRef}
    (h : IsParent [⟨some (0, "1"), 0, [1], [], a⟩, ⟨some (1, "1"), 1, [], [0], b⟩] p n) :
    p = 0 ∧ n = 1 := by
  obtain ⟨node, hm, hu, hp⟩ := h
  simp only [List.mem_cons, List.mem_singleton, List.not_mem_nil, or_false] at hm
  rcases hm with rfl | rfl
  · simp at hp
  · simp only [List.mem_singleton] at hp
    exact ⟨hp, hu.symm⟩

theorem acyclic_ex (a b : Bool) :
    Acyclic [⟨some (0, "1"), 0, [1], [], a⟩, ⟨some (1, "1"), 1, [], [0], b⟩] :=
  acyclic_of_rank id (fun p n h => by
    obtain ⟨rfl, rfl⟩ := isParent_ex h
    exact Nat.zero_lt_one)

/-! ## C1 -/

/-- C1: in a graph that `build` returns and that has no cycle in the parent relation,
`resolveOrphans` returns (with enough recursion depth) the uids of the snapshot, in
snapshot order, whose node is not hard and has no hard node among its transitive
parents. -/
theorem resolveOrphans_no_hard_ancestor (db : QuickModVersionRef → Option QuickModVersion)
    (snap : List InstalledMod) (nodes : List DepNode) (flag : Bool)
    (hb : DepNode.build db snap = .ok (nodes, flag)) (hac : Acyclic nodes) :
    ∃ F, ∀ fuel, F ≤ fuel → ∃ l, resolveOrphans db snap fuel = .ok l ∧
      l.Sublist (snap.map (fun e => e.uid)) ∧
      ∀ u, u ∈ l ↔ (u ∈ snap.map (fun e => e.uid) ∧ ¬ IsHardNode nodes u ∧
        ∀ a, Relation.TransGen (IsParent nodes) a u → ¬ IsHardNode nodes a) := by
  have hok := built_graphOk hb
  have hmem : ∀ e ∈ snap, e.uid ∈ nodes.map (fun n => n.uid) := fun e he =>
    (built_uids hb).mem_iff.2 (List.mem_map.2 ⟨e, he, rfl⟩)
  obtain ⟨F, hF⟩ := exists_bound_forall_mem
    (fun f (e : InstalledMod) => ∃ b, DepNode.hasHardParent nodes f e.uid = .ok b) snap
    (fun e he => hasHardParent_total hok hac e.uid (hmem e he))
  refine ⟨F, fun fuel hle => ?_⟩
  obtain ⟨l, hl⟩ := resolveOrphansLoop_total nodes fuel snap
    (fun e he => ⟨hmem e he, hF fuel hle e he⟩) []
  obtain ⟨l', h1, h2, -, h4⟩ := resolveOrphansLoop_spec nodes fuel snap [] l hl
  rw [List.nil_append] at h1
  subst h1
  refine ⟨l, by simp only [resolveOrphans, hb, hl], h2, fun u => ?_⟩
  rw [h4 u]
  constructor
  · rintro ⟨hu, hf⟩
    have hno : ¬ HardAncestor nodes u := fun hha => by
      have := (hasHardParent_spec hok fuel u false hf).2 hha
      cases this
    exact ⟨hu, fun hh => hno ⟨u, Relation.ReflTransGen.refl, hh⟩,
      fun a ha hh => hno ⟨a, ha.to_reflTransGen, hh⟩⟩
  · rintro ⟨hu, hnh, hna⟩
    obtain ⟨e, he, rfl⟩ := List.mem_map.1 hu
    obtain ⟨b, hb'⟩ := hF fuel hle e he
    refine ⟨hu, ?_⟩
    cases b with
    | false => exact hb'
    | true =>
      obtain ⟨a, ha, hh⟩ := (hasHardParent_spec hok fuel e.uid true hb').1 rfl
      rcases Relation.reflTransGen_iff_eq_or_transGen.1 ha with heq | ht
      · exact absurd (heq ▸ hh) hnh
      · exact absurd hh (hna a ht)

/-- C1, at the examples of the claim: with A depending on B, the snapshot
[A dependency, B hard] has a graph without a cycle and its orphans are [A]; the snapshot
[A hard, B dependency] has no orphans. -/
theorem resolveOrphans_no_hard_ancestor_witness :
    DepNode.build exDb exSnapDepHard =
        .ok ([⟨some (0, "1"), 0, [1], [], false⟩, ⟨some (1, "1"), 1, [], [0], true⟩], true) ∧
      Acyclic [⟨some (0, "1"), 0, [1], [], false⟩, ⟨some (1, "1"), 1, [], [0], true⟩] ∧
      (∃ F, ∀ fuel, F ≤ fuel → ∃ l, resolveOrphans exDb exSnapDepHard fuel = .ok l ∧
        l.Sublist (exSnapDepHard.map (fun e => e.uid)) ∧
        ∀ u, u ∈ l ↔ (u ∈ exSnapDepHard.map (fun e => e.uid) ∧
          ¬ IsHardNode [⟨some (0, "1"), 0, [1], [], false⟩, ⟨some (1, "1"), 1, [], [0], true⟩] u ∧
          ∀ a, Relation.TransGen (IsParent
              [⟨some (0, "1"), 0, [1], [], false⟩, ⟨some (1, "1"), 1, [], [0], true⟩]) a u →
            ¬ IsHardNode
              [⟨some (0, "1"), 0, [1], [], false⟩, ⟨some (1, "1"), 1, [], [0], true⟩] a)) ∧
      resolveOrphans exDb exSnapDepHard 2 = .ok [0] ∧
      resolveOrphans exDb exSnapHardDep 2 = .ok [] :=
  ⟨build_exSnapDepHard, acyclic_ex false true,
    resolveOrphans_no_hard_ancestor exDb exSnapDepHard _ true build_exSnapDepHard
      (acyclic_ex false true), rfl, rfl⟩

theorem acyclicEdges_ex (a b : Bool) :
    AcyclicEdges [⟨some (0, "1"), 0, [1], [], a⟩, ⟨some (1, "1"), 1, [], [0], b⟩] := by
  have key : ∀ x y, Relation.TransGen
      (IsChild [⟨some (0, "1"), 0, [1], [], a⟩, ⟨some (1, "1"), 1, [], [0], b⟩]) x y →
      y < x := by
    intro x y hxy
    induction hxy with
    | single h1 =>
      obtain ⟨node, hm, hu, hp⟩ := h1
      simp only [List.mem_cons, List.mem_singleton, List.not_mem_nil, or_false] at hm
      rcases hm with rfl | rfl
      · simp only [List.mem_singleton] at hp
        subst hp; subst hu
        exact Nat.zero_lt_one
      · simp at hp
    | tail _ h2 ih =>
      obtain ⟨node, hm, hu, hp⟩ := h2
      simp only [List.mem_cons, List.mem_singleton, List.not_mem_nil, or_false] at hm
      rcases hm with rfl | rfl
      · simp only [List.mem_singleton] at hp
        subst hp; subst hu
        exact lt_trans Nat.zero_lt_one ih
      · simp at hp
  intro u hu
  exact lt_irrefl _ (key u u hu)

/-! ## C2 -/

/-- C2: whatever the snapshot and the graph (cycles included), a list returned by
`resolveOrphans` holds no uid of an entry that was not installed as a dependency. -/
theorem resolveOrphans_not_hard (db : QuickModVersionRef → Option QuickModVersion)
    (snap : List InstalledMod) (fuel : Nat) (l : List QuickModRef)
    (h : resolveOrphans db snap fuel = .ok l) :
    ∀ e ∈ snap, e.asDependency = false → e.uid ∉ l := by
  intro e he hdep hmem
  unfold resolveOrphans at h
  cases hb : DepNode.build db snap with
  | error err => rw [hb] at h; cases h
  | ok r =>
    obtain ⟨nodes, flag⟩ := r
    rw [hb] at h
    simp only at h
    obtain ⟨l', h1, -, -, h4⟩ := resolveOrphansLoop_spec nodes fuel snap [] l h
    rw [List.nil_append] at h1
    subst h1
    have hf := ((h4 e.uid).1 hmem).2
    have hnode : builtNode db nodes e ∈ nodes := (built_mem hb _).2 ⟨e, he, rfl⟩
    have := (hasHardParent_spec (built_graphOk hb) fuel e.uid false hf).2
      ⟨e.uid, Relation.ReflTransGen.refl, builtNode db nodes e, hnode, rfl, by
        simp [builtNode, hdep]⟩
    cases this

/-- C2 on a graph with a cycle (A hard, A and B depending on each other, C alone):
`resolveOrphans` returns the orphan C and not the hard package A. -/
theorem resolveOrphans_not_hard_witness :
    resolveOrphans exDbCyclic exSnapCyclic 2 = .ok [2] ∧
      ∀ e ∈ exSnapCyclic, e.asDependency = false → e.uid ∉ [2] :=
  ⟨rfl, resolveOrphans_not_hard exDbCyclic exSnapCyclic 2 [2] rfl⟩

/-! ## C3 -/

/-- C3: in a graph that `build` returns and that has no cycle among its edges, for seeds
that are all nodes of the graph, `resolveChildren` returns (with enough recursion depth)
a list without repetition whose members are exactly the seeds and the nodes reached from
a seed by one or more parent steps. -/
theorem resolveChildren_closure (db : QuickModVersionRef → Option QuickModVersion)
    (snap : List InstalledMod) (nodes : List DepNode) (flag : Bool)
    (uids : List QuickModRef)
    (hb : DepNode.build db snap = .ok (nodes, flag)) (hac : AcyclicEdges nodes)
    (hs : ∀ u ∈ uids, u ∈ nodes.map (fun n => n.uid)) :
    ∃ F, ∀ fuel, F ≤ fuel → ∃ l, resolveChildren db snap fuel uids = .ok l ∧ l.Nodup ∧
      ∀ a, a ∈ l ↔ ∃ u ∈ uids, a = u ∨ Relation.TransGen (IsParent nodes) a u := by
  have hok := built_graphOk hb
  have hac' := acyclic_of_acyclicEdges hb hac
  obtain ⟨F, hF⟩ := exists_bound_forall_mem
    (fun f (u : QuickModRef) => ∃ l, DepNode.getParents nodes f u = .ok l) uids
    (fun u hu => getParents_total hok hac' u (hs u hu))
  refine ⟨F, fun fuel hle => ?_⟩
  obtain ⟨ps, hps⟩ := resolveChildrenLoop_total fuel uids
    (fun u hu => ⟨hs u hu, hF fuel hle u hu⟩) []
  have hspec := resolveChildrenLoop_spec hok fuel uids [] ps hps
  obtain ⟨h1, h2⟩ := resolveChildrenOut_spec ps [] List.nodup_nil
  refine ⟨resolveChildrenOut ps [], by simp only [resolveChildren, hb, hps], h1, fun a => ?_⟩
  rw [h2 a, hspec a]
  simp

/-- C3 at the example graph (A depends on B): the closure of the seed B is B and its
parent A. -/
theorem resolveChildren_closure_witness :
    DepNode.build exDb exSnapHardDep =
        .ok ([⟨some (0, "1"), 0, [1], [], true⟩, ⟨some (1, "1"), 1, [], [0], false⟩], true) ∧
      AcyclicEdges [⟨some (0, "1"), 0, [1], [], true⟩, ⟨some (1, "1"), 1, [], [0], false⟩] ∧
      (∀ u ∈ [1], u ∈
        ([⟨some (0, "1"), 0, [1], [], true⟩, ⟨some (1, "1"), 1, [], [0], false⟩] :
          List DepNode).map (fun n => n.uid)) ∧
      (∃ F, ∀ fuel, F ≤ fuel → ∃ l, resolveChildren exDb exSnapHardDep fuel [1] = .ok l ∧
        l.Nodup ∧ ∀ a, a ∈ l ↔ ∃ u ∈ [1], a = u ∨ Relation.TransGen (IsParent
          [⟨some (0, "1"), 0, [1], [], true⟩, ⟨some (1, "1"), 1, [], [0], false⟩]) a u) ∧
      resolveChildren exDb exSnapHardDep 2 [1] = .ok [1, 0] :=
  ⟨build_exSnapHardDep, acyclicEdges_ex true false, by decide,
    resolveChildren_closure exDb exSnapHardDep _ true [1] build_exSnapHardDep
      (acyclicEdges_ex true false) (by decide), rfl⟩

/-! ## C4 -/

/-- C4: in a graph that `build` returns, for all nodes `p` and `n`: `p` occurs among the
parents of `n` exactly if `n` occurs among the children of `p`, with the same number of
occurrences, which is at most one; and every parent or child pointer points to a node of
the graph. -/
theorem build_parents_inverse_of_children
    (db : QuickModVersionRef → Option QuickModVersion)
    (snap : List InstalledMod) (nodes : List DepNode) (flag : Bool)
    (hb : DepNode.build db snap = .ok (nodes, flag)) :
    (∀ p ∈ nodes, ∀ n ∈ nodes,
      (p.uid ∈ n.parents ↔ n.uid ∈ p.children) ∧
      n.parents.count p.uid = p.children.count n.uid ∧
      n.parents.count p.uid ≤ 1) ∧
    (∀ n ∈ nodes, ∀ q, q ∈ n.parents ∨ q ∈ n.children → ∃ m ∈ nodes, m.uid = q) := by
  have hnd := built_nodup hb
  constructor
  · intro p hp n hn
    have hcount : n.parents.count p.uid = p.children.count n.uid := by
      rw [built_parents hb hn]
      exact count_parentsIn hnd n.uid hp
    refine ⟨?_, hcount, ?_⟩
    · rw [← List.count_pos_iff, ← List.count_pos_iff, hcount]
    · rw [hcount]
      exact List.nodup_iff_count_le_one.1 (built_children_nodup hb hp) n.uid
  · intro n hn q hq
    rcases hq with hq | hq
    · exact List.mem_map.1 ((built_graphOk hb).parents_mem n hn q hq) |>.imp
        (fun m hm => ⟨hm.1, hm.2⟩)
    · obtain ⟨node, hm, hu, -⟩ := (built_isParent_iff hb n.uid q).2 ⟨n, hn, rfl, hq⟩
      exact ⟨node, hm, hu⟩

/-- C4 at the example graph (A depends on B). -/
theorem build_parents_inverse_of_children_witness :
    DepNode.build exDb exSnapHardDep =
        .ok ([⟨some (0, "1"), 0, [1], [], true⟩, ⟨some (1, "1"), 1, [], [0], false⟩], true) ∧
    ((∀ p ∈ ([⟨some (0, "1"), 0, [1], [], true⟩, ⟨some (1, "1"), 1, [], [0], false⟩] :
        List DepNode),
      ∀ n ∈ ([⟨some (0, "1"), 0, [1], [], true⟩, ⟨some (1, "1"), 1, [], [0], false⟩] :
        List DepNode),
      (p.uid ∈ n.parents ↔ n.uid ∈ p.children) ∧
      n.parents.count p.uid = p.children.count n.uid ∧
      n.parents.count p.uid ≤ 1) ∧
    (∀ n ∈ ([⟨some (0, "1"), 0, [1], [], true⟩, ⟨some (1, "1"), 1, [], [0], false⟩] :
        List DepNode),
      ∀ q, q ∈ n.parents ∨ q ∈ n.children →
        ∃ m ∈ ([⟨some (0, "1"), 0, [1], [], true⟩, ⟨some (1, "1"), 1, [], [0], false⟩] :
          List DepNode), m.uid = q)) :=
  ⟨build_exSnapHardDep,
    build_parents_inverse_of_children exDb exSnapHardDep _ true build_exSnapHardDep⟩

/-! ## C5 -/

/-- C5: for a snapshot with pairwise distinct uids `build` returns, whatever the flag,
one node per entry and no other node (the uids of the nodes are the uids of the
snapshot, each once); `findNode` finds a node for every uid of the snapshot and
`resolveOrphans` never ends in a failed assertion. -/
theorem build_one_node_per_entry (db : QuickModVersionRef → Option QuickModVersion)
    (snap : List InstalledMod) (hd : (snap.map (fun e => e.uid)).Nodup) :
    ∃ nodes flag, DepNode.build db snap = .ok (nodes, flag) ∧
      nodes.length = snap.length ∧
      (nodes.map (fun n => n.uid)).Nodup ∧
      (∀ u, u ∈ nodes.map (fun n => n.uid) ↔ u ∈ snap.map (fun e => e.uid)) ∧
      (∀ e ∈ snap, ∃ n, DepNode.findNode nodes e.uid = some n ∧ n.uid = e.uid) ∧
      ∀ fuel, resolveOrphans db snap fuel ≠ .error Failure.assertion := by
  obtain ⟨nodes, flag, hb⟩ := build_total db snap hd
  have hperm := built_uids hb
  have hmem : ∀ e ∈ snap, e.uid ∈ nodes.map (fun n => n.uid) := fun e he =>
    hperm.mem_iff.2 (List.mem_map.2 ⟨e, he, rfl⟩)
  refine ⟨nodes, flag, hb, ?_, built_nodup hb, fun u => hperm.mem_iff, ?_, ?_⟩
  · simpa using hperm.length_eq
  · intro e he
    obtain ⟨n, hf, -, hu⟩ := findNode_isSome (hmem e he)
    exact ⟨n, hf, hu⟩
  · intro fuel
    simp only [resolveOrphans, hb]
    exact resolveOrphansLoop_ne_assertion nodes fuel snap hmem []

/-- C5 at a snapshot with an entry without valid version: the flag is false and the
graph still has its two nodes. -/
theorem build_one_node_per_entry_witness :
    (exSnapInvalid.map (fun e => e.uid)).Nodup ∧
    (∃ nodes flag, DepNode.build exDb exSnapInvalid = .ok (nodes, flag) ∧
      nodes.length = exSnapInvalid.length ∧
      (nodes.map (fun n => n.uid)).Nodup ∧
      (∀ u, u ∈ nodes.map (fun n => n.uid) ↔ u ∈ exSnapInvalid.map (fun e => e.uid)) ∧
      (∀ e ∈ exSnapInvalid, ∃ n, DepNode.findNode nodes e.uid = some n ∧ n.uid = e.uid) ∧
      ∀ fuel, resolveOrphans exDb exSnapInvalid fuel ≠ .error Failure.assertion) ∧
    DepNode.build exDb exSnapInvalid =
      .ok ([⟨some (0, "1"), 0, [1], [], true⟩, ⟨none, 1, [], [0], false⟩], false) :=
  ⟨by decide, build_one_node_per_entry exDb exSnapInvalid (by decide), rfl⟩

/-! ## C6 -/

/-- C6: in a graph that `build` returns, the children of a node whose version the
database knows are the targets of the edges of that version that are not soft and are
uids of nodes, in the order of the dependency map and each once; a node whose version
the database does not know has no children. -/
theorem build_children (db : QuickModVersionRef → Option QuickModVersion)
    (snap : List InstalledMod) (nodes : List DepNode) (flag : Bool)
    (hb : DepNode.build db snap = .ok (nodes, flag)) :
    ∀ n ∈ nodes,
      (db n.version = none → n.children = []) ∧
      ∀ ptr, db n.version = some ptr →
        n.children = (ptr.dependencies.entries.filter
          (fun d => !d.2.2 && decide (d.1 ∈ nodes.map (fun m => m.uid)))).map Prod.fst ∧
        n.children.Nodup ∧
        ∀ k, k ∈ n.children ↔
          (∃ m ∈ nodes, m.uid = k) ∧ ∃ d ∈ ptr.dependencies.entries, d.1 = k ∧ d.2.2 = false := by
  intro n hn
  have hnd := built_children_nodup hb hn
  obtain ⟨e, -, rfl⟩ := (built_mem hb n).1 hn
  constructor
  · intro h
    simp only [builtNode, childrenFor] at h ⊢
    rw [h]
  · intro ptr h
    have hc : (builtNode db nodes e).children =
        depTargets (nodes.map (fun m => m.uid)) ptr.dependencies.entries := by
      simp only [builtNode, childrenFor] at h ⊢
      rw [h]
    refine ⟨hc, hnd, fun k => ?_⟩
    rw [hc, mem_depTargets]
    constructor
    · rintro ⟨d, hd, hk, hs, hm⟩
      obtain ⟨m, hm, hu⟩ := List.mem_map.1 hm
      exact ⟨⟨m, hm, hu⟩, d, hd, hk, hs⟩
    · rintro ⟨⟨m, hm, hu⟩, d, hd, hk, hs⟩
      exact ⟨d, hd, hk, hs, List.mem_map.2 ⟨m, hm, hu⟩⟩

/-- C6 at the example graph (A depends on B). -/
theorem build_children_witness :
    DepNode.build exDb exSnapHardDep =
        .ok ([⟨some (0, "1"), 0, [1], [], true⟩, ⟨some (1, "1"), 1, [], [0], false⟩], true) ∧
    ∀ n ∈ ([⟨some (0, "1"), 0, [1], [], true⟩, ⟨some (1, "1"), 1, [], [0], false⟩] :
        List DepNode),
      (exDb n.version = none → n.children = []) ∧
      ∀ ptr, exDb n.version = some ptr →
        n.children = (ptr.dependencies.entries.filter
          (fun d => !d.2.2 && decide (d.1 ∈
            ([⟨some (0, "1"), 0, [1], [], true⟩, ⟨some (1, "1"), 1, [], [0], false⟩] :
              List DepNode).map (fun m => m.uid)))).map Prod.fst ∧
        n.children.Nodup ∧
        ∀ k, k ∈ n.children ↔
          (∃ m ∈ ([⟨some (0, "1"), 0, [1], [], true⟩, ⟨some (1, "1"), 1, [], [0], false⟩] :
              List DepNode), m.uid = k) ∧
            ∃ d ∈ ptr.dependencies.entries, d.1 = k ∧ d.2.2 = false :=
  ⟨build_exSnapHardDep, build_children exDb exSnapHardDep _ true build_exSnapHardDep⟩

theorem nodeGood_eq_false {db : QuickModVersionRef → Option QuickModVersion}
    {keys : List QuickModRef} {n : DepNode} :
    nodeGood db keys n = false ↔ db n.version = none ∨
      ∃ ptr, db n.version = some ptr ∧
        ∃ d ∈ ptr.dependencies.entries, d.2.2 = true ∨ d.1 ∉ keys := by
  unfold nodeGood
  cases hdb : db n.version with
  | none => simp
  | some ptr =>
    simp only [depsGood, false_or, Option.some.injEq, exists_eq_left', reduceCtorEq]
    rw [← Bool.not_eq_true, List.all_eq_true]
    simp only [Bool.and_eq_true, Bool.not_eq_true', decide_eq_true_eq, not_forall, not_and,
      exists_prop]
    constructor
    · rintro ⟨d, hd, hx⟩
      refine ⟨d, hd, ?_⟩
      by_cases hs : d.2.2 = true
      · exact Or.inl hs
      · exact Or.inr (hx (by simpa using hs))
    · rintro ⟨d, hd, hs | hk⟩
      · exact ⟨d, hd, fun h => by rw [hs] at h; cases h⟩
      · exact ⟨d, hd, fun _ => hk⟩

/-- When `build` returns a graph, `hasResolveError` returns the negation of its flag;
the flag is false exactly in the three cases in which `build` clears it. -/
theorem hasResolveError_of_build (db : QuickModVersionRef → Option QuickModVersion)
    (snap : List InstalledMod) (nodes : List DepNode) (flag : Bool)
    (hb : DepNode.build db snap = .ok (nodes, flag)) :
    hasResolveError db snap = .ok (!flag) ∧
    (hasResolveError db snap = .ok true ↔
      ((∃ e ∈ snap, e.version = none) ∨
        (∃ n ∈ nodes, db n.version = none) ∨
        (∃ n ∈ nodes, ∃ ptr, db n.version = some ptr ∧
          ∃ d ∈ ptr.dependencies.entries,
            d.2.2 = true ∨ ¬ ∃ m ∈ nodes, m.uid = d.1))) := by
  have hres : hasResolveError db snap = .ok (!flag) := by
    simp only [hasResolveError, hb]
  refine ⟨hres, ?_⟩
  have hflag := (build_spec db snap nodes flag hb).2.2
  have hkeys : ∀ k, k ∉ nodes.map (fun n => n.uid) ↔ ¬ ∃ m ∈ nodes, m.uid = k := by
    intro k
    simp only [List.mem_map]
  have hsome : ∀ o : QuickModVersionRef, o.isSome = false ↔ o = none := by
    intro o; cases o <;> simp
  rw [hres]
  simp only [Except.ok.injEq, Bool.not_eq_true']
  rw [hflag, builtFlag, Bool.and_eq_false_iff]
  rw [← Bool.not_eq_true, ← Bool.not_eq_true, List.all_eq_true, List.all_eq_true]
  simp only [not_forall, exists_prop, Bool.not_eq_true, hsome]
  constructor
  · rintro (h | ⟨n, hn, hg⟩)
    · exact Or.inl h
    · rcases nodeGood_eq_false.1 hg with h | ⟨ptr, hp, d, hd, hx⟩
      · exact Or.inr (Or.inl ⟨n, hn, h⟩)
      · exact Or.inr (Or.inr ⟨n, hn, ptr, hp, d, hd, hx.imp id (hkeys _).1⟩)
  · rintro (h | ⟨n, hn, h⟩ | ⟨n, hn, ptr, hp, d, hd, hx⟩)
    · exact Or.inl h
    · exact Or.inr ⟨n, hn, nodeGood_eq_false.2 (Or.inl h)⟩
    · exact Or.inr ⟨n, hn, nodeGood_eq_false.2
        (Or.inr ⟨ptr, hp, d, hd, hx.imp id (hkeys _).2⟩)⟩

/-! ## C7 -/

/-- C7: for a snapshot that passes the assertion of `build` (its uids are distinct),
`hasResolveError` returns the negation of the flag of the graph built, and it returns
true exactly if some entry has an invalid version, or the database does not know the
version of some node, or some edge of the version of a node is soft or has a target that
is no node of the graph. -/
theorem hasResolveError_iff (db : QuickModVersionRef → Option QuickModVersion)
    (snap : List InstalledMod) (hd : (snap.map (fun e => e.uid)).Nodup) :
    ∃ nodes flag, DepNode.build db snap = .ok (nodes, flag) ∧
      hasResolveError db snap = .ok (!flag) ∧
      (hasResolveError db snap = .ok true ↔
        ((∃ e ∈ snap, e.version = none) ∨
          (∃ n ∈ nodes, db n.version = none) ∨
          (∃ n ∈ nodes, ∃ ptr, db n.version = some ptr ∧
            ∃ d ∈ ptr.dependencies.entries,
              d.2.2 = true ∨ ¬ ∃ m ∈ nodes, m.uid = d.1))) := by
  obtain ⟨nodes, flag, hb⟩ := build_total db snap hd
  exact ⟨nodes, flag, hb, hasResolveError_of_build db snap nodes flag hb⟩

/-- C7 at a snapshot where the target B of the dependency of A is not installed:
`hasResolveError` returns true. -/
theorem hasResolveError_iff_witness :
    (exSnapMissing.map (fun e => e.uid)).Nodup ∧
    hasResolveError exDb exSnapMissing = .ok true ∧
    ∃ nodes flag, DepNode.build exDb exSnapMissing = .ok (nodes, flag) ∧
      hasResolveError exDb exSnapMissing = .ok (!flag) ∧
      (hasResolveError exDb exSnapMissing = .ok true ↔
        ((∃ e ∈ exSnapMissing, e.version = none) ∨
          (∃ n ∈ nodes, exDb n.version = none) ∨
          (∃ n ∈ nodes, ∃ ptr, exDb n.version = some ptr ∧
            ∃ d ∈ ptr.dependencies.entries,
              d.2.2 = true ∨ ¬ ∃ m ∈ nodes, m.uid = d.1))) :=
  ⟨by decide, rfl, hasResolveError_iff exDb exSnapMissing (by decide)⟩

/-! ## C8 -/

/-- C8: in a graph that `build` returns every node belongs to an entry of the snapshot,
and the node of an entry is hard exactly if the entry was not installed as a
dependency (whatever its version and whatever its parents). -/
theorem build_isHard_iff (db : QuickModVersionRef → Option QuickModVersion)
    (snap : List InstalledMod) (nodes : List DepNode) (flag : Bool)
    (hb : DepNode.build db snap = .ok (nodes, flag)) :
    (∀ n ∈ nodes, ∃ e ∈ snap, e.uid = n.uid) ∧
    ∀ e ∈ snap, ∀ n ∈ nodes, n.uid = e.uid → (n.isHard = true ↔ e.asDependency = false) := by
  have hnd := (build_spec db snap nodes flag hb).1
  constructor
  · intro n hn
    obtain ⟨e, he, rfl⟩ := (built_mem hb n).1 hn
    exact ⟨e, he, rfl⟩
  · intro e he n hn hu
    obtain ⟨e', he', rfl⟩ := (built_mem hb n).1 hn
    have : e' = e := List.inj_on_of_nodup_map hnd he' he hu
    subst this
    simp [builtNode]

/-- C8 at a snapshot whose dependency-installed entry has no valid version and is a
child of the other node. -/
theorem build_isHard_iff_witness :
    DepNode.build exDb exSnapInvalid =
      .ok ([⟨some (0, "1"), 0, [1], [], true⟩, ⟨none, 1, [], [0], false⟩], false) ∧
    ((∀ n ∈ ([⟨some (0, "1"), 0, [1], [], true⟩, ⟨none, 1, [], [0], false⟩] : List DepNode),
      ∃ e ∈ exSnapInvalid, e.uid = n.uid) ∧
    ∀ e ∈ exSnapInvalid,
      ∀ n ∈ ([⟨some (0, "1"), 0, [1], [], true⟩, ⟨none, 1, [], [0], false⟩] : List DepNode),
        n.uid = e.uid → (n.isHard = true ↔ e.asDependency = false)) :=
  ⟨rfl, build_isHard_iff exDb exSnapInvalid _ false rfl⟩

/-! ## Lemmas on the version resolution -/

theorem keysSubset_refl (sel : Selection) : KeysSubset sel sel :=
  fun x hx => ⟨x, hx, rfl⟩

theorem keysSubset_trans {a b c : Selection} (h1 : KeysSubset a b) (h2 : KeysSubset b c) :
    KeysSubset a c := by
  intro x hx
  obtain ⟨y, hy, hyx⟩ := h1 x hx
  obtain ⟨z, hz, hzy⟩ := h2 y hy
  exact ⟨z, hz, hzy.trans hyx⟩

theorem edgeSatisfied_mono {K : Type} {env : Env K} {sel sel' : Selection}
    {d : QuickModRef × (QuickModVersionRef × Bool)} (h : EdgeSatisfied env sel d)
    (hs : KeysSubset sel sel') : EdgeSatisfied env sel' d := by
  intro hm dep hdep
  obtain ⟨x, hx, hxk⟩ := h hm dep hdep
  obtain ⟨y, hy, hyx⟩ := hs x hx
  exact ⟨y, hy, hyx.trans hxk⟩

theorem Selection.mem_insert {m : Selection} {k : QuickModMetadata} {v : QuickModVersion}
    {x : QuickModMetadata × QuickModVersion} (h : x ∈ m.insert k v) :
    x ∈ m ∨ x = (k, v) := by
  induction m with
  | nil =>
    simp only [Selection.insert, List.mem_singleton] at h
    exact Or.inr h
  | cons a t ih =>
    obtain ⟨k', v'⟩ := a
    simp only [Selection.insert] at h
    split_ifs at h with hk
    · rcases List.mem_cons.1 h with h | h
      · exact Or.inr h
      · exact Or.inl (List.mem_cons_of_mem _ h)
    · rcases List.mem_cons.1 h with h | h
      · exact Or.inl (h ▸ List.mem_cons_self _ _)
      · rcases ih h with h | h
        · exact Or.inl (List.mem_cons_of_mem _ h)
        · exact Or.inr h

theorem Selection.mem_insert_self (m : Selection) (k : QuickModMetadata)
    (v : QuickModVersion) : (k, v) ∈ m.insert k v := by
  induction m with
  | nil => simp [Selection.insert]
  | cons a t ih =>
    obtain ⟨k', v'⟩ := a
    simp only [Selection.insert]
    split_ifs with hk
    · exact List.mem_cons_self _ _
    · exact List.mem_cons_of_mem _ ih

theorem Selection.keysSubset_insert (m : Selection) (k : QuickModMetadata)
    (v : QuickModVersion) : KeysSubset m (m.insert k v) := by
  induction m with
  | nil => intro x hx; cases hx
  | cons a t ih =>
    obtain ⟨k', v'⟩ := a
    intro x hx
    simp only [Selection.insert]
    split_ifs with hk
    · rcases List.mem_cons.1 hx with rfl | hx
      · exact ⟨(k, v), List.mem_cons_self _ _, hk.symm⟩
      · exact ⟨x, List.mem_cons_of_mem _ hx, rfl⟩
    · rcases List.mem_cons.1 hx with rfl | hx
      · exact ⟨_, List.mem_cons_self _ _, rfl⟩
      · obtain ⟨y, hy, hyx⟩ := ih x hx
        exact ⟨y, List.mem_cons_of_mem _ hy, hyx⟩

theorem Selection.value_eq_some {m : Selection} {k : QuickModMetadata}
    {v : QuickModVersion} (h : m.value k = some v) : (k, v) ∈ m := by
  unfold Selection.value at h
  cases hf : m.find? (fun e => e.1 == k) with
  | none => rw [hf] at h; cases h
  | some x =>
    rw [hf] at h
    simp only [Option.map_some', Option.some.injEq] at h
    have h1 := List.find?_some hf
    have h2 := List.mem_of_find?_eq_some hf
    simp only [beq_iff_eq] at h1
    rw [← h1, ← h]
    exact h2

theorem stepOk_refl {K : Type} (env : Env K) (sel : Selection) : StepOk env sel sel :=
  ⟨keysSubset_refl sel, fun _ hx => Or.inl hx⟩

theorem stepOk_trans {K : Type} {env : Env K} {a b c : Selection}
    (h1 : StepOk env a b) (h2 : StepOk env b c) : StepOk env a c := by
  refine ⟨keysSubset_trans h1.1 h2.1, fun x hx => ?_⟩
  rcases h2.2 x hx with hb | hs
  · rcases h1.2 x hb with ha | hs
    · exact Or.inl ha
    · exact Or.inr ⟨hs.1, fun d hd => edgeSatisfied_mono (hs.2 d hd) h2.1⟩
  · exact Or.inr hs

theorem resolveDeps_closed {K : Type} (env : Env K)
    (rec : QuickModVersion → Selection → Except Failure (Selection × List Event))
    (hrec : ∀ dep sel sel' evs, rec dep sel = .ok (sel', evs) →
      StepOk env sel sel' ∧ ∃ x ∈ sel', x.1 = dep.mod)
    (version : QuickModVersion)
    (deps : List (QuickModRef × (QuickModVersionRef × Bool))) :
    ∀ (sel : Selection) (evs : List Event) (sel' : Selection) (evs' : List Event),
      resolveDeps env rec version deps sel evs = .ok (sel', evs') →
        StepOk env sel sel' ∧ ∀ d ∈ deps, EdgeSatisfied env sel' d := by
  induction deps with
  | nil =>
    intro sel evs sel' evs' h
    simp only [resolveDeps, Except.ok.injEq, Prod.mk.injEq] at h
    obtain ⟨rfl, -⟩ := h
    exact ⟨stepOk_refl env sel, fun d hd => by cases hd⟩
  | cons d rest ih =>
    intro sel evs sel' evs' h
    obtain ⟨key, filter, soft⟩ := d
    simp only [resolveDeps] at h
    cases ha : askDependency env version key filter with
    | mk dep asked =>
      rw [ha] at h
      cases dep with
      | none =>
        simp only at h
        obtain ⟨h1, h2⟩ := ih _ _ _ _ h
        refine ⟨h1, fun d hd => ?_⟩
        rcases List.mem_cons.1 hd with rfl | hd
        · intro hm dep hdep
          simp only [askDependency] at ha
          have hne : (env.allModMetadata key).isEmpty = false := by
            cases hl : env.allModMetadata key with
            | nil => exact absurd hl hm
            | cons _ _ => rfl
          rw [hne] at ha
          simp only [Bool.false_eq_true, if_false, Prod.mk.injEq] at ha
          rw [ha.1] at hdep
          cases hdep
        · exact h2 d hd
      | some dep =>
        simp only at h
        cases hr : rec dep sel with
        | error e => rw [hr] at h; cases h
        | ok r =>
          obtain ⟨sel1, evs1⟩ := r
          rw [hr] at h
          simp only at h
          obtain ⟨hstep1, hdep1⟩ := hrec dep sel sel1 evs1 hr
          obtain ⟨h1, h2⟩ := ih _ _ _ _ h
          refine ⟨stepOk_trans hstep1 h1, fun d hd => ?_⟩
          rcases List.mem_cons.1 hd with rfl | hd
          · intro hm dep' hdep'
            simp only [askDependency] at ha
            have hne : (env.allModMetadata key).isEmpty = false := by
              cases hl : env.allModMetadata key with
              | nil => exact absurd hl hm
              | cons _ _ => rfl
            rw [hne] at ha
            simp only [Bool.false_eq_true, if_false, Prod.mk.injEq] at ha
            rw [ha.1] at hdep'
            cases hdep'
            obtain ⟨x, hx, hxk⟩ := hdep1
            obtain ⟨y, hy, hyx⟩ := h1.1 x hx
            exact ⟨y, hy, hyx.trans hxk⟩
          · exact h2 d hd

theorem resolveVersion_closed {K : Type} [LinearOrder K] (env : Env K) :
    ∀ (fuel : Nat) (v : Option QuickModVersion) (sel sel' : Selection) (evs : List Event),
      resolveVersion env fuel v sel = .ok (sel', evs) →
        StepOk env sel sel' ∧ ∀ ver, v = some ver → ∃ x ∈ sel', x.1 = ver.mod := by
  intro fuel
  induction fuel with
  | zero => intro v sel sel' evs h; simp [resolveVersion] at h
  | succ f ih =>
    intro v sel sel' evs h
    cases v with
    | none =>
      simp only [resolveVersion, Except.ok.injEq, Prod.mk.injEq] at h
      obtain ⟨rfl, -⟩ := h
      exact ⟨stepOk_refl env sel, fun ver hv => by cases hv⟩
    | some version =>
      simp only [resolveVersion] at h
      by_cases hskip : nonImproving env sel version = true
      · rw [if_pos hskip] at h
        simp only [Except.ok.injEq, Prod.mk.injEq] at h
        obtain ⟨rfl, -⟩ := h
        refine ⟨stepOk_refl env sel, fun ver hv => ?_⟩
        cases hv
        simp only [nonImproving, Bool.and_eq_true] at hskip
        cases hval : sel.value version.mod with
        | none => rw [hval] at hskip; simp at hskip
        | some cur => exact ⟨_, Selection.value_eq_some hval, rfl⟩
      · rw [if_neg hskip] at h
        obtain ⟨h1, h2⟩ := resolveDeps_closed env _
          (fun dep s s' e hr => by
            obtain ⟨a, b⟩ := ih (some dep) s s' e hr
            exact ⟨a, b dep rfl⟩) version _ _ _ _ _ h
        have hself : ∃ x ∈ sel', x.1 = version.mod := by
          obtain ⟨y, hy, hyx⟩ := h1.1 _ (Selection.mem_insert_self sel version.mod version)
          exact ⟨y, hy, hyx⟩
        refine ⟨⟨keysSubset_trans (Selection.keysSubset_insert sel _ _) h1.1, fun x hx => ?_⟩,
          fun ver hv => by cases hv; exact hself⟩
        rcases h1.2 x hx with hin | hs
        · rcases Selection.mem_insert hin with hm | rfl
          · exact Or.inl hm
          · exact Or.inr ⟨rfl, h2⟩
        · exact Or.inr hs

theorem closed_nil {K : Type} (env : Env K) : Closed env [] :=
  fun x hx => by cases hx

theorem resolve_stepOk {K : Type} [LinearOrder K] (env : Env K) (fuel : Nat)
    (mods : List QuickModRef) :
    ∀ (sel : Selection) (evs : List Event) (res : List QuickModVersion) (sel' : Selection)
      (evs' : List Event),
      (∀ mod ∈ mods, (env.getVersion mod none).2 = true) →
      resolve env fuel mods sel evs = .ok (res, sel', evs') →
        res = sel'.values ∧ StepOk env sel sel' ∧
          ∀ mod ∈ mods, ∀ c, (env.getVersion mod none).1 = some c →
            ∃ x ∈ sel', x.1 = c.mod := by
  induction mods with
  | nil =>
    intro sel evs res sel' evs' _ h
    simp only [resolve, Except.ok.injEq, Prod.mk.injEq] at h
    obtain ⟨rfl, rfl, -⟩ := h
    exact ⟨rfl, stepOk_refl env sel, fun mod hm => by cases hm⟩
  | cons mod rest ih =>
    intro sel evs res sel' evs' hsucc h
    simp only [resolve] at h
    cases hr : resolveVersion env fuel (env.getVersion mod none).1 sel with
    | error e => rw [hr] at h; cases h
    | ok r =>
      obtain ⟨sel1, evs1⟩ := r
      rw [hr] at h
      simp only [hsucc mod (List.mem_cons_self _ _), if_true] at h
      obtain ⟨hstep1, hself⟩ := resolveVersion_closed env fuel _ sel sel1 evs1 hr
      obtain ⟨h1, h2, h3⟩ := ih _ _ _ _ _
        (fun m hm => hsucc m (List.mem_cons_of_mem _ hm)) h
      refine ⟨h1, stepOk_trans hstep1 h2, fun m hm c hc => ?_⟩
      rcases List.mem_cons.1 hm with rfl | hm
      · obtain ⟨x, hx, hxk⟩ := hself c hc
        obtain ⟨y, hy, hyx⟩ := h2.1 x hx
        exact ⟨y, hy, hyx.trans hxk⟩
      · exact h3 m hm c hc

theorem closed_of_stepOk {K : Type} {env : Env K} {sel sel' : Selection}
    (h0 : Closed env sel) (h : StepOk env sel sel') : Closed env sel' := by
  intro x hx
  rcases h.2 x hx with hin | hs
  · exact ⟨(h0 x hin).1, fun d hd => edgeSatisfied_mono ((h0 x hin).2 d hd) h.1⟩
  · exact hs

/-! ## C9 -/

/-- C9: let the selector return a non-null version whenever it reports success, let the
selection of the resolver be closed under resolved dependencies before the call (as the
empty selection of a new resolver is), and let `resolve(mods)` return without the
selector failing for a requested package.  Then the list returned holds a version of the
package the selector chose for every requested uid, and it is closed under resolved
dependencies: for every version in it and every edge of that version whose target has
metadata and for which the selector returns a version, it holds a version of the package
of that answer.  If the selector answers with versions of the uid asked for, these are
versions of the requested uid and of the target uid of the edge. -/
theorem resolve_closed_under_dependencies {K : Type} [LinearOrder K] (env : Env K)
    (fuel : Nat) (mods : List QuickModRef) (sel : Selection) (evs : List Event)
    (res : List QuickModVersion) (sel' : Selection) (evs' : List Event)
    (hsel : ∀ uid filter, (env.getVersion uid filter).2 = true →
      ∃ c, (env.getVersion uid filter).1 = some c)
    (h0 : Closed env sel)
    (hsucc : ∀ mod ∈ mods, (env.getVersion mod none).2 = true)
    (h : resolve env fuel mods sel evs = .ok (res, sel', evs')) :
    (∀ mod ∈ mods, ∃ c, (env.getVersion mod none).1 = some c ∧ ∃ w ∈ res, w.mod = c.mod) ∧
    (∀ v ∈ res, ∀ d ∈ v.dependencies.entries, env.allModMetadata d.1 ≠ [] →
      ∀ dep, (env.getVersion d.1 d.2.1).1 = some dep → ∃ w ∈ res, w.mod = dep.mod) ∧
    ((∀ uid filter c, (env.getVersion uid filter).1 = some c → c.mod.uid = uid) →
      (∀ mod ∈ mods, ∃ w ∈ res, w.mod.uid = mod) ∧
      (∀ v ∈ res, ∀ d ∈ v.dependencies.entries, env.allModMetadata d.1 ≠ [] →
        (env.getVersion d.1 d.2.1).1 ≠ none → ∃ w ∈ res, w.mod.uid = d.1)) ∧
    Closed env sel' := by
  obtain ⟨hres, hstep, hreq⟩ := resolve_stepOk env fuel mods sel evs res sel' evs' hsucc h
  have hcl := closed_of_stepOk h0 hstep
  have hin : ∀ k, (∃ x ∈ sel', x.1 = k) → ∃ w ∈ res, w.mod = k := by
    rintro k ⟨x, hx, hxk⟩
    refine ⟨x.2, ?_, ?_⟩
    · rw [hres]; exact List.mem_map.2 ⟨x, hx, rfl⟩
    · rw [← (hcl x hx).1]; exact hxk
  have hA : ∀ mod ∈ mods, ∃ c, (env.getVersion mod none).1 = some c ∧
      ∃ w ∈ res, w.mod = c.mod := by
    intro mod hm
    obtain ⟨c, hc⟩ := hsel mod none (hsucc mod hm)
    exact ⟨c, hc, hin _ (hreq mod hm c hc)⟩
  have hB : ∀ v ∈ res, ∀ d ∈ v.dependencies.entries, env.allModMetadata d.1 ≠ [] →
      ∀ dep, (env.getVersion d.1 d.2.1).1 = some dep → ∃ w ∈ res, w.mod = dep.mod := by
    intro v hv d hd hm dep hdep
    rw [hres] at hv
    obtain ⟨x, hx, rfl⟩ := List.mem_map.1 hv
    exact hin _ ((hcl x hx).2 d hd hm dep hdep)
  refine ⟨hA, hB, fun hc => ⟨?_, ?_⟩, hcl⟩
  · intro mod hm
    obtain ⟨c, hcv, w, hw, hwc⟩ := hA mod hm
    exact ⟨w, hw, by rw [hwc]; exact hc _ _ c hcv⟩
  · intro v hv d hd hm hne
    cases hdep : (env.getVersion d.1 d.2.1).1 with
    | none => exact absurd hdep hne
    | some dep =>
      obtain ⟨w, hw, hwc⟩ := hB v hv d hd hm dep hdep
      exact ⟨w, hw, by rw [hwc]; exact hc _ _ dep hdep⟩

theorem exEnvChain_nonnull : ∀ uid filter, (exEnvChain.getVersion uid filter).2 = true →
    ∃ c, (exEnvChain.getVersion uid filter).1 = some c := by
  intro uid filter h
  simp only [exEnvChain] at h ⊢
  split_ifs at h ⊢ <;> exact ⟨_, rfl⟩

/-- C9 at the example of the claim: A depends on B, B depends on C, and `resolve` of A
on a new resolver returns A, B and C. -/
theorem resolve_closed_under_dependencies_witness :
    resolve exEnvChain 3 [0] [] [] =
      .ok ([exVersionA, exVersionB, exVersionC],
        [(exVersionA.mod, exVersionA), (exVersionB.mod, exVersionB),
          (exVersionC.mod, exVersionC)],
        [Event.getVersion 0 none, Event.getVersion 1 (some (1, "1")),
          Event.success (Message.resolved "A" "1" "B" "1"),
          Event.getVersion 2 (some (2, "1")),
          Event.success (Message.resolved "B" "1" "C" "1")]) ∧
    ((∀ mod ∈ [0], ∃ c, (exEnvChain.getVersion mod none).1 = some c ∧
        ∃ w ∈ [exVersionA, exVersionB, exVersionC], w.mod = c.mod) ∧
    (∀ v ∈ [exVersionA, exVersionB, exVersionC], ∀ d ∈ v.dependencies.entries,
      exEnvChain.allModMetadata d.1 ≠ [] →
      ∀ dep, (exEnvChain.getVersion d.1 d.2.1).1 = some dep →
        ∃ w ∈ [exVersionA, exVersionB, exVersionC], w.mod = dep.mod) ∧
    ((∀ uid filter c, (exEnvChain.getVersion uid filter).1 = some c → c.mod.uid = uid) →
      (∀ mod ∈ [0], ∃ w ∈ [exVersionA, exVersionB, exVersionC], w.mod.uid = mod) ∧
      (∀ v ∈ [exVersionA, exVersionB, exVersionC], ∀ d ∈ v.dependencies.entries,
        exEnvChain.allModMetadata d.1 ≠ [] →
        (exEnvChain.getVersion d.1 d.2.1).1 ≠ none →
          ∃ w ∈ [exVersionA, exVersionB, exVersionC], w.mod.uid = d.1)) ∧
    Closed exEnvChain [(exVersionA.mod, exVersionA), (exVersionB.mod, exVersionB),
          (exVersionC.mod, exVersionC)]) :=
  ⟨rfl, resolve_closed_under_dependencies exEnvChain 3 [0] [] [] _ _ _ exEnvChain_nonnull
    (closed_nil exEnvChain) (by intro mod hm; simp only [List.mem_singleton] at hm; subst hm; rfl)
    rfl⟩

/-! ### The order of the versions selected -/

theorem mono_refl {K : Type} [LinearOrder K] (env : Env K) (sel : Selection) :
    Mono env sel sel :=
  fun _ cur h => ⟨cur, h, le_refl _⟩

theorem mono_trans {K : Type} [LinearOrder K] {env : Env K} {a b c : Selection}
    (h1 : Mono env a b) (h2 : Mono env b c) : Mono env a c := by
  intro k cur h
  obtain ⟨x, hx, hle⟩ := h1 k cur h
  obtain ⟨y, hy, hle'⟩ := h2 k x hx
  exact ⟨y, hy, le_trans hle hle'⟩

theorem covers_mono {K : Type} [LinearOrder K] {env : Env K} {a b : Selection}
    {c : QuickModVersion} (h : Covers env a c) (hm : Mono env a b) : Covers env b c := by
  obtain ⟨w, hw, hle⟩ := h
  obtain ⟨w', hw', hle'⟩ := hm _ w hw
  exact ⟨w', hw', le_trans hle hle'⟩

theorem allCovered_mono {K : Type} [LinearOrder K] {env : Env K} {a b : Selection}
    {evs : List Event} (h : AllCovered env a evs) (hm : Mono env a b) :
    AllCovered env b evs :=
  fun uid filter he c hc => covers_mono (h uid filter he c hc) hm

theorem Selection.value_insert (m : Selection) (k k' : QuickModMetadata)
    (v : QuickModVersion) :
    (m.insert k v).value k' = if k' = k then some v else m.value k' := by
  induction m with
  | nil =>
    by_cases h : k' = k
    · subst h; simp [Selection.insert, Selection.value]
    · have h' : ¬ k = k' := fun x => h x.symm
      simp [Selection.insert, Selection.value, h, h']
  | cons a t ih =>
    obtain ⟨k0, v0⟩ := a
    simp only [Selection.insert]
    by_cases h0 : k0 = k
    · rw [if_pos h0]
      subst h0
      by_cases h : k' = k0
      · subst h; simp [Selection.value]
      · have h' : ¬ k0 = k' := fun x => h x.symm
        simp [Selection.value, h, h']
    · rw [if_neg h0]
      by_cases h1 : k0 = k'
      · subst h1
        simp [Selection.value, h0]
      · have hv : ∀ l : Selection, Selection.value ((k0, v0) :: l) k' = Selection.value l k' := by
          intro l
          simp [Selection.value, List.find?_cons, h1]
        rw [hv, hv, ih]

theorem askDependency_getVersion {K : Type} (env : Env K) (version : QuickModVersion)
    (key : QuickModRef) (filter : QuickModVersionRef) (uid : QuickModRef)
    (f : QuickModVersionRef)
    (h : Event.getVersion uid f ∈ (askDependency env version key filter).2) :
    uid = key ∧ f = filter ∧
      (askDependency env version key filter).1 = (env.getVersion key filter).1 := by
  unfold askDependency at h ⊢
  by_cases he : (env.allModMetadata key).isEmpty = true
  · rw [if_pos he] at h; cases h
  · rw [if_neg he] at h ⊢
    simp only [List.mem_cons, Event.getVersion.injEq] at h
    rcases h with ⟨h1, h2⟩ | h
    · exact ⟨h1, h2, rfl⟩
    · split_ifs at h
      · cases h
      · simp at h

theorem resolveDeps_covers {K : Type} [LinearOrder K] (env : Env K)
    (rec : QuickModVersion → Selection → Except Failure (Selection × List Event))
    (hrec : ∀ dep sel sel' evs, rec dep sel = .ok (sel', evs) →
      Mono env sel sel' ∧ Covers env sel' dep ∧ AllCovered env sel' evs)
    (version : QuickModVersion)
    (deps : List (QuickModRef × (QuickModVersionRef × Bool))) :
    ∀ (sel : Selection) (evs : List Event) (sel' : Selection) (evs' : List Event),
      AllCovered env sel evs →
      resolveDeps env rec version deps sel evs = .ok (sel', evs') →
        Mono env sel sel' ∧ AllCovered env sel' evs' := by
  induction deps with
  | nil =>
    intro sel evs sel' evs' hc h
    simp only [resolveDeps, Except.ok.injEq, Prod.mk.injEq] at h
    obtain ⟨rfl, rfl⟩ := h
    exact ⟨mono_refl env sel, hc⟩
  | cons d rest ih =>
    intro sel evs sel' evs' hc h
    obtain ⟨key, filter, soft⟩ := d
    simp only [resolveDeps] at h
    have hask := askDependency_getVersion env version key filter
    cases ha : askDependency env version key filter with
    | mk dep asked =>
      rw [ha] at h hask
      cases dep with
      | none =>
        simp only at h
        refine ih _ _ _ _ ?_ h
        intro uid f he c hcv
        simp only [List.mem_append, List.mem_singleton, reduceCtorEq, or_false] at he
        rcases he with he | he
        · exact hc uid f he c hcv
        · obtain ⟨rfl, rfl, h3⟩ := hask uid f he
          simp only at h3
          rw [← h3] at hcv
          cases hcv
      | some dep =>
        simp only at h
        cases hr : rec dep sel with
        | error e => rw [hr] at h; cases h
        | ok r =>
          obtain ⟨sel1, evs1⟩ := r
          rw [hr] at h
          simp only at h
          obtain ⟨hm1, hcov1, hall1⟩ := hrec dep sel sel1 evs1 hr
          refine (ih _ _ _ _ ?_ h).imp (fun h1 => mono_trans hm1 h1) id
          · intro uid f he c hcv
            simp only [List.mem_append, List.mem_singleton, reduceCtorEq, or_false] at he
            rcases he with (he | he) | he
            · exact covers_mono (hc uid f he c hcv) hm1
            · obtain ⟨rfl, rfl, h3⟩ := hask uid f he
              simp only at h3
              rw [← h3] at hcv
              cases hcv
              exact hcov1
            · exact hall1 uid f he c hcv

theorem resolveVersion_covers {K : Type} [LinearOrder K] (env : Env K) :
    ∀ (fuel : Nat) (v : Option QuickModVersion) (sel sel' : Selection) (evs : List Event),
      resolveVersion env fuel v sel = .ok (sel', evs) →
        Mono env sel sel' ∧ (∀ ver, v = some ver → Covers env sel' ver) ∧
          AllCovered env sel' evs := by
  intro fuel
  induction fuel with
  | zero => intro v sel sel' evs h; simp [resolveVersion] at h
  | succ f ih =>
    intro v sel sel' evs h
    cases v with
    | none =>
      simp only [resolveVersion, Except.ok.injEq, Prod.mk.injEq] at h
      obtain ⟨rfl, rfl⟩ := h
      exact ⟨mono_refl env sel, (fun ver hv => by cases hv), (fun _ _ he => by cases he)⟩
    | some version =>
      simp only [resolveVersion] at h
      by_cases hskip : nonImproving env sel version = true
      · rw [if_pos hskip] at h
        simp only [Except.ok.injEq, Prod.mk.injEq] at h
        obtain ⟨rfl, rfl⟩ := h
        refine ⟨mono_refl env sel, fun ver hv => ?_, (fun _ _ he => by cases he)⟩
        cases hv
        simp only [nonImproving, Bool.and_eq_true] at hskip
        cases hval : sel.value version.mod with
        | none => rw [hval] at hskip; simp at hskip
        | some cur =>
          rw [hval] at hskip
          exact ⟨cur, hval, by simpa using hskip.2⟩
      · rw [if_neg hskip] at h
        have hm0 : Mono env sel (sel.insert version.mod version) := by
          intro k cur hk
          rw [Selection.value_insert]
          by_cases hkv : k = version.mod
          · rw [if_pos hkv]
            refine ⟨version, rfl, ?_⟩
            subst hkv
            by_contra hlt
            apply hskip
            have hcont : sel.contains version.mod = true := by
              have := Selection.value_eq_some hk
              simp only [Selection.contains, List.any_eq_true, beq_iff_eq]
              exact ⟨_, this, rfl⟩
            simp only [nonImproving, hcont, hk, Bool.true_and, decide_eq_true_eq]
            exact le_of_not_le hlt
          · rw [if_neg hkv]
            exact ⟨cur, hk, le_refl _⟩
        have hc0 : Covers env (sel.insert version.mod version) version :=
          ⟨version, by rw [Selection.value_insert, if_pos rfl], le_refl _⟩
        obtain ⟨h1, h2⟩ := resolveDeps_covers env _
          (fun dep s s' e hr => by
            obtain ⟨a, b, c⟩ := ih (some dep) s s' e hr
            exact ⟨a, b dep rfl, c⟩) version _ _ _ _ _ (fun _ _ he => by cases he) h
        exact ⟨mono_trans hm0 h1, (fun ver hv => by cases hv; exact covers_mono hc0 h1), h2⟩

theorem resolve_covers {K : Type} [LinearOrder K] (env : Env K) (fuel : Nat)
    (mods : List QuickModRef) :
    ∀ (sel : Selection) (evs : List Event) (res : List QuickModVersion) (sel' : Selection)
      (evs' : List Event), AllCovered env sel evs →
      resolve env fuel mods sel evs = .ok (res, sel', evs') →
        Mono env sel sel' ∧ AllCovered env sel' evs' := by
  induction mods with
  | nil =>
    intro sel evs res sel' evs' hc h
    simp only [resolve, Except.ok.injEq, Prod.mk.injEq] at h
    obtain ⟨-, rfl, rfl⟩ := h
    exact ⟨mono_refl env sel, hc⟩
  | cons mod rest ih =>
    intro sel evs res sel' evs' hc h
    simp only [resolve] at h
    cases hr : resolveVersion env fuel (env.getVersion mod none).1 sel with
    | error e => rw [hr] at h; cases h
    | ok r =>
      obtain ⟨sel1, evs1⟩ := r
      rw [hr] at h
      simp only at h
      obtain ⟨hm1, hcov1, hall1⟩ := resolveVersion_covers env fuel _ sel sel1 evs1 hr
      have hnew : AllCovered env sel1 (evs ++ [Event.getVersion mod none] ++ evs1) := by
        intro uid f he c hcv
        simp only [List.mem_append, List.mem_singleton, Event.getVersion.injEq] at he
        rcases he with (he | ⟨rfl, rfl⟩) | he
        · exact covers_mono (hc uid f he c hcv) hm1
        · exact hcov1 c hcv
        · exact hall1 uid f he c hcv
      by_cases hok : (env.getVersion mod none).2 = true
      · rw [if_pos hok] at h
        obtain ⟨h1, h2⟩ := ih _ _ _ _ _ hnew h
        exact ⟨mono_trans hm1 h1, h2⟩
      · rw [if_neg hok] at h
        simp only [Except.ok.injEq, Prod.mk.injEq] at h
        obtain ⟨-, rfl, rfl⟩ := h
        refine ⟨hm1, ?_⟩
        intro uid f he c hcv
        rw [List.mem_append] at he
        rcases he with he | he
        · exact hnew uid f he c hcv
        · simp at he

/-! ## C10 -/

/-- C10: when `resolve(mods)` returns, the selection holds for every non-null answer of
the selector during the run (these are the versions passed to the recursive step) a
version of the same package that compares greater than or equal to it, and no selection
made before the run was lost or lowered.  For the recursive step itself: a version that
does not compare greater than the one selected for its package changes nothing and
emits nothing; and after a step that returns, the selection covers its argument and has
lowered no selected version. -/
theorem resolve_selects_highest_candidate {K : Type} [LinearOrder K] (env : Env K)
    (fuel : Nat) (mods : List QuickModRef) (sel : Selection)
    (res : List QuickModVersion) (sel' : Selection) (evs' : List Event)
    (h : resolve env fuel mods sel [] = .ok (res, sel', evs')) :
    (∀ uid filter, Event.getVersion uid filter ∈ evs' →
      ∀ c, (env.getVersion uid filter).1 = some c →
        ∃ w, sel'.value c.mod = some w ∧ env.Version c.name ≤ env.Version w.name) ∧
    (∀ k cur, sel.value k = some cur →
      ∃ cur', sel'.value k = some cur' ∧ env.Version cur.name ≤ env.Version cur'.name) ∧
    (∀ (f : Nat) (v cur : QuickModVersion) (s : Selection), s.value v.mod = some cur →
      env.Version v.name ≤ env.Version cur.name →
        resolveVersion env (f + 1) (some v) s = .ok (s, [])) ∧
    (∀ (f : Nat) (v : QuickModVersion) (s s' : Selection) (e : List Event),
      resolveVersion env f (some v) s = .ok (s', e) →
        (∃ w, s'.value v.mod = some w ∧ env.Version v.name ≤ env.Version w.name) ∧
        ∀ k cur, s.value k = some cur →
          ∃ cur', s'.value k = some cur' ∧ env.Version cur.name ≤ env.Version cur'.name) := by
  obtain ⟨h1, h2⟩ := resolve_covers env fuel mods sel [] res sel' evs'
    (fun _ _ he => by cases he) h
  refine ⟨h2, h1, ?_, ?_⟩
  · intro f v cur s hv hle
    have hcont : s.contains v.mod = true := by
      simp only [Selection.contains, List.any_eq_true, beq_iff_eq]
      exact ⟨_, Selection.value_eq_some hv, rfl⟩
    have hskip : nonImproving env s v = true := by
      simp only [nonImproving, hcont, hv, Bool.true_and, decide_eq_true_eq]
      exact hle
    simp only [resolveVersion, hskip, if_true]
  · intro f v s s' e hr
    obtain ⟨a, b, -⟩ := resolveVersion_covers env f (some v) s s' e hr
    exact ⟨b v rfl, a⟩

/-- C10 at the example of the claim, in both orders: whether the selector gives B 2 for
the edge of A and then B 1 for the edge of C, or B 1 first and B 2 second, the
selection ends with B 2. -/
theorem resolve_selects_highest_candidate_witness :
    selectedNames (resolve (exEnvTwo "2" "1") 3 [0] [] []) =
      .ok [("A", "1"), ("B", "2"), ("C", "1")] ∧
    selectedNames (resolve (exEnvTwo "1" "2") 3 [0] [] []) =
      .ok [("A", "1"), ("B", "2"), ("C", "1")] ∧
    ∃ res sel' evs', resolve (exEnvTwo "1" "2") 3 [0] [] [] = .ok (res, sel', evs') ∧
      ((∀ uid filter, Event.getVersion uid filter ∈ evs' →
        ∀ c, ((exEnvTwo "1" "2").getVersion uid filter).1 = some c →
          ∃ w, sel'.value c.mod = some w ∧
            (exEnvTwo "1" "2").Version c.name ≤ (exEnvTwo "1" "2").Version w.name) ∧
      (∀ k cur, Selection.value [] k = some cur →
        ∃ cur', sel'.value k = some cur' ∧
          (exEnvTwo "1" "2").Version cur.name ≤ (exEnvTwo "1" "2").Version cur'.name) ∧
      (∀ (f : Nat) (v cur : QuickModVersion) (s : Selection), s.value v.mod = some cur →
        (exEnvTwo "1" "2").Version v.name ≤ (exEnvTwo "1" "2").Version cur.name →
          resolveVersion (exEnvTwo "1" "2") (f + 1) (some v) s = .ok (s, [])) ∧
      (∀ (f : Nat) (v : QuickModVersion) (s s' : Selection) (e : List Event),
        resolveVersion (exEnvTwo "1" "2") f (some v) s = .ok (s', e) →
          (∃ w, s'.value v.mod = some w ∧
            (exEnvTwo "1" "2").Version v.name ≤ (exEnvTwo "1" "2").Version w.name) ∧
          ∀ k cur, s.value k = some cur →
            ∃ cur', s'.value k = some cur' ∧
              (exEnvTwo "1" "2").Version cur.name ≤
                (exEnvTwo "1" "2").Version cur'.name)) :=
  ⟨rfl, rfl, _, _, _, rfl,
    resolve_selects_highest_candidate (exEnvTwo "1" "2") 3 [0] [] _ _ _ rfl⟩

/-! ## Termination of the version resolution -/

theorem coversB_iff {K : Type} [LinearOrder K] (env : Env K) (sel : Selection)
    (c : QuickModVersion) : coversB env sel c = true ↔ Covers env sel c := by
  unfold coversB Covers
  cases h : sel.value c.mod with
  | none => simp
  | some w => simp

theorem Selection.contains_iff_value (m : Selection) (k : QuickModMetadata) :
    m.contains k = true ↔ ∃ v, m.value k = some v := by
  unfold Selection.contains Selection.value
  constructor
  · intro h
    obtain ⟨x, hx, hk⟩ := List.any_eq_true.1 h
    cases hf : m.find? (fun e => e.1 == k) with
    | none =>
      have := List.find?_eq_none.1 hf x hx
      exact absurd hk this
    | some y => exact ⟨y.2, rfl⟩
  · rintro ⟨v, hv⟩
    cases hf : m.find? (fun e => e.1 == k) with
    | none => rw [hf] at hv; cases hv
    | some y =>
      have hy := List.find?_some hf
      exact List.any_eq_true.2 ⟨y, List.mem_of_find?_eq_some hf, hy⟩

theorem nonImproving_eq_coversB {K : Type} [LinearOrder K] (env : Env K) (sel : Selection)
    (v : QuickModVersion) : nonImproving env sel v = coversB env sel v := by
  unfold nonImproving coversB
  cases h : sel.value v.mod with
  | none => simp
  | some w =>
    have : sel.contains v.mod = true := (Selection.contains_iff_value _ _).2 ⟨w, h⟩
    simp [this]

theorem mono_insert {K : Type} [LinearOrder K] (env : Env K) (sel : Selection)
    (v : QuickModVersion) (h : nonImproving env sel v = false) :
    Mono env sel (sel.insert v.mod v) := by
  intro k cur hk
  rw [Selection.value_insert]
  by_cases hkv : k = v.mod
  · rw [if_pos hkv]
    refine ⟨v, rfl, ?_⟩
    subst hkv
    rw [nonImproving_eq_coversB] at h
    unfold coversB at h
    rw [hk] at h
    simp only [decide_eq_false_iff_not] at h
    exact le_of_not_le h
  · rw [if_neg hkv]
    exact ⟨cur, hk, le_refl _⟩

theorem covers_insert_self {K : Type} [LinearOrder K] (env : Env K) (sel : Selection)
    (v : QuickModVersion) : Covers env (sel.insert v.mod v) v :=
  ⟨v, by rw [Selection.value_insert, if_pos rfl], le_refl _⟩

theorem uncovered_le_of_mono {K : Type} [LinearOrder K] (env : Env K)
    (answers : List QuickModVersion) {sel sel' : Selection} (h : Mono env sel sel') :
    uncovered env answers sel' ≤ uncovered env answers sel := by
  unfold uncovered
  induction answers with
  | nil => simp
  | cons c t ih =>
    simp only [List.filter_cons]
    by_cases h1 : coversB env sel' c = true
    · simp only [h1, Bool.not_true, Bool.false_eq_true, if_false]
      split_ifs
      · exact Nat.le_succ_of_le ih
      · exact ih
    · have h2 : coversB env sel c = false := by
        cases hc : coversB env sel c with
        | false => rfl
        | true =>
          exfalso
          exact h1 ((coversB_iff _ _ _).2 (covers_mono ((coversB_iff _ _ _).1 hc) h))
      simp only [Bool.not_eq_true] at h1
      simp only [h1, h2, Bool.not_false, if_true, List.length_cons]
      exact Nat.succ_le_succ ih

theorem uncovered_lt_of_mono {K : Type} [LinearOrder K] (env : Env K)
    (answers : List QuickModVersion) {sel sel' : Selection} (h : Mono env sel sel')
    {c : QuickModVersion} (hc : c ∈ answers) (h1 : coversB env sel c = false)
    (h2 : coversB env sel' c = true) :
    uncovered env answers sel' < uncovered env answers sel := by
  induction answers with
  | nil => cases hc
  | cons a t ih =>
    have hle := uncovered_le_of_mono env t h
    unfold uncovered at ih hle ⊢
    simp only [List.filter_cons]
    rcases List.mem_cons.1 hc with rfl | hc'
    · simp only [h1, h2, Bool.not_false, Bool.not_true, if_true, Bool.false_eq_true, if_false,
        List.length_cons]
      exact Nat.lt_succ_of_le hle
    · have := ih hc'
      by_cases ha' : coversB env sel' a = true
      · simp only [ha', Bool.not_true, Bool.false_eq_true, if_false]
        split_ifs
        · exact Nat.lt_succ_of_lt this
        · exact this
      · have ha : coversB env sel a = false := by
          cases hca : coversB env sel a with
          | false => rfl
          | true =>
            exfalso
            exact ha' ((coversB_iff _ _ _).2 (covers_mono ((coversB_iff _ _ _).1 hca) h))
        simp only [Bool.not_eq_true] at ha'
        simp only [ha, ha', Bool.not_false, if_true, List.length_cons]
        exact Nat.succ_lt_succ this

theorem uncovered_le_length {K : Type} [LinearOrder K] (env : Env K)
    (answers : List QuickModVersion) (sel : Selection) :
    uncovered env answers sel ≤ answers.length :=
  List.length_filter_le _ _

theorem askDependency_fst {K : Type} (env : Env K) (version : QuickModVersion)
    (key : QuickModRef) (filter : QuickModVersionRef) :
    (askDependency env version key filter).1 =
      if (env.allModMetadata key).isEmpty then none else (env.getVersion key filter).1 := by
  unfold askDependency
  split_ifs <;> rfl

theorem askDependency_some {K : Type} {env : Env K} {version : QuickModVersion}
    {key : QuickModRef} {filter : QuickModVersionRef} {dep : QuickModVersion}
    {asked : List Event} (h : askDependency env version key filter = (some dep, asked)) :
    env.allModMetadata key ≠ [] ∧ (env.getVersion key filter).1 = some dep := by
  have h1 : (askDependency env version key filter).1 = some dep := by rw [h]
  rw [askDependency_fst] at h1
  by_cases he : (env.allModMetadata key).isEmpty = true
  · rw [if_pos he] at h1; cases h1
  · rw [if_neg he] at h1
    refine ⟨?_, h1⟩
    intro hnil
    rw [hnil] at he
    exact he rfl

/-- The loop over the dependencies returns when every recursive call does. -/
theorem resolveDeps_total {K : Type} [LinearOrder K] (env : Env K)
    (answers : List QuickModVersion)
    (hfin : ∀ uid filter c, (env.getVersion uid filter).1 = some c → c ∈ answers)
    (bound : Nat)
    (rec : QuickModVersion → Selection → Except Failure (Selection × List Event))
    (hrec : ∀ dep sel, dep ∈ answers → uncovered env answers sel < bound →
      ∃ r, rec dep sel = .ok r)
    (hmono : ∀ dep sel sel' evs, rec dep sel = .ok (sel', evs) → Mono env sel sel')
    (version : QuickModVersion)
    (deps : List (QuickModRef × (QuickModVersionRef × Bool))) :
    ∀ (sel : Selection) (evs : List Event), uncovered env answers sel < bound →
      ∃ r, resolveDeps env rec version deps sel evs = .ok r := by
  induction deps with
  | nil => intro sel evs _; exact ⟨_, rfl⟩
  | cons d rest ih =>
    intro sel evs hb
    obtain ⟨key, filter, soft⟩ := d
    simp only [resolveDeps]
    cases ha : askDependency env version key filter with
    | mk dep asked =>
      cases dep with
      | none => exact ih _ _ hb
      | some dep =>
        simp only
        obtain ⟨-, hans⟩ := askDependency_some ha
        obtain ⟨⟨sel1, evs1⟩, hr⟩ := hrec dep sel (hfin _ _ _ hans) hb
        rw [hr]
        simp only
        exact ih _ _ (lt_of_le_of_lt
          (uncovered_le_of_mono env answers (hmono dep sel sel1 evs1 hr)) hb)

/-- The recursive step returns when its call depth may exceed the number of versions,
among those the selector can answer with (and the argument), that the selection does
not cover. -/
theorem resolveVersion_total {K : Type} [LinearOrder K] (env : Env K)
    (answers : List QuickModVersion)
    (hfin : ∀ uid filter c, (env.getVersion uid filter).1 = some c → c ∈ answers) :
    ∀ (fuel : Nat) (v : Option QuickModVersion) (sel : Selection),
      (∀ ver, v = some ver → ver ∈ answers) → uncovered env answers sel < fuel →
        ∃ r, resolveVersion env fuel v sel = .ok r := by
  intro fuel
  induction fuel with
  | zero => intro v sel _ h; exact absurd h (Nat.not_lt_zero _)
  | succ f ih =>
    intro v sel hv hb
    cases v with
    | none => exact ⟨_, rfl⟩
    | some version =>
      simp only [resolveVersion]
      by_cases hskip : nonImproving env sel version = true
      · rw [if_pos hskip]; exact ⟨_, rfl⟩
      · rw [if_neg hskip]
        simp only [Bool.not_eq_true] at hskip
        have hm := mono_insert env sel version hskip
        have hlt : uncovered env answers (sel.insert version.mod version) <
            uncovered env answers sel :=
          uncovered_lt_of_mono env answers hm (hv version rfl)
            (by rw [← nonImproving_eq_coversB]; exact hskip)
            ((coversB_iff _ _ _).2 (covers_insert_self env sel version))
        refine resolveDeps_total env answers hfin f _ ?_ ?_ version _ _ _ (by omega)
        · intro dep s hd hs
          exact ih (some dep) s (fun ver hver => by cases hver; exact hd) hs
        · intro dep s s' e hr
          exact (resolveVersion_covers env f (some dep) s s' e hr).1

/-- `resolve(mods)` returns when its call depth may exceed the number of versions the
selector can answer with. -/
theorem resolve_total {K : Type} [LinearOrder K] (env : Env K)
    (answers : List QuickModVersion)
    (hfin : ∀ uid filter c, (env.getVersion uid filter).1 = some c → c ∈ answers)
    (fuel : Nat) (hfuel : answers.length < fuel) (mods : List QuickModRef) :
    ∀ (sel : Selection) (evs : List Event), ∃ r, resolve env fuel mods sel evs = .ok r := by
  induction mods with
  | nil => intro sel evs; exact ⟨_, rfl⟩
  | cons mod rest ih =>
    intro sel evs
    simp only [resolve]
    obtain ⟨⟨sel1, evs1⟩, hr⟩ := resolveVersion_total env answers hfin fuel
      (env.getVersion mod none).1 sel (fun ver hver => hfin _ _ _ hver)
      (lt_of_le_of_lt (uncovered_le_length env answers sel) hfuel)
    rw [hr]
    simp only
    split_ifs
    · exact ih _ _
    · exact ⟨_, rfl⟩

theorem exEnvCycle_answers : ∀ uid filter c, (exEnvCycle.getVersion uid filter).1 = some c →
    c ∈ [exVersionA, exVersionBCyclic] := by
  intro uid filter c h
  simp only [exEnvCycle] at h
  split_ifs at h
  · simp only [Option.some.injEq] at h; subst h; exact List.mem_cons_self _ _
  · simp only [Option.some.injEq] at h; subst h
    exact List.mem_cons_of_mem _ (List.mem_cons_self _ _)

/-! ## C17 -/

/-- C17: let every non-null answer of the (deterministic) selector be one of the finitely
many versions of the list `answers`.  Then the recursive step returns for every version
and every selection, dependency cycles included, as soon as its call depth may exceed
the length of `answers` by two, and `resolve(mods)` returns for every list of packages.
The reason: a call that is not ended by the non-improving test leaves for the package of
its version a selection at least as high as the version, which is the first selection
for that package or strictly higher than the one before the call. -/
theorem resolveVersion_terminates {K : Type} [LinearOrder K] (env : Env K)
    (answers : List QuickModVersion)
    (hfin : ∀ uid filter c, (env.getVersion uid filter).1 = some c → c ∈ answers) :
    (∀ (v : Option QuickModVersion) (sel : Selection) (fuel : Nat),
      answers.length + 2 ≤ fuel → ∃ sel' evs, resolveVersion env fuel v sel = .ok (sel', evs)) ∧
    (∀ (mods : List QuickModRef) (sel : Selection) (evs : List Event) (fuel : Nat),
      answers.length + 1 ≤ fuel →
        ∃ res sel' evs', resolve env fuel mods sel evs = .ok (res, sel', evs')) ∧
    (∀ (fuel : Nat) (ver : QuickModVersion) (sel sel' : Selection) (evs : List Event),
      nonImproving env sel ver = false →
      resolveVersion env fuel (some ver) sel = .ok (sel', evs) →
        (∃ w, sel'.value ver.mod = some w ∧ env.Version ver.name ≤ env.Version w.name) ∧
        ∀ cur, sel.value ver.mod = some cur → env.Version cur.name < env.Version ver.name) := by
  refine ⟨?_, ?_, ?_⟩
  · intro v sel fuel hfuel
    cases v with
    | none =>
      obtain ⟨f, rfl⟩ : ∃ f, fuel = f + 1 := ⟨fuel - 1, by omega⟩
      exact ⟨sel, [], rfl⟩
    | some ver =>
      obtain ⟨⟨sel', evs⟩, h⟩ := resolveVersion_total env (ver :: answers)
        (fun uid filter c hc => List.mem_cons_of_mem _ (hfin uid filter c hc)) fuel
        (some ver) sel (fun x hx => by cases hx; exact List.mem_cons_self _ _)
        (lt_of_le_of_lt (uncovered_le_length env (ver :: answers) sel)
          (by simp only [List.length_cons]; omega))
      exact ⟨sel', evs, h⟩
  · intro mods sel evs fuel hfuel
    obtain ⟨⟨res, sel', evs'⟩, h⟩ := resolve_total env answers hfin fuel (by omega) mods sel evs
    exact ⟨res, sel', evs', h⟩
  · intro fuel ver sel sel' evs hni h
    obtain ⟨-, hcov, -⟩ := resolveVersion_covers env fuel (some ver) sel sel' evs h
    refine ⟨hcov ver rfl, fun cur hcur => ?_⟩
    rw [nonImproving_eq_coversB] at hni
    unfold coversB at hni
    rw [hcur] at hni
    simp only [decide_eq_false_iff_not] at hni
    exact lt_of_not_le hni

/-- C17 at a dependency cycle (A depends on B, B depends on A): the recursive step
returns, the second visit of A being ended by the non-improving test. -/
theorem resolveVersion_terminates_witness :
    (∀ uid filter c, (exEnvCycle.getVersion uid filter).1 = some c →
      c ∈ [exVersionA, exVersionBCyclic]) ∧
    resolveVersion exEnvCycle 3 (some exVersionA) [] =
      .ok ([(exVersionA.mod, exVersionA), (exVersionBCyclic.mod, exVersionBCyclic)],
        [Event.getVersion 1 (some (1, "1")),
          Event.success (Message.resolved "A" "1" "B" "1"),
          Event.getVersion 0 (some (0, "1")),
          Event.success (Message.resolved "B" "1" "A" "1")]) ∧
    ((∀ (v : Option QuickModVersion) (sel : Selection) (fuel : Nat),
      [exVersionA, exVersionBCyclic].length + 2 ≤ fuel →
        ∃ sel' evs, resolveVersion exEnvCycle fuel v sel = .ok (sel', evs)) ∧
    (∀ (mods : List QuickModRef) (sel : Selection) (evs : List Event) (fuel : Nat),
      [exVersionA, exVersionBCyclic].length + 1 ≤ fuel →
        ∃ res sel' evs', resolve exEnvCycle fuel mods sel evs = .ok (res, sel', evs')) ∧
    (∀ (fuel : Nat) (ver : QuickModVersion) (sel sel' : Selection) (evs : List Event),
      nonImproving exEnvCycle sel ver = false →
      resolveVersion exEnvCycle fuel (some ver) sel = .ok (sel', evs) →
        (∃ w, sel'.value ver.mod = some w ∧
          exEnvCycle.Version ver.name ≤ exEnvCycle.Version w.name) ∧
        ∀ cur, sel.value ver.mod = some cur →
          exEnvCycle.Version cur.name < exEnvCycle.Version ver.name)) :=
  ⟨exEnvCycle_answers, rfl, resolveVersion_terminates exEnvCycle _ exEnvCycle_answers⟩

/-! ## Relations kept by every run of the resolution -/

theorem resolveDeps_rel {K : Type} (env : Env K) (R : Selection → Selection → Prop)
    (hrefl : ∀ m, R m m) (htrans : ∀ a b c, R a b → R b c → R a c)
    (rec : QuickModVersion → Selection → Except Failure (Selection × List Event))
    (hrec : ∀ dep sel sel' evs, rec dep sel = .ok (sel', evs) → R sel sel')
    (version : QuickModVersion)
    (deps : List (QuickModRef × (QuickModVersionRef × Bool))) :
    ∀ (sel : Selection) (evs : List Event) (sel' : Selection) (evs' : List Event),
      resolveDeps env rec version deps sel evs = .ok (sel', evs') → R sel sel' := by
  induction deps with
  | nil =>
    intro sel evs sel' evs' h
    simp only [resolveDeps, Except.ok.injEq, Prod.mk.injEq] at h
    obtain ⟨rfl, -⟩ := h
    exact hrefl sel
  | cons d rest ih =>
    intro sel evs sel' evs' h
    obtain ⟨key, filter, soft⟩ := d
    simp only [resolveDeps] at h
    cases ha : askDependency env version key filter with
    | mk dep asked =>
      rw [ha] at h
      cases dep with
      | none => exact ih _ _ _ _ h
      | some dep =>
        simp only at h
        cases hr : rec dep sel with
        | error e => rw [hr] at h; cases h
        | ok r =>
          obtain ⟨sel1, evs1⟩ := r
          rw [hr] at h
          exact htrans _ _ _ (hrec dep sel sel1 evs1 hr) (ih _ _ _ _ h)

theorem resolveVersion_rel {K : Type} [LinearOrder K] (env : Env K)
    (R : Selection → Selection → Prop)
    (hrefl : ∀ m, R m m) (htrans : ∀ a b c, R a b → R b c → R a c)
    (hins : ∀ m v, nonImproving env m v = false → R m (m.insert v.mod v)) :
    ∀ (fuel : Nat) (v : Option QuickModVersion) (sel sel' : Selection) (evs : List Event),
      resolveVersion env fuel v sel = .ok (sel', evs) → R sel sel' := by
  intro fuel
  induction fuel with
  | zero => intro v sel sel' evs h; simp [resolveVersion] at h
  | succ f ih =>
    intro v sel sel' evs h
    cases v with
    | none =>
      simp only [resolveVersion, Except.ok.injEq, Prod.mk.injEq] at h
      obtain ⟨rfl, -⟩ := h
      exact hrefl sel
    | some version =>
      simp only [resolveVersion] at h
      by_cases hskip : nonImproving env sel version = true
      · rw [if_pos hskip] at h
        simp only [Except.ok.injEq, Prod.mk.injEq] at h
        obtain ⟨rfl, -⟩ := h
        exact hrefl sel
      · rw [if_neg hskip] at h
        simp only [Bool.not_eq_true] at hskip
        exact htrans _ _ _ (hins sel version hskip)
          (resolveDeps_rel env R hrefl htrans _
            (fun dep s s' e hr => ih (some dep) s s' e hr) version _ _ _ _ _ h)

theorem resolve_rel {K : Type} [LinearOrder K] (env : Env K)
    (R : Selection → Selection → Prop)
    (hrefl : ∀ m, R m m) (htrans : ∀ a b c, R a b → R b c → R a c)
    (hins : ∀ m v, nonImproving env m v = false → R m (m.insert v.mod v))
    (fuel : Nat) (mods : List QuickModRef) :
    ∀ (sel : Selection) (evs : List Event) (res : List QuickModVersion) (sel' : Selection)
      (evs' : List Event), resolve env fuel mods sel evs = .ok (res, sel', evs') →
        R sel sel' := by
  induction mods with
  | nil =>
    intro sel evs res sel' evs' h
    simp only [resolve, Except.ok.injEq, Prod.mk.injEq] at h
    obtain ⟨-, rfl, -⟩ := h
    exact hrefl sel
  | cons mod rest ih =>
    intro sel evs res sel' evs' h
    simp only [resolve] at h
    cases hr : resolveVersion env fuel (env.getVersion mod none).1 sel with
    | error e => rw [hr] at h; cases h
    | ok r =>
      obtain ⟨sel1, evs1⟩ := r
      rw [hr] at h
      simp only at h
      have h1 := resolveVersion_rel env R hrefl htrans hins fuel _ sel sel1 evs1 hr
      by_cases hok : (env.getVersion mod none).2 = true
      · rw [if_pos hok] at h
        exact htrans _ _ _ h1 (ih _ _ _ _ _ h)
      · rw [if_neg hok] at h
        simp only [Except.ok.injEq, Prod.mk.injEq] at h
        obtain ⟨-, rfl, -⟩ := h
        exact h1

theorem resolve_mono {K : Type} [LinearOrder K] (env : Env K) (fuel : Nat)
    (mods : List QuickModRef) (sel : Selection) (evs : List Event)
    (res : List QuickModVersion) (sel' : Selection) (evs' : List Event)
    (h : resolve env fuel mods sel evs = .ok (res, sel', evs')) : Mono env sel sel' :=
  resolve_rel env (Mono env) (mono_refl env) (fun _ _ _ => mono_trans)
    (mono_insert env) fuel mods sel evs res sel' evs' h

/-- The step on a version the selection covers changes nothing and emits nothing. -/
theorem resolveVersion_of_covers {K : Type} [LinearOrder K] (env : Env K) (f : Nat)
    (v : QuickModVersion) (s : Selection) (h : Covers env s v) :
    resolveVersion env (f + 1) (some v) s = .ok (s, []) := by
  have hskip : nonImproving env s v = true := by
    rw [nonImproving_eq_coversB]; exact (coversB_iff _ _ _).2 h
  simp only [resolveVersion, hskip, if_true]

/-- After a successful `resolve(mods)` the selection covers the answer of the selector
for every requested package. -/
theorem resolve_covers_requested {K : Type} [LinearOrder K] (env : Env K) (fuel : Nat)
    (mods : List QuickModRef) :
    ∀ (sel : Selection) (evs : List Event) (res : List QuickModVersion) (sel' : Selection)
      (evs' : List Event), (∀ mod ∈ mods, (env.getVersion mod none).2 = true) →
      resolve env fuel mods sel evs = .ok (res, sel', evs') →
        ∀ mod ∈ mods, ∀ c, (env.getVersion mod none).1 = some c → Covers env sel' c := by
  induction mods with
  | nil => intro sel evs res sel' evs' _ _ mod hm; cases hm
  | cons mod rest ih =>
    intro sel evs res sel' evs' hsucc h m hm c hc
    simp only [resolve] at h
    cases hr : resolveVersion env fuel (env.getVersion mod none).1 sel with
    | error e => rw [hr] at h; cases h
    | ok r =>
      obtain ⟨sel1, evs1⟩ := r
      rw [hr] at h
      simp only [hsucc mod (List.mem_cons_self _ _), if_true] at h
      rcases List.mem_cons.1 hm with rfl | hm
      · exact covers_mono ((resolveVersion_covers env fuel _ sel sel1 evs1 hr).2.1 c hc)
          (resolve_mono env fuel rest _ _ _ _ _ h)
      · exact ih _ _ _ _ _ (fun x hx => hsucc x (List.mem_cons_of_mem _ hx)) h m hm c hc

/-- On a selection that covers the answers for the requested packages, `resolve(mods)`
only asks the selector and returns the selection as it is. -/
theorem resolve_of_covered {K : Type} [LinearOrder K] (env : Env K) (f : Nat)
    (mods : List QuickModRef) (sel : Selection)
    (hsucc : ∀ mod ∈ mods, (env.getVersion mod none).2 = true)
    (hcov : ∀ mod ∈ mods, ∀ c, (env.getVersion mod none).1 = some c → Covers env sel c) :
    ∀ evs : List Event, resolve env (f + 1) mods sel evs =
      .ok (sel.values, sel, evs ++ mods.map (fun m => Event.getVersion m none)) := by
  induction mods with
  | nil => intro evs; simp [resolve]
  | cons mod rest ih =>
    intro evs
    have hstep : resolveVersion env (f + 1) (env.getVersion mod none).1 sel = .ok (sel, []) := by
      cases hc : (env.getVersion mod none).1 with
      | none => rfl
      | some c => exact resolveVersion_of_covers env f c sel (hcov mod (List.mem_cons_self _ _) c hc)
    simp only [resolve, hstep, hsucc mod (List.mem_cons_self _ _), if_true]
    rw [ih (fun x hx => hsucc x (List.mem_cons_of_mem _ hx))
      (fun x hx => hcov x (List.mem_cons_of_mem _ hx))]
    simp

theorem exEnvChain_answers : ∀ uid filter c, (exEnvChain.getVersion uid filter).1 = some c →
    c ∈ [exVersionA, exVersionB, exVersionC] := by
  intro uid filter c h
  simp only [exEnvChain] at h
  split_ifs at h <;> simp only [Option.some.injEq] at h <;> subst h <;> simp

/-! ## C11 -/

/-- C11: let the selector report failure for the requested package `k` and success for
the requested packages `pre` before it.  Then `resolve` of `pre`, `k` and any further
packages `post` runs exactly as `resolve` of `pre` and `k` alone (the packages after `k`
are not processed); when it returns, the list returned is empty and the last signal is
the error for `k`; and it does return when the answers of the selector come from a
list shorter than the call depth allowed. -/
theorem resolve_failure_empty {K : Type} [LinearOrder K] (env : Env K) (fuel : Nat)
    (pre post : List QuickModRef) (k : QuickModRef) (sel : Selection) (evs : List Event)
    (hpre : ∀ m ∈ pre, (env.getVersion m none).2 = true)
    (hk : (env.getVersion k none).2 = false) :
    resolve env fuel (pre ++ k :: post) sel evs = resolve env fuel (pre ++ [k]) sel evs ∧
    (∀ res sel' evs', resolve env fuel (pre ++ k :: post) sel evs = .ok (res, sel', evs') →
      res = [] ∧ ∃ before, evs' = before ++ [Event.error (Message.didntSelect k)]) ∧
    (∀ answers : List QuickModVersion,
      (∀ uid filter c, (env.getVersion uid filter).1 = some c → c ∈ answers) →
      answers.length < fuel →
        ∃ sel' before, resolve env fuel (pre ++ k :: post) sel evs =
          .ok ([], sel', before ++ [Event.error (Message.didntSelect k)])) := by
  have key : ∀ (pre : List QuickModRef) (sel : Selection) (evs : List Event),
      (∀ m ∈ pre, (env.getVersion m none).2 = true) →
      resolve env fuel (pre ++ k :: post) sel evs = resolve env fuel (pre ++ [k]) sel evs ∧
      (∀ res sel' evs', resolve env fuel (pre ++ k :: post) sel evs = .ok (res, sel', evs') →
        res = [] ∧ ∃ before, evs' = before ++ [Event.error (Message.didntSelect k)]) := by
    intro pre
    induction pre with
    | nil =>
      intro sel evs _
      refine ⟨?_, ?_⟩
      · simp only [List.nil_append, resolve, hk, Bool.false_eq_true, if_false]
      · intro res sel' evs' h
        simp only [List.nil_append, resolve, hk, Bool.false_eq_true, if_false] at h
        cases hr : resolveVersion env fuel (env.getVersion k none).1 sel with
        | error e => rw [hr] at h; cases h
        | ok r =>
          obtain ⟨s1, e1⟩ := r
          rw [hr] at h
          simp only [Except.ok.injEq, Prod.mk.injEq] at h
          obtain ⟨rfl, -, rfl⟩ := h
          exact ⟨rfl, _, rfl⟩
    | cons m rest ih =>
      intro sel evs hpre
      simp only [List.cons_append, resolve]
      cases hr : resolveVersion env fuel (env.getVersion m none).1 sel with
      | error e => exact ⟨rfl, fun _ _ _ h => by cases h⟩
      | ok r =>
        obtain ⟨s1, e1⟩ := r
        simp only [hpre m (List.mem_cons_self _ _), if_true]
        exact ih _ _ (fun x hx => hpre x (List.mem_cons_of_mem _ hx))
  obtain ⟨h1, h2⟩ := key pre sel evs hpre
  refine ⟨h1, h2, ?_⟩
  intro answers hfin hfuel
  obtain ⟨⟨res, sel', evs'⟩, hr⟩ :=
    resolve_total env answers hfin fuel hfuel (pre ++ k :: post) sel evs
  obtain ⟨rfl, before, rfl⟩ := h2 res sel' evs' hr
  exact ⟨sel', before, hr⟩

/-- C11 at an example: A is requested first and resolved with its dependencies B and C,
the selector fails for the second package (uid 5), and the third (B) is not processed:
the result is empty and ends with the error. -/
theorem resolve_failure_empty_witness :
    (∀ m ∈ [0], (exEnvChain.getVersion m none).2 = true) ∧
    (exEnvChain.getVersion 5 none).2 = false ∧
    resolve exEnvChain 4 [0, 5, 1] [] [] =
      .ok ([], [(exVersionA.mod, exVersionA), (exVersionB.mod, exVersionB),
          (exVersionC.mod, exVersionC)],
        [Event.getVersion 0 none, Event.getVersion 1 (some (1, "1")),
          Event.success (Message.resolved "A" "1" "B" "1"),
          Event.getVersion 2 (some (2, "1")),
          Event.success (Message.resolved "B" "1" "C" "1"),
          Event.getVersion 5 none, Event.error (Message.didntSelect 5)]) ∧
    (resolve exEnvChain 4 ([0] ++ 5 :: [1]) [] [] = resolve exEnvChain 4 ([0] ++ [5]) [] [] ∧
    (∀ res sel' evs', resolve exEnvChain 4 ([0] ++ 5 :: [1]) [] [] = .ok (res, sel', evs') →
      res = [] ∧ ∃ before, evs' = before ++ [Event.error (Message.didntSelect 5)]) ∧
    (∀ answers : List QuickModVersion,
      (∀ uid filter c, (exEnvChain.getVersion uid filter).1 = some c → c ∈ answers) →
      answers.length < 4 →
        ∃ sel' before, resolve exEnvChain 4 ([0] ++ 5 :: [1]) [] [] =
          .ok ([], sel', before ++ [Event.error (Message.didntSelect 5)]))) :=
  ⟨by intro m hm; simp only [List.mem_singleton] at hm; subst hm; rfl, rfl, rfl,
    resolve_failure_empty exEnvChain 4 [0] [1] 5 [] []
      (by intro m hm; simp only [List.mem_singleton] at hm; subst hm; rfl) rfl⟩

/-! ## C13 -/

/-- C13: after a call of `resolve(mods)` that returned without the selector failing for
a requested package, a second call for the same packages on the same resolver (same
selector, same index) returns the same list and leaves the selection as it is; it only
asks the selector once per requested package, and it needs no recursion. -/
theorem resolve_twice_same {K : Type} [LinearOrder K] (env : Env K) (fuel : Nat)
    (mods : List QuickModRef) (sel : Selection) (evs : List Event)
    (res : List QuickModVersion) (sel' : Selection) (evs' : List Event)
    (hsucc : ∀ mod ∈ mods, (env.getVersion mod none).2 = true)
    (h : resolve env fuel mods sel evs = .ok (res, sel', evs')) :
    ∀ (fuel2 : Nat) (evs2 : List Event), 0 < fuel2 →
      resolve env fuel2 mods sel' evs2 =
        .ok (res, sel', evs2 ++ mods.map (fun m => Event.getVersion m none)) := by
  intro fuel2 evs2 hpos
  obtain ⟨f, rfl⟩ : ∃ f, fuel2 = f + 1 := ⟨fuel2 - 1, by omega⟩
  have hres := (resolve_stepOk env fuel mods sel evs res sel' evs' hsucc h).1
  rw [hres]
  exact resolve_of_covered env f mods sel' hsucc
    (resolve_covers_requested env fuel mods sel evs res sel' evs' hsucc h) evs2

/-- C13 at the example A -> B -> C: the second call returns A, B, C again. -/
theorem resolve_twice_same_witness :
    (∀ mod ∈ [0], (exEnvChain.getVersion mod none).2 = true) ∧
    resolve exEnvChain 3 [0] [] [] =
      .ok ([exVersionA, exVersionB, exVersionC],
        [(exVersionA.mod, exVersionA), (exVersionB.mod, exVersionB),
          (exVersionC.mod, exVersionC)],
        [Event.getVersion 0 none, Event.getVersion 1 (some (1, "1")),
          Event.success (Message.resolved "A" "1" "B" "1"),
          Event.getVersion 2 (some (2, "1")),
          Event.success (Message.resolved "B" "1" "C" "1")]) ∧
    ∀ (fuel2 : Nat) (evs2 : List Event), 0 < fuel2 →
      resolve exEnvChain fuel2 [0]
          [(exVersionA.mod, exVersionA), (exVersionB.mod, exVersionB),
            (exVersionC.mod, exVersionC)] evs2 =
        .ok ([exVersionA, exVersionB, exVersionC],
          [(exVersionA.mod, exVersionA), (exVersionB.mod, exVersionB),
            (exVersionC.mod, exVersionC)],
          evs2 ++ [0].map (fun m => Event.getVersion m none)) :=
  ⟨by intro m hm; simp only [List.mem_singleton] at hm; subst hm; rfl, rfl,
    resolve_twice_same exEnvChain 3 [0] [] [] _ _ _
      (by intro m hm; simp only [List.mem_singleton] at hm; subst hm; rfl) rfl⟩

/-! ## C14 -/

/-- C14: the recursive step on a version whose package has a selection that compares
greater than or equal to it returns the selection unchanged and an empty list of
requests and signals (the selector is not asked, nothing is emitted); in particular
a second step on a version is such a step, whenever the first one returned. -/
theorem resolveVersion_noop {K : Type} [LinearOrder K] (env : Env K) (f : Nat)
    (v cur : QuickModVersion) (s : Selection) (hv : s.value v.mod = some cur)
    (hle : env.Version v.name ≤ env.Version cur.name) :
    resolveVersion env (f + 1) (some v) s = .ok (s, []) ∧
    ∀ (fuel : Nat) (s0 s1 : Selection) (e : List Event),
      resolveVersion env fuel (some v) s0 = .ok (s1, e) →
        resolveVersion env (f + 1) (some v) s1 = .ok (s1, []) :=
  ⟨resolveVersion_of_covers env f v s ⟨cur, hv, hle⟩,
    fun fuel s0 s1 e h => resolveVersion_of_covers env f v s1
      ((resolveVersion_covers env fuel (some v) s0 s1 e h).2.1 v rfl)⟩

/-- C14 at an example: B 2 is selected and the step is applied to B 1. -/
theorem resolveVersion_noop_witness :
    Selection.value [((exVersionBNamed "2").mod, exVersionBNamed "2")]
        (exVersionBNamed "1").mod = some (exVersionBNamed "2") ∧
    exEnvChain.Version (exVersionBNamed "1").name ≤
        exEnvChain.Version (exVersionBNamed "2").name ∧
    (resolveVersion exEnvChain (0 + 1) (some (exVersionBNamed "1"))
        [((exVersionBNamed "2").mod, exVersionBNamed "2")] =
      .ok ([((exVersionBNamed "2").mod, exVersionBNamed "2")], []) ∧
    ∀ (fuel : Nat) (s0 s1 : Selection) (e : List Event),
      resolveVersion exEnvChain fuel (some (exVersionBNamed "1")) s0 = .ok (s1, e) →
        resolveVersion exEnvChain (0 + 1) (some (exVersionBNamed "1")) s1 = .ok (s1, [])) :=
  ⟨rfl, by decide, resolveVersion_noop exEnvChain 0 (exVersionBNamed "1")
    (exVersionBNamed "2") _ rfl (by decide)⟩

/-! ## C16 -/

/-- C16: for an edge whose target has no metadata the loop over the dependencies goes
on to the remaining edges with the selection as it is, having added the warning for the
edge and nothing else: no request to the selector, no recursive call.  So a version none
of whose targets has metadata is selected alone, with one warning per edge. -/
theorem resolveDeps_no_metadata {K : Type} [LinearOrder K] (env : Env K)
    (rec : QuickModVersion → Selection → Except Failure (Selection × List Event))
    (version : QuickModVersion) (key : QuickModRef) (filter : QuickModVersionRef)
    (soft : Bool) (rest : List (QuickModRef × (QuickModVersionRef × Bool)))
    (mods : Selection) (evs : List Event) (h : env.allModMetadata key = []) :
    resolveDeps env rec version ((key, (filter, soft)) :: rest) mods evs =
      resolveDeps env rec version rest mods
        (evs ++ [Event.warning
          (Message.cannotBeResolved version.mod.name version.name key)]) ∧
    ((∀ d ∈ version.dependencies.entries, env.allModMetadata d.1 = []) →
      ∀ (f : Nat) (sel : Selection), nonImproving env sel version = false →
        resolveVersion env (f + 1) (some version) sel =
          .ok (sel.insert version.mod version, version.dependencies.entries.map (fun d =>
            Event.warning (Message.cannotBeResolved version.mod.name version.name d.1)))) := by
  have hone : ∀ (key : QuickModRef) (filter : QuickModVersionRef) (soft : Bool)
      (rest : List (QuickModRef × (QuickModVersionRef × Bool))) (mods : Selection)
      (evs : List Event), env.allModMetadata key = [] →
      resolveDeps env rec version ((key, (filter, soft)) :: rest) mods evs =
        resolveDeps env rec version rest mods
          (evs ++ [Event.warning
            (Message.cannotBeResolved version.mod.name version.name key)]) := by
    intro key filter soft rest mods evs h
    simp only [resolveDeps, askDependency, h, List.isEmpty_nil, if_true, List.append_nil]
  refine ⟨hone key filter soft rest mods evs h, ?_⟩
  intro hall f sel hni
  have hloop : ∀ (rec' : QuickModVersion → Selection →
      Except Failure (Selection × List Event))
      (deps : List (QuickModRef × (QuickModVersionRef × Bool))),
      (∀ d ∈ deps, env.allModMetadata d.1 = []) → ∀ (mods : Selection) (evs : List Event),
      resolveDeps env rec' version deps mods evs =
        .ok (mods, evs ++ deps.map (fun d =>
          Event.warning (Message.cannotBeResolved version.mod.name version.name d.1))) := by
    intro rec' deps
    induction deps with
    | nil => intro _ mods evs; simp [resolveDeps]
    | cons d t ih =>
      intro hd mods evs
      obtain ⟨key, filter, soft⟩ := d
      have h0 : env.allModMetadata key = [] := hd _ (List.mem_cons_self _ _)
      simp only [resolveDeps, askDependency, h0, List.isEmpty_nil, if_true, List.append_nil]
      rw [ih (fun x hx => hd x (List.mem_cons_of_mem _ hx))]
      simp
  simp only [resolveVersion, hni, Bool.false_eq_true, if_false]
  rw [hloop _ _ hall]
  simp

/-- C16 at an example: D depends on the uid 7, which has no metadata. -/
theorem resolveDeps_no_metadata_witness :
    exEnvChain.allModMetadata 7 = [] ∧
    (resolveDeps exEnvChain (fun dep m => resolveVersion exEnvChain 0 (some dep) m)
        exVersionD ((7, (some (7, "1"), false)) :: []) [(exVersionD.mod, exVersionD)] [] =
      resolveDeps exEnvChain (fun dep m => resolveVersion exEnvChain 0 (some dep) m)
        exVersionD [] [(exVersionD.mod, exVersionD)]
        ([] ++ [Event.warning
          (Message.cannotBeResolved exVersionD.mod.name exVersionD.name 7)]) ∧
    ((∀ d ∈ exVersionD.dependencies.entries, exEnvChain.allModMetadata d.1 = []) →
      ∀ (f : Nat) (sel : Selection), nonImproving exEnvChain sel exVersionD = false →
        resolveVersion exEnvChain (f + 1) (some exVersionD) sel =
          .ok (sel.insert exVersionD.mod exVersionD,
            exVersionD.dependencies.entries.map (fun d =>
              Event.warning
                (Message.cannotBeResolved exVersionD.mod.name exVersionD.name d.1))))) ∧
    resolveVersion exEnvChain 1 (some exVersionD) [] =
      .ok ([(exVersionD.mod, exVersionD)],
        [Event.warning (Message.cannotBeResolved "D" "1" 7)]) :=
  ⟨rfl, resolveDeps_no_metadata exEnvChain _ exVersionD 7 (some (7, "1")) false []
    [(exVersionD.mod, exVersionD)] [] rfl, rfl⟩

/-! ## C15 -/

/-- C15: when the selector, asked for a Depends edge (the target of the edge has
metadata), fails to choose a version, that is, returns no version, the loop over the
dependencies emits the warning for that edge (behind the request and the error event of
a failure reported), leaves the selection as it is, so that nothing is selected for the
target, and goes on to the remaining edges; and a `resolve(mods)` for whose requested
packages the selector reports success returns the whole selection, whatever happened at
the edges. -/
theorem resolveDeps_no_answer {K : Type} [LinearOrder K] (env : Env K)
    (rec : QuickModVersion → Selection → Except Failure (Selection × List Event))
    (version : QuickModVersion) (key : QuickModRef) (filter : QuickModVersionRef)
    (soft : Bool) (rest : List (QuickModRef × (QuickModVersionRef × Bool)))
    (mods : Selection) (evs : List Event) (hm : env.allModMetadata key ≠ [])
    (hnone : (env.getVersion key filter).1 = none) :
    resolveDeps env rec version ((key, (filter, soft)) :: rest) mods evs =
      resolveDeps env rec version rest mods
        (evs ++ (Event.getVersion key filter ::
          (if (env.getVersion key filter).2 then []
           else [Event.error
             (Message.didntSelectWhileResolving version.mod.name version.name key)])) ++
          [Event.warning (Message.cannotBeResolved version.mod.name version.name key)]) ∧
    ∀ (fuel : Nat) (requested : List QuickModRef) (sel : Selection) (evs0 : List Event)
      (res : List QuickModVersion) (sel' : Selection) (evs' : List Event),
      (∀ mod ∈ requested, (env.getVersion mod none).2 = true) →
      resolve env fuel requested sel evs0 = .ok (res, sel', evs') → res = sel'.values := by
  constructor
  · have he : (env.allModMetadata key).isEmpty = false := by
      cases hl : env.allModMetadata key with
      | nil => exact absurd hl hm
      | cons _ _ => rfl
    simp only [resolveDeps, askDependency, he, Bool.false_eq_true, if_false, hnone]
  · intro fuel requested sel evs0 res sel' evs' hsucc h
    exact (resolve_stepOk env fuel requested sel evs0 res sel' evs' hsucc h).1

/-- C15 at an example: the selector fails for the edge from A to B, reporting failure
and returning no version; `resolve` returns A alone, with the error and the warning for
the edge in its trace. -/
theorem resolveDeps_no_answer_witness :
    (exEnvEdge (none, false)).allModMetadata 1 ≠ [] ∧
    ((exEnvEdge (none, false)).getVersion 1 (some (1, "1"))).1 = none ∧
    resolve (exEnvEdge (none, false)) 3 [0] [] [] =
      .ok ([exVersionA], [(exVersionA.mod, exVersionA)],
        [Event.getVersion 0 none, Event.getVersion 1 (some (1, "1")),
          Event.error (Message.didntSelectWhileResolving "A" "1" 1),
          Event.warning (Message.cannotBeResolved "A" "1" 1)]) ∧
    (resolveDeps (exEnvEdge (none, false))
        (fun dep m => resolveVersion (exEnvEdge (none, false)) 2 (some dep) m) exVersionA
        ((1, (some (1, "1"), false)) :: []) [(exVersionA.mod, exVersionA)] [] =
      resolveDeps (exEnvEdge (none, false))
        (fun dep m => resolveVersion (exEnvEdge (none, false)) 2 (some dep) m) exVersionA
        [] [(exVersionA.mod, exVersionA)]
        ([] ++ (Event.getVersion 1 (some (1, "1")) ::
          (if ((exEnvEdge (none, false)).getVersion 1 (some (1, "1"))).2 then []
           else [Event.error
             (Message.didntSelectWhileResolving exVersionA.mod.name exVersionA.name 1)])) ++
          [Event.warning (Message.cannotBeResolved exVersionA.mod.name exVersionA.name 1)]) ∧
    ∀ (fuel : Nat) (requested : List QuickModRef) (sel : Selection) (evs0 : List Event)
      (res : List QuickModVersion) (sel' : Selection) (evs' : List Event),
      (∀ mod ∈ requested, ((exEnvEdge (none, false)).getVersion mod none).2 = true) →
      resolve (exEnvEdge (none, false)) fuel requested sel evs0 = .ok (res, sel', evs') →
        res = sel'.values) :=
  ⟨by decide, rfl, rfl,
    resolveDeps_no_answer (exEnvEdge (none, false)) _ exVersionA 1 (some (1, "1")) false []
      [(exVersionA.mod, exVersionA)] [] (by decide) rfl⟩

theorem askDependency_snd {K : Type} (env : Env K) (version : QuickModVersion)
    (d : QuickModRef × (QuickModVersionRef × Bool)) (h : env.allModMetadata d.1 ≠ []) :
    askDependency env version d.1 d.2.1 =
      ((env.getVersion d.1 d.2.1).1, Event.getVersion d.1 d.2.1 :: edgeFailure env version d) := by
  have he : (env.allModMetadata d.1).isEmpty = false := by
    cases hl : env.allModMetadata d.1 with
    | nil => exact absurd hl h
    | cons _ _ => rfl
  simp only [askDependency, he, Bool.false_eq_true, if_false, edgeFailure]

theorem askDependency_nil {K : Type} (env : Env K) (version : QuickModVersion)
    (d : QuickModRef × (QuickModVersionRef × Bool)) (h : env.allModMetadata d.1 = []) :
    askDependency env version d.1 d.2.1 = (none, []) := by
  simp only [askDependency, h, List.isEmpty_nil, if_true]

theorem resolveDeps_blocks {K : Type} (env : Env K)
    (rec : QuickModVersion → Selection → Except Failure (Selection × List Event))
    (version : QuickModVersion)
    (deps : List (QuickModRef × (QuickModVersionRef × Bool))) :
    ∀ (sel : Selection) (evs : List Event) (sel' : Selection) (evs' : List Event),
      resolveDeps env rec version deps sel evs = .ok (sel', evs') →
        ∃ blocks, List.Forall₂ (EdgeBlock env rec version) deps blocks ∧
          evs' = evs ++ blocks.flatten := by
  induction deps with
  | nil =>
    intro sel evs sel' evs' h
    simp only [resolveDeps, Except.ok.injEq, Prod.mk.injEq] at h
    obtain ⟨-, rfl⟩ := h
    exact ⟨[], List.Forall₂.nil, by simp⟩
  | cons d rest ih =>
    intro sel evs sel' evs' h
    obtain ⟨key, filter, soft⟩ := d
    by_cases hm : env.allModMetadata key = []
    · have ha := askDependency_nil env version (key, (filter, soft)) hm
      simp only at ha
      simp only [resolveDeps, ha, List.append_nil] at h
      obtain ⟨blocks, hb, rfl⟩ := ih _ _ _ _ h
      refine ⟨[Event.warning (Message.cannotBeResolved version.mod.name version.name key)]
        :: blocks, List.Forall₂.cons ?_ hb, by simp⟩
      simp only [EdgeBlock, hm, if_true]
    · have ha := askDependency_snd env version (key, (filter, soft)) hm
      simp only at ha
      simp only [resolveDeps, ha] at h
      cases hans : (env.getVersion key filter).1 with
      | none =>
        rw [hans] at h
        simp only at h
        obtain ⟨blocks, hb, rfl⟩ := ih _ _ _ _ h
        refine ⟨(Event.getVersion key filter :: edgeFailure env version (key, filter, soft) ++
          [Event.warning (Message.cannotBeResolved version.mod.name version.name key)])
          :: blocks, List.Forall₂.cons ?_ hb, by simp⟩
        simp only [EdgeBlock, hm, if_false, hans]
      | some dep =>
        rw [hans] at h
        simp only at h
        cases hr : rec dep sel with
        | error e => rw [hr] at h; cases h
        | ok r =>
          obtain ⟨sel1, evs1⟩ := r
          rw [hr] at h
          simp only at h
          obtain ⟨blocks, hb, rfl⟩ := ih _ _ _ _ h
          refine ⟨(Event.getVersion key filter :: edgeFailure env version (key, filter, soft) ++
            [Event.success (Message.resolved version.mod.name version.name
              dep.mod.name dep.name)] ++ evs1) :: blocks, List.Forall₂.cons ?_ hb, by simp⟩
          simp only [EdgeBlock, hm, if_false, hans]
          exact ⟨sel, sel1, evs1, hr, rfl⟩

theorem resolveVersion_blocks {K : Type} [LinearOrder K] (env : Env K) (f : Nat)
    (v : Option QuickModVersion) (sel sel' : Selection) (evs : List Event)
    (h : resolveVersion env (f + 1) v sel = .ok (sel', evs)) :
    evs = [] ∨ ∃ ver blocks, v = some ver ∧ nonImproving env sel ver = false ∧
      List.Forall₂ (EdgeBlock env (fun dep m => resolveVersion env f (some dep) m) ver)
        ver.dependencies.entries blocks ∧ evs = blocks.flatten := by
  cases v with
  | none =>
    simp only [resolveVersion, Except.ok.injEq, Prod.mk.injEq] at h
    exact Or.inl h.2.symm
  | some ver =>
    simp only [resolveVersion] at h
    by_cases hskip : nonImproving env sel ver = true
    · rw [if_pos hskip] at h
      simp only [Except.ok.injEq, Prod.mk.injEq] at h
      exact Or.inl h.2.symm
    · rw [if_neg hskip] at h
      obtain ⟨blocks, hb, he⟩ := resolveDeps_blocks env _ ver _ _ _ _ _ h
      exact Or.inr ⟨ver, blocks, rfl, by simpa using hskip, hb, by simpa using he⟩

theorem resolve_blocks {K : Type} [LinearOrder K] (env : Env K) (fuel : Nat)
    (mods : List QuickModRef) :
    ∀ (sel : Selection) (evs : List Event) (res : List QuickModVersion) (sel' : Selection)
      (evs' : List Event), resolve env fuel mods sel evs = .ok (res, sel', evs') →
        ∃ blocks, List.Forall₂ (RequestBlock env fuel) (processed env mods) blocks ∧
          evs' = evs ++ blocks.flatten := by
  induction mods with
  | nil =>
    intro sel evs res sel' evs' h
    simp only [resolve, Except.ok.injEq, Prod.mk.injEq] at h
    obtain ⟨-, -, rfl⟩ := h
    exact ⟨[], List.Forall₂.nil, by simp⟩
  | cons mod rest ih =>
    intro sel evs res sel' evs' h
    simp only [resolve] at h
    cases hr : resolveVersion env fuel (env.getVersion mod none).1 sel with
    | error e => rw [hr] at h; cases h
    | ok r =>
      obtain ⟨sel1, evs1⟩ := r
      rw [hr] at h
      simp only at h
      by_cases hok : (env.getVersion mod none).2 = true
      · rw [if_pos hok] at h
        obtain ⟨blocks, hb, rfl⟩ := ih _ _ _ _ _ h
        refine ⟨(Event.getVersion mod none :: evs1) :: blocks, ?_, by simp⟩
        simp only [processed, hok, if_true]
        refine List.Forall₂.cons ⟨sel, sel1, evs1, hr, ?_⟩ hb
        simp [hok]
      · rw [if_neg hok] at h
        simp only [Except.ok.injEq, Prod.mk.injEq] at h
        obtain ⟨-, -, rfl⟩ := h
        refine ⟨[Event.getVersion mod none :: evs1 ++ [Event.error (Message.didntSelect mod)]],
          ?_, by simp⟩
        simp only [processed, hok, Bool.false_eq_true, if_false]
        refine List.Forall₂.cons ⟨sel, sel1, evs1, hr, ?_⟩ List.Forall₂.nil
        simp [hok]

/-! ## C18 -/

/-- C18, as the code has it: the trace of a `resolve(mods)` that returns is, after what
was there before, one block per processed requested package (the request, the trace of
the recursive step, and the error if the selector reported failure for the package), and
the trace of a recursive step is empty or one block per edge of its version, in the order
of the edges: the warning alone if the target has no metadata; else the request, an
error if the selector reported failure for the edge, and then the warning if no version
was returned, or the success and the trace of the recursive step on the version
returned. -/
theorem resolve_trace_blocks {K : Type} [LinearOrder K] (env : Env K) (fuel : Nat)
    (mods : List QuickModRef) (sel : Selection) (evs : List Event)
    (res : List QuickModVersion) (sel' : Selection) (evs' : List Event)
    (h : resolve env fuel mods sel evs = .ok (res, sel', evs')) :
    (∃ blocks, List.Forall₂ (RequestBlock env fuel) (processed env mods) blocks ∧
      evs' = evs ++ blocks.flatten) ∧
    ∀ (f : Nat) (v : Option QuickModVersion) (s s' : Selection) (e : List Event),
      resolveVersion env (f + 1) v s = .ok (s', e) →
        e = [] ∨ ∃ ver blocks, v = some ver ∧ nonImproving env s ver = false ∧
          List.Forall₂ (EdgeBlock env (fun dep m => resolveVersion env f (some dep) m) ver)
            ver.dependencies.entries blocks ∧ e = blocks.flatten :=
  ⟨resolve_blocks env fuel mods sel evs res sel' evs' h,
    fun f v s s' e hr => resolveVersion_blocks env f v s s' e hr⟩

/-- C18 as stated fails: the selector reports success for the one requested package A
and failure for the edge from A to B, and the trace has an error for that edge. -/
theorem resolve_error_for_edge :
    (∀ mod ∈ [0], ((exEnvEdge (none, false)).getVersion mod none).2 = true) ∧
    resolve (exEnvEdge (none, false)) 3 [0] [] [] =
      .ok ([exVersionA], [(exVersionA.mod, exVersionA)],
        [Event.getVersion 0 none, Event.getVersion 1 (some (1, "1")),
          Event.error (Message.didntSelectWhileResolving "A" "1" 1),
          Event.warning (Message.cannotBeResolved "A" "1" 1)]) ∧
    Event.error (Message.didntSelectWhileResolving "A" "1" 1) ∈
      [Event.getVersion 0 none, Event.getVersion 1 (some (1, "1")),
        Event.error (Message.didntSelectWhileResolving "A" "1" 1),
        Event.warning (Message.cannotBeResolved "A" "1" 1)] :=
  ⟨by intro m hm; simp only [List.mem_singleton] at hm; subst hm; rfl, rfl, by decide⟩

/-- C18, as the code has it, at the example A -> B -> C. -/
theorem resolve_trace_blocks_witness :
    resolve exEnvChain 3 [0] [] [] =
      .ok ([exVersionA, exVersionB, exVersionC],
        [(exVersionA.mod, exVersionA), (exVersionB.mod, exVersionB),
          (exVersionC.mod, exVersionC)],
        [Event.getVersion 0 none, Event.getVersion 1 (some (1, "1")),
          Event.success (Message.resolved "A" "1" "B" "1"),
          Event.getVersion 2 (some (2, "1")),
          Event.success (Message.resolved "B" "1" "C" "1")]) ∧
    ((∃ blocks, List.Forall₂ (RequestBlock exEnvChain 3) (processed exEnvChain [0]) blocks ∧
      [Event.getVersion 0 none, Event.getVersion 1 (some (1, "1")),
          Event.success (Message.resolved "A" "1" "B" "1"),
          Event.getVersion 2 (some (2, "1")),
          Event.success (Message.resolved "B" "1" "C" "1")] = [] ++ blocks.flatten) ∧
    ∀ (f : Nat) (v : Option QuickModVersion) (s s' : Selection) (e : List Event),
      resolveVersion exEnvChain (f + 1) v s = .ok (s', e) →
        e = [] ∨ ∃ ver blocks, v = some ver ∧ nonImproving exEnvChain s ver = false ∧
          List.Forall₂
            (EdgeBlock exEnvChain (fun dep m => resolveVersion exEnvChain f (some dep) m) ver)
            ver.dependencies.entries blocks ∧ e = blocks.flatten) :=
  ⟨rfl, resolve_trace_blocks exEnvChain 3 [0] [] [] _ _ _ rfl⟩

theorem acyclic_exNodesFour : Acyclic exNodesFour := by
  refine acyclic_of_rank (fun u => if u = 2 then 0 else if u = 0 then 1 else if u = 1 then 2 else 3)
    (fun p n h => ?_)
  obtain ⟨node, hm, hu, hp⟩ := h
  simp only [exNodesFour, List.mem_cons, List.mem_singleton, List.not_mem_nil, or_false] at hm
  rcases hm with rfl | rfl | rfl | rfl
  · simp only [List.mem_singleton] at hp; subst hp; subst hu; decide
  · simp only [List.mem_singleton] at hp; subst hp; subst hu; decide
  · simp at hp
  · simp only [List.mem_singleton] at hp; subst hp; subst hu; decide

/-- In an acyclic graph that `build` returns, `resolveOrphans` returns, with enough
recursion depth, the uids of the snapshot without hard ancestor. -/
theorem resolveOrphans_hardAncestor (db : QuickModVersionRef → Option QuickModVersion)
    (snap : List InstalledMod) (nodes : List DepNode) (flag : Bool)
    (hb : DepNode.build db snap = .ok (nodes, flag)) (hac : Acyclic nodes) :
    ∃ F, ∀ fuel, F ≤ fuel → ∃ l, resolveOrphans db snap fuel = .ok l ∧
      ∀ u, u ∈ l ↔ (u ∈ snap.map (fun e => e.uid) ∧ ¬ HardAncestor nodes u) := by
  have hok := built_graphOk hb
  have hmem : ∀ e ∈ snap, e.uid ∈ nodes.map (fun n => n.uid) := fun e he =>
    (built_uids hb).mem_iff.2 (List.mem_map.2 ⟨e, he, rfl⟩)
  obtain ⟨F, hF⟩ := exists_bound_forall_mem
    (fun f (e : InstalledMod) => ∃ b, DepNode.hasHardParent nodes f e.uid = .ok b) snap
    (fun e he => hasHardParent_total hok hac e.uid (hmem e he))
  refine ⟨F, fun fuel hle => ?_⟩
  obtain ⟨l, hl⟩ := resolveOrphansLoop_total nodes fuel snap
    (fun e he => ⟨hmem e he, hF fuel hle e he⟩) []
  obtain ⟨l', h1, -, -, h4⟩ := resolveOrphansLoop_spec nodes fuel snap [] l hl
  rw [List.nil_append] at h1
  subst h1
  refine ⟨l, by simp only [resolveOrphans, hb, hl], fun u => ?_⟩
  rw [h4 u]
  constructor
  · rintro ⟨hu, hf⟩
    refine ⟨hu, fun hha => ?_⟩
    have := (hasHardParent_spec hok fuel u false hf).2 hha
    cases this
  · rintro ⟨hu, hno⟩
    obtain ⟨e, he, rfl⟩ := List.mem_map.1 hu
    obtain ⟨b, hb'⟩ := hF fuel hle e he
    refine ⟨hu, ?_⟩
    cases b with
    | false => exact hb'
    | true => exact absurd ((hasHardParent_spec hok fuel e.uid true hb').1 rfl) hno

/-- A hard ancestor of a parent is a hard ancestor of the node. -/
theorem hardAncestor_of_parent {nodes : List DepNode} {p n : QuickModRef}
    (hp : IsParent nodes p n) (h : HardAncestor nodes p) : HardAncestor nodes n := by
  obtain ⟨a, ha, hh⟩ := h
  exact ⟨a, ha.tail hp, hh⟩

/-! ## C19 -/

/-- C19: in a graph that `build` returns and that has no cycle, the list of orphans that
`resolveOrphans` returns is closed under parents (every parent of an orphan is in the
list), and so no child of an installed package that is not in the list is in the list. -/
theorem orphans_closed_under_parents (db : QuickModVersionRef → Option QuickModVersion)
    (snap : List InstalledMod) (nodes : List DepNode) (flag : Bool)
    (hb : DepNode.build db snap = .ok (nodes, flag)) (hac : Acyclic nodes) :
    ∃ F, ∀ fuel, F ≤ fuel → ∃ l, resolveOrphans db snap fuel = .ok l ∧
      (∀ n ∈ l, ∀ p, IsParent nodes p n → p ∈ l) ∧
      (∀ p, p ∈ snap.map (fun e => e.uid) → p ∉ l → ∀ c, IsChild nodes c p → c ∉ l) := by
  obtain ⟨F, hF⟩ := resolveOrphans_hardAncestor db snap nodes flag hb hac
  refine ⟨F, fun fuel hle => ?_⟩
  obtain ⟨l, hl, hmem⟩ := hF fuel hle
  have hclosed : ∀ n ∈ l, ∀ p, IsParent nodes p n → p ∈ l := by
    intro n hn p hp
    obtain ⟨-, hno⟩ := (hmem n).1 hn
    refine (hmem p).2 ⟨?_, fun hh => hno (hardAncestor_of_parent hp hh)⟩
    exact (built_uids hb).mem_iff.1 (isParent_mem (built_graphOk hb) hp)
  refine ⟨l, hl, hclosed, ?_⟩
  intro p _ hpl c hc hcl
  exact hpl (hclosed c hcl p ((built_isParent_iff hb p c).2 hc))

/-- C19 at an example: X depends on A, A on B, B on D; B is installed on request, the
others as dependencies.  The orphans are A and X; D, a child of B, is none. -/
theorem orphans_closed_under_parents_witness :
    DepNode.build exDbFour exSnapFour = .ok (exNodesFour, true) ∧
    Acyclic exNodesFour ∧
    resolveOrphans exDbFour exSnapFour 3 = .ok [0, 2] ∧
    ∃ F, ∀ fuel, F ≤ fuel → ∃ l, resolveOrphans exDbFour exSnapFour fuel = .ok l ∧
      (∀ n ∈ l, ∀ p, IsParent exNodesFour p n → p ∈ l) ∧
      (∀ p, p ∈ exSnapFour.map (fun e => e.uid) → p ∉ l →
        ∀ c, IsChild exNodesFour c p → c ∉ l) :=
  ⟨rfl, acyclic_exNodesFour, rfl,
    orphans_closed_under_parents exDbFour exSnapFour exNodesFour true rfl
      acyclic_exNodesFour⟩

theorem Selection.keys_insert (m : Selection) (k : QuickModMetadata) (v : QuickModVersion) :
    (m.insert k v).map Prod.fst =
      if k ∈ m.map Prod.fst then m.map Prod.fst else m.map Prod.fst ++ [k] := by
  induction m with
  | nil => simp [Selection.insert]
  | cons a t ih =>
    obtain ⟨k', v'⟩ := a
    simp only [Selection.insert]
    by_cases hk : k' = k
    · subst hk; simp
    · have hk' : ¬ k = k' := fun h => hk h.symm
      rw [if_neg hk, List.map_cons, ih]
      by_cases hm : k ∈ t.map Prod.fst
      · simp [hm]
      · simp [hm, hk']

theorem Selection.keys_insert_nodup (m : Selection) (k : QuickModMetadata)
    (v : QuickModVersion) (h : (m.map Prod.fst).Nodup) :
    ((m.insert k v).map Prod.fst).Nodup := by
  rw [Selection.keys_insert]
  split_ifs with hk
  · exact h
  · rw [List.nodup_append]
    refine ⟨h, List.nodup_singleton k, ?_⟩
    intro x hx hx'
    rw [List.mem_singleton] at hx'
    exact hk (hx' ▸ hx)

/-- The list `resolve(mods)` returns is empty or holds the values of the selection. -/
theorem resolve_result {K : Type} [LinearOrder K] (env : Env K) (fuel : Nat)
    (mods : List QuickModRef) :
    ∀ (sel : Selection) (evs : List Event) (res : List QuickModVersion) (sel' : Selection)
      (evs' : List Event), resolve env fuel mods sel evs = .ok (res, sel', evs') →
        res = [] ∨ res = sel'.values := by
  induction mods with
  | nil =>
    intro sel evs res sel' evs' h
    simp only [resolve, Except.ok.injEq, Prod.mk.injEq] at h
    obtain ⟨rfl, rfl, -⟩ := h
    exact Or.inr rfl
  | cons mod rest ih =>
    intro sel evs res sel' evs' h
    simp only [resolve] at h
    cases hr : resolveVersion env fuel (env.getVersion mod none).1 sel with
    | error e => rw [hr] at h; cases h
    | ok r =>
      obtain ⟨sel1, evs1⟩ := r
      rw [hr] at h
      simp only at h
      by_cases hok : (env.getVersion mod none).2 = true
      · rw [if_pos hok] at h
        exact ih _ _ _ _ _ h
      · rw [if_neg hok] at h
        simp only [Except.ok.injEq, Prod.mk.injEq] at h
        exact Or.inl h.1.symm

/-! ## C12 -/

/-- C12, as the code has it: the selection is keyed by the metadata record of the
package.  If before the call no record is key of two entries and every entry is keyed by
the record of its version, then so it is after `resolve(mods)`, and the list returned
holds at most one version per metadata record; it holds at most one version per uid if
no two of the versions returned belong to different records of one uid. -/
theorem resolve_one_version_per_metadata {K : Type} [LinearOrder K] (env : Env K)
    (fuel : Nat) (mods : List QuickModRef) (sel : Selection) (evs : List Event)
    (res : List QuickModVersion) (sel' : Selection) (evs' : List Event)
    (hnd : (sel.map Prod.fst).Nodup) (hkey : ∀ x ∈ sel, x.1 = x.2.mod)
    (h : resolve env fuel mods sel evs = .ok (res, sel', evs')) :
    (sel'.map Prod.fst).Nodup ∧ (∀ x ∈ sel', x.1 = x.2.mod) ∧
    (res.map (fun v => v.mod)).Nodup ∧
    ((∀ v ∈ res, ∀ w ∈ res, v.mod.uid = w.mod.uid → v.mod = w.mod) →
      (res.map (fun v => v.mod.uid)).Nodup) := by
  have h1 : (sel'.map Prod.fst).Nodup :=
    resolve_rel env (fun a b => (a.map Prod.fst).Nodup → (b.map Prod.fst).Nodup)
      (fun _ h => h) (fun _ _ _ hab hbc h => hbc (hab h))
      (fun m v _ h => Selection.keys_insert_nodup m v.mod v h)
      fuel mods sel evs res sel' evs' h hnd
  have h2 : ∀ x ∈ sel', x.1 = x.2.mod :=
    resolve_rel env (fun a b => (∀ x ∈ a, x.1 = x.2.mod) → ∀ x ∈ b, x.1 = x.2.mod)
      (fun _ h => h) (fun _ _ _ hab hbc h => hbc (hab h))
      (fun m v _ h x hx => by
        rcases Selection.mem_insert hx with hm | rfl
        · exact h x hm
        · rfl)
      fuel mods sel evs res sel' evs' h hkey
  have h3 : (res.map (fun v => v.mod)).Nodup := by
    rcases resolve_result env fuel mods sel evs res sel' evs' h with rfl | rfl
    · exact List.nodup_nil
    · have : sel'.values.map (fun v => v.mod) = sel'.map Prod.fst := by
        simp only [Selection.values, List.map_map]
        exact List.map_congr_left (fun x hx => (h2 x hx).symm)
      rw [this]
      exact h1
  refine ⟨h1, h2, h3, fun hone => ?_⟩
  have : res.map (fun v => v.mod.uid) = (res.map (fun v => v.mod)).map (fun m => m.uid) := by
    rw [List.map_map]; rfl
  rw [this]
  refine List.Nodup.map_on ?_ h3
  intro a ha b hb hab
  obtain ⟨v, hv, rfl⟩ := List.mem_map.1 ha
  obtain ⟨w, hw, rfl⟩ := List.mem_map.1 hb
  exact hone v hv w hw hab

/-- C12 as stated fails: with two metadata records for the uid of B and a selector that
answers with versions of both, the list returned holds two versions of the uid 1. -/
theorem resolve_two_versions_of_uid :
    selectedPackages (resolve exEnvRepos 3 [0] [] []) =
      .ok [(0, "repo", "1"), (1, "repo", "1"), (2, "repo", "1"), (1, "other", "2")] ∧
    (resolve exEnvRepos 3 [0] [] []).map (fun r => r.1.map (fun v => v.mod.uid)) =
      .ok [0, 1, 2, 1] ∧
    ¬ ([0, 1, 2, 1] : List QuickModRef).Nodup :=
  ⟨rfl, rfl, by decide⟩

/-- C12, as the code has it, at the example with two metadata records for the uid of B,
from the empty selection of a new resolver. -/
theorem resolve_one_version_per_metadata_witness :
    (([] : Selection).map Prod.fst).Nodup ∧ (∀ x ∈ ([] : Selection), x.1 = x.2.mod) ∧
    ∃ res sel' evs', resolve exEnvRepos 3 [0] [] [] = .ok (res, sel', evs') ∧
      ((sel'.map Prod.fst).Nodup ∧ (∀ x ∈ sel', x.1 = x.2.mod) ∧
      (res.map (fun v => v.mod)).Nodup ∧
      ((∀ v ∈ res, ∀ w ∈ res, v.mod.uid = w.mod.uid → v.mod = w.mod) →
        (res.map (fun v => v.mod.uid)).Nodup)) :=
  ⟨List.nodup_nil, (fun x hx => by cases hx), _, _, _, rfl,
    resolve_one_version_per_metadata exEnvRepos 3 [0] [] [] _ _ _ List.nodup_nil
      (fun x hx => by cases hx) rfl⟩

theorem insertSorted_perm {α : Type} (less : α → α → Bool) (a : α) (l : List α) :
    (insertSorted less a l).Perm (a :: l) := by
  induction l with
  | nil => exact List.Perm.refl _
  | cons b l ih =>
    unfold insertSorted
    split_ifs
    · exact (List.Perm.cons b ih).trans (List.Perm.swap a b l)
    · exact List.Perm.refl _

theorem stableSort_perm {α : Type} (less : α → α → Bool) (l : List α) :
    (stableSort less l).Perm l := by
  induction l with
  | nil => exact List.Perm.refl _
  | cons a l ih =>
    unfold stableSort
    exact (insertSorted_perm less a _).trans (List.Perm.cons a ih)

theorem insertSorted_pairwise {α : Type} (key : α → Int) (a : α) (l : List α)
    (h : l.Pairwise (fun x y => key x ≤ key y)) :
    (insertSorted (fun x y => decide (key x < key y)) a l).Pairwise
      (fun x y => key x ≤ key y) := by
  induction l with
  | nil => exact List.pairwise_singleton _ _
  | cons b l ih =>
    rw [List.pairwise_cons] at h
    unfold insertSorted
    by_cases hlt : key b < key a
    · rw [if_pos (decide_eq_true hlt), List.pairwise_cons]
      refine ⟨fun x hx => ?_, ih h.2⟩
      rcases List.mem_cons.mp ((insertSorted_perm _ a l).subset hx) with hxa | hxl
      · rw [hxa]; exact le_of_lt hlt
      · exact h.1 x hxl
    · rw [if_neg (by simpa using hlt), List.pairwise_cons]
      have hab : key a ≤ key b := not_lt.mp hlt
      refine ⟨fun x hx => ?_, List.pairwise_cons.mpr h⟩
      rcases List.mem_cons.mp hx with hxb | hxl
      · rw [hxb]; exact hab
      · exact le_trans hab (h.1 x hxl)

theorem stableSort_pairwise {α : Type} (key : α → Int) (l : List α) :
    (stableSort (fun x y => decide (key x < key y)) l).Pairwise
      (fun x y => key x ≤ key y) := by
  induction l with
  | nil => exact List.Pairwise.nil
  | cons a l ih =>
    unfold stableSort
    exact insertSorted_pairwise key a _ ih

theorem insertSorted_filter {α : Type} (key : α → Int) (p : Int) (a : α) (l : List α) :
    (insertSorted (fun x y => decide (key x < key y)) a l).filter (fun x => key x = p) =
      (a :: l).filter (fun x => key x = p) := by
  induction l with
  | nil => rfl
  | cons b l ih =>
    unfold insertSorted
    by_cases hlt : key b < key a
    · rw [if_pos (decide_eq_true hlt), List.filter_cons, ih]
      by_cases hb : key b = p
      · have ha : ¬ key a = p := fun ha => by omega
        simp [List.filter_cons, hb, ha]
      · simp [List.filter_cons, hb]
    · rw [if_neg (by simpa using hlt)]

theorem stableSort_filter {α : Type} (key : α → Int) (p : Int) (l : List α) :
    (stableSort (fun x y => decide (key x < key y)) l).filter (fun x => key x = p) =
      l.filter (fun x => key x = p) := by
  induction l with
  | nil => rfl
  | cons a l ih =>
    unfold stableSort
    rw [insertSorted_filter, List.filter_cons, List.filter_cons, ih]

/-! ## Lemmas on reading a version -/

theorem value_of_contains_false (o : JsonObject) (key : String)
    (h : JsonObject.contains o key = false) : JsonObject.value o key = JsonValue.undefined := by
  unfold JsonObject.value
  have : o.find? (fun m => decide (m.1 = key)) = none := by
    rw [List.find?_eq_none]
    intro x hx
    unfold JsonObject.contains at h
    rw [List.any_eq_false] at h
    exact h x hx
  rw [this]

theorem parseDownload_priority (entry : JsonValue) (d : QuickModDownload)
    (h : BaseQuickModVersion.parseDownload entry = .ok d)
    (hp : JsonObject.contains entry.toObject "priority" = false) : d.priority = 0 := by
  simp only [BaseQuickModVersion.parseDownload, value_of_contains_false _ _ hp,
    MMCJson.ensureInteger, bind, Except.bind, pure, Except.pure] at h
  split at h
  · cases h
  · split_ifs at h <;> (cases h; rfl)

theorem parseDownloadsLoop_ok (vals : List JsonValue) :
    ∀ (acc out : List QuickModDownload),
      BaseQuickModVersion.parseDownloadsLoop vals acc = .ok out →
      ∃ ds, List.Forall₂ (fun entry d => BaseQuickModVersion.parseDownload entry = .ok d)
        vals ds ∧ out = acc ++ ds := by
  induction vals with
  | nil =>
    intro acc out h
    simp only [BaseQuickModVersion.parseDownloadsLoop] at h
    cases h
    exact ⟨[], List.Forall₂.nil, (List.append_nil _).symm⟩
  | cons e rest ih =>
    intro acc out h
    simp only [BaseQuickModVersion.parseDownloadsLoop] at h
    cases hd : BaseQuickModVersion.parseDownload e with
    | error err => rw [hd] at h; cases h
    | ok d =>
      rw [hd] at h
      obtain ⟨ds, hf, ho⟩ := ih _ _ h
      exact ⟨d :: ds, List.Forall₂.cons hd hf, by rw [ho, List.append_assoc]; rfl⟩

/-- The downloads of a version that `parseDownloads` returns: the downloads read from
the entries of the array "urls", sorted by priority. -/
theorem parseDownloads_ok (self v : BaseQuickModVersion) (object : JsonObject)
    (h : self.parseDownloads object = .ok v) :
    ∃ urls ds, JsonObject.value object "urls" = .array urls ∧
      List.Forall₂ (fun entry d => BaseQuickModVersion.parseDownload entry = .ok d) urls ds ∧
      v.downloads = stableSort (fun dl1 dl2 => decide (dl1.priority < dl2.priority)) ds := by
  unfold BaseQuickModVersion.parseDownloads at h
  simp only [bind, Except.bind, pure, Except.pure] at h
  cases hv : JsonObject.value object "urls" with
  | array urls =>
    rw [hv] at h
    simp only [MMCJson.ensureArray] at h
    cases hl : BaseQuickModVersion.parseDownloadsLoop urls [] with
    | error err => rw [hl] at h; cases h
    | ok out =>
      rw [hl] at h
      obtain ⟨ds, hf, ho⟩ := parseDownloadsLoop_ok urls [] out hl
      rw [List.nil_append] at ho
      cases h
      exact ⟨urls, ds, rfl, hf, by rw [ho]⟩
  | _ => rw [hv] at h; simp only [MMCJson.ensureArray] at h; cases h

theorem parse_ok_downloads (t : UidText) (self v : BaseQuickModVersion) (object : JsonObject)
    (h : self.parse t object = .ok v) :
    ∃ self', BaseQuickModVersion.parseDownloads self' object = .ok v := by
  unfold BaseQuickModVersion.parse at h
  simp only [bind, Except.bind] at h
  split at h
  · cases h
  · split at h
    · cases h
    · split at h
      · cases h
      · exact ⟨_, h⟩

/-! ## C21 -/

/-- C21: after `parse` succeeds, the downloads of the version are a permutation of the
downloads read from the entries of the JSON array "urls", in non-decreasing order of
priority, and the entries of each priority are in their JSON order (the sort is stable);
the download read from an entry without a field "priority" has priority 0. -/
theorem parse_downloads_sorted (t : UidText) (self v : BaseQuickModVersion)
    (object : JsonObject) (h : self.parse t object = .ok v) :
    ∃ urls ds, JsonObject.value object "urls" = .array urls ∧
      List.Forall₂ (fun entry d => BaseQuickModVersion.parseDownload entry = .ok d ∧
        (JsonObject.contains entry.toObject "priority" = false → d.priority = 0)) urls ds ∧
      v.downloads.Perm ds ∧
      v.downloads.Pairwise (fun d1 d2 => d1.priority ≤ d2.priority) ∧
      ∀ p : Int, v.downloads.filter (fun d => d.priority = p) =
        ds.filter (fun d => d.priority = p) := by
  obtain ⟨self', h'⟩ := parse_ok_downloads t self v object h
  obtain ⟨urls, ds, hu, hf, hv⟩ := parseDownloads_ok self' v object h'
  refine ⟨urls, ds, hu, ?_, ?_, ?_, ?_⟩
  · exact hf.imp (fun entry d hd => ⟨hd, parseDownload_priority entry d hd⟩)
  · rw [hv]; exact stableSort_perm _ ds
  · rw [hv]; exact stableSort_pairwise QuickModDownload.priority ds
  · intro p; rw [hv]; exact stableSort_filter QuickModDownload.priority p ds

/-- C21 at an example: an array "urls" with the priorities 2, none, 0 and -1 is read
as the downloads d (-1), b (0), c (0), a (2). -/
theorem parse_downloads_sorted_witness :
    exFresh.parse exText exVersionObject = .ok exParsed ∧
    ∃ urls ds, JsonObject.value exVersionObject "urls" = .array urls ∧
      List.Forall₂ (fun entry d => BaseQuickModVersion.parseDownload entry = .ok d ∧
        (JsonObject.contains entry.toObject "priority" = false → d.priority = 0)) urls ds ∧
      exParsed.downloads.Perm ds ∧
      exParsed.downloads.Pairwise (fun d1 d2 => d1.priority ≤ d2.priority) ∧
      ∀ p : Int, exParsed.downloads.filter (fun d => d.priority = p) =
        ds.filter (fun d => d.priority = p) :=
  ⟨rfl, parse_downloads_sorted exText exFresh exParsed exVersionObject rfl⟩

/-! ## C22 -/

theorem find_eq_head_of_filter {α : Type} (p : α → Bool) (l : List α) :
    l.find? p = (l.filter p).head? := by
  induction l with
  | nil => rfl
  | cons a l ih =>
    rw [List.find?_cons, List.filter_cons]
    cases hp : p a
    · simp
    · simp

theorem head_of_stableSort (ds : List QuickModDownload) (d : QuickModDownload)
    (rest : List QuickModDownload)
    (h : stableSort (fun dl1 dl2 => decide (dl1.priority < dl2.priority)) ds = d :: rest) :
    d ∈ ds ∧ (∀ d' ∈ ds, d.priority ≤ d'.priority) ∧
      ds.find? (fun x => x.priority = d.priority) = some d := by
  have hperm := stableSort_perm (fun dl1 dl2 : QuickModDownload =>
    decide (dl1.priority < dl2.priority)) ds
  have hsorted := stableSort_pairwise QuickModDownload.priority ds
  have hfilter := stableSort_filter QuickModDownload.priority d.priority ds
  rw [h] at hperm hsorted hfilter
  rw [List.pairwise_cons] at hsorted
  refine ⟨hperm.subset (List.mem_cons_self _ _), fun d' hd' => ?_, ?_⟩
  · rcases List.mem_cons.mp (hperm.symm.subset hd') with he | hr
    · rw [he]
    · exact hsorted.1 d' hr
  · rw [List.filter_cons, if_pos (by simp)] at hfilter
    rw [find_eq_head_of_filter, ← hfilter]
    rfl

/-- C22: `highestPriorityDownload` fails if and only if the version has no downloads,
and its result does not depend on the download type asked for; for a version that
`parse` returned, it returns the download read from the array "urls" whose priority is
the smallest number and, among the downloads of that priority, the first in the order
of the array. -/
theorem highestPriorityDownload_smallest (t : UidText) (self v : BaseQuickModVersion)
    (object : JsonObject) (h : self.parse t object = .ok v)
    (w : BaseQuickModVersion) (type type' : DownloadType) :
    ((∃ e, w.highestPriorityDownload type = .error e) ↔ w.downloads = []) ∧
    w.highestPriorityDownload type' = w.highestPriorityDownload type ∧
    ∃ urls ds, JsonObject.value object "urls" = .array urls ∧
      List.Forall₂ (fun entry d => BaseQuickModVersion.parseDownload entry = .ok d) urls ds ∧
      (ds = [] → v.highestPriorityDownload type = .error MMCError.noDownloads) ∧
      (ds ≠ [] → ∃ d, v.highestPriorityDownload type = .ok d ∧ d ∈ ds ∧
        (∀ d' ∈ ds, d.priority ≤ d'.priority) ∧
        ds.find? (fun x => x.priority = d.priority) = some d) := by
  refine ⟨?_, rfl, ?_⟩
  · unfold BaseQuickModVersion.highestPriorityDownload
    cases w.downloads with
    | nil => exact ⟨fun _ => rfl, fun _ => ⟨_, rfl⟩⟩
    | cons d l => exact ⟨fun ⟨e, he⟩ => (by cases he), fun hl => (by cases hl)⟩
  · obtain ⟨self', h'⟩ := parse_ok_downloads t self v object h
    obtain ⟨urls, ds, hu, hf, hv⟩ := parseDownloads_ok self' v object h'
    refine ⟨urls, ds, hu, hf, ?_, ?_⟩
    · intro hds
      unfold BaseQuickModVersion.highestPriorityDownload
      rw [hv, hds]
      rfl
    · intro hds
      unfold BaseQuickModVersion.highestPriorityDownload
      rw [hv]
      cases hs : stableSort (fun dl1 dl2 : QuickModDownload =>
          decide (dl1.priority < dl2.priority)) ds with
      | nil =>
        have hp := stableSort_perm (fun dl1 dl2 : QuickModDownload =>
          decide (dl1.priority < dl2.priority)) ds
        rw [hs] at hp
        exact absurd hp.symm.eq_nil hds
      | cons d rest => exact ⟨d, rfl, head_of_stableSort ds d rest hs⟩

/-- C22 at an example: of the downloads read from an array "urls" with the priorities
2, none, 0 and -1, the download d of priority -1 is returned; a fresh version has no
downloads. -/
theorem highestPriorityDownload_smallest_witness :
    exFresh.parse exText exVersionObject = .ok exParsed ∧
    exParsed.highestPriorityDownload DownloadType.Direct =
      .ok ⟨"d", -1, DownloadType.Parallel, "", ""⟩ ∧
    (((∃ e, exFresh.highestPriorityDownload DownloadType.Direct = .error e) ↔
        exFresh.downloads = []) ∧
    exFresh.highestPriorityDownload DownloadType.Encoded =
      exFresh.highestPriorityDownload DownloadType.Direct ∧
    ∃ urls ds, JsonObject.value exVersionObject "urls" = .array urls ∧
      List.Forall₂ (fun entry d => BaseQuickModVersion.parseDownload entry = .ok d) urls ds ∧
      (ds = [] → exParsed.highestPriorityDownload DownloadType.Direct =
        .error MMCError.noDownloads) ∧
      (ds ≠ [] → ∃ d, exParsed.highestPriorityDownload DownloadType.Direct = .ok d ∧ d ∈ ds ∧
        (∀ d' ∈ ds, d.priority ≤ d'.priority) ∧
        ds.find? (fun x => x.priority = d.priority) = some d)) :=
  ⟨rfl, rfl, highestPriorityDownload_smallest exText exFresh exParsed exVersionObject rfl
    exFresh DownloadType.Direct DownloadType.Encoded⟩

/-! ## Lemmas on JSON objects -/

theorem value_insert_same (o : JsonObject) (key : String) (v : JsonValue) :
    JsonObject.value (JsonObject.insert o key v) key = v := by
  simp [JsonObject.value, JsonObject.insert]

theorem find_filter_ne (o : JsonObject) (key key' : String) (h : key ≠ key') :
    (o.filter (fun m => decide (m.1 ≠ key))).find? (fun m => decide (m.1 = key')) =
      o.find? (fun m => decide (m.1 = key')) := by
  induction o with
  | nil => rfl
  | cons m o ih =>
    by_cases hm : m.1 = key
    · have hm' : ¬ m.1 = key' := fun h' => h (hm.symm.trans h')
      rw [List.filter_cons_of_neg (by simpa using hm),
        List.find?_cons_of_neg _ (by simpa using hm')]
      exact ih
    · rw [List.filter_cons_of_pos (by simpa using hm)]
      by_cases hm' : m.1 = key'
      · rw [List.find?_cons_of_pos _ (by simpa using hm'),
          List.find?_cons_of_pos _ (by simpa using hm')]
      · rw [List.find?_cons_of_neg _ (by simpa using hm'),
          List.find?_cons_of_neg _ (by simpa using hm')]
        exact ih

theorem value_insert_ne (o : JsonObject) (key key' : String) (v : JsonValue)
    (h : key ≠ key') :
    JsonObject.value (JsonObject.insert o key v) key' = JsonObject.value o key' := by
  unfold JsonObject.value JsonObject.insert
  rw [List.find?_cons_of_neg _ (by simpa using h), find_filter_ne o key key' h]

theorem contains_insert_same (o : JsonObject) (key : String) (v : JsonValue) :
    JsonObject.contains (JsonObject.insert o key v) key = true := by
  simp [JsonObject.contains, JsonObject.insert]

theorem contains_insert_ne (o : JsonObject) (key key' : String) (v : JsonValue)
    (h : key ≠ key') :
    JsonObject.contains (JsonObject.insert o key v) key' = JsonObject.contains o key' := by
  unfold JsonObject.contains JsonObject.insert
  rw [List.any_cons, decide_eq_false h, Bool.false_or]
  induction o with
  | nil => rfl
  | cons m o ih =>
    by_cases hm : m.1 = key
    · have hm' : ¬ m.1 = key' := fun h' => h (hm.symm.trans h')
      rw [List.filter_cons_of_neg (by simpa using hm), List.any_cons, decide_eq_false hm',
        Bool.false_or]
      exact ih
    · rw [List.filter_cons_of_pos (by simpa using hm), List.any_cons, List.any_cons, ih]

theorem value_writeString_ne (o : JsonObject) (key key' value : String) (h : key ≠ key') :
    JsonObject.value (MMCJson.writeString o key value) key' = JsonObject.value o key' := by
  unfold MMCJson.writeString
  split_ifs
  · rfl
  · exact value_insert_ne o key key' _ h

theorem value_writeObjectList_ne (o : JsonObject) (key key' : String)
    (values : List JsonObject) (h : key ≠ key') :
    JsonObject.value (MMCJson.writeObjectList o key values) key' = JsonObject.value o key' := by
  unfold MMCJson.writeObjectList
  split_ifs
  · rfl
  · exact value_insert_ne o key key' _ h

theorem contains_writeObjectList_ne (o : JsonObject) (key key' : String)
    (values : List JsonObject) (h : key ≠ key') :
    JsonObject.contains (MMCJson.writeObjectList o key values) key' =
      JsonObject.contains o key' := by
  unfold MMCJson.writeObjectList
  split_ifs
  · rfl
  · exact contains_insert_ne o key key' _ h

theorem toJson_references (t : UidText) (dl : QuickModDownload → JsonObject)
    (self : BaseQuickModVersion) :
    JsonObject.contains (self.toJson t dl) "references" = true ∧
    JsonObject.value (self.toJson t dl) "references" = .array (referencesJson t self) := by
  unfold BaseQuickModVersion.toJson
  simp only []
  rw [contains_writeObjectList_ne _ _ _ _ (by decide),
    value_writeObjectList_ne _ _ _ _ (by decide)]
  cases self.installType <;>
    simp only [] <;>
    rw [contains_insert_ne _ _ _ _ (by decide), value_insert_ne _ _ _ _ (by decide),
      contains_insert_same, value_insert_same] <;>
    exact ⟨rfl, by simp [referencesJson, refToJson]⟩

theorem toJson_installType (t : UidText) (dl : QuickModDownload → JsonObject)
    (self : BaseQuickModVersion) :
    JsonObject.value (self.toJson t dl) "installType" =
      .string (installTypeText self.installType) := by
  unfold BaseQuickModVersion.toJson
  simp only []
  rw [value_writeObjectList_ne _ _ _ _ (by decide)]
  cases self.installType <;> simp only [] <;> rw [value_insert_same] <;> rfl

/-! ## Lemmas on `QMap::insert` -/

theorem QMap.ext_entries {V : Type} (a b : QMap V) (h : a.entries = b.entries) : a = b := by
  cases a; cases b; cases h; rfl

theorem insertEntry_append {V : Type} (k : QuickModRef) (v : V) :
    ∀ l : List (QuickModRef × V), (∀ e ∈ l, e.1 < k) →
      QMap.insertEntry k v l = l ++ [(k, v)] := by
  intro l
  induction l with
  | nil => intro _; rfl
  | cons e l ih =>
    intro h
    unfold QMap.insertEntry
    rw [if_pos (h e (List.mem_cons_self _ _)),
      ih (fun x hx => h x (List.mem_cons_of_mem _ hx))]
    rfl

/-! ## Lemmas on the loop over the references -/

theorem parseReference_depends (t : UidText) (self : BaseQuickModVersion)
    (it : QuickModRef × (QuickModVersionRef × Bool)) :
    BaseQuickModVersion.parseReference t self (dependsToJson t it) =
      .ok { self with
        dependencies :=
          self.dependencies.insert (t.ofString (t.toString it.1))
            (QuickModVersionRef.make (t.ofString (t.toString it.1))
              (QuickModVersionRef.toString it.2.1), it.2.2) } := by
  simp [BaseQuickModVersion.parseReference, dependsToJson, MMCJson.ensureObject,
    MMCJson.ensureString, JsonObject.value, JsonObject.insert, JsonValue.toBool,
    bind, Except.bind, pure, Except.pure]

theorem parseReference_reference (t : UidText) (self : BaseQuickModVersion)
    (it : QuickModRef × QuickModVersionRef) :
    (BaseQuickModVersion.parseReference t self (referenceToJson t "recommends" it) =
      .ok { self with
        recommendations :=
          self.recommendations.insert (t.ofString (t.toString it.1))
            (QuickModVersionRef.make (t.ofString (t.toString it.1))
              (QuickModVersionRef.toString it.2)) }) ∧
    (BaseQuickModVersion.parseReference t self (referenceToJson t "suggests" it) =
      .ok { self with
        suggestions :=
          self.suggestions.insert (t.ofString (t.toString it.1))
            (QuickModVersionRef.make (t.ofString (t.toString it.1))
              (QuickModVersionRef.toString it.2)) }) ∧
    (BaseQuickModVersion.parseReference t self (referenceToJson t "conflicts" it) =
      .ok { self with
        conflicts :=
          self.conflicts.insert (t.ofString (t.toString it.1))
            (QuickModVersionRef.make (t.ofString (t.toString it.1))
              (QuickModVersionRef.toString it.2)) }) ∧
    (BaseQuickModVersion.parseReference t self (referenceToJson t "provides" it) =
      .ok { self with
        provides :=
          self.provides.insert (t.ofString (t.toString it.1))
            (QuickModVersionRef.make (t.ofString (t.toString it.1))
              (QuickModVersionRef.toString it.2)) }) := by
  refine ⟨?_, ?_, ?_, ?_⟩ <;>
    simp [BaseQuickModVersion.parseReference, referenceToJson, MMCJson.ensureObject,
      MMCJson.ensureString, JsonObject.value, JsonObject.insert,
      bind, Except.bind, pure, Except.pure]

theorem make_toString_of_namesUid (k : QuickModRef) (v : QuickModVersionRef)
    (h : NamesUid k v) : QuickModVersionRef.make k (QuickModVersionRef.toString v) = v := by
  unfold NamesUid at h
  cases v with
  | none => cases h
  | some p =>
    obtain ⟨k', id⟩ := p
    simp only [Option.map_some', Option.some.injEq] at h
    subst h
    rfl

theorem parseReferencesLoop_append (t : UidText) (l1 l2 : List JsonValue) :
    ∀ s, BaseQuickModVersion.parseReferencesLoop t (l1 ++ l2) s =
      (BaseQuickModVersion.parseReferencesLoop t l1 s).bind
        (BaseQuickModVersion.parseReferencesLoop t l2) := by
  induction l1 with
  | nil => intro s; rfl
  | cons val rest ih =>
    intro s
    simp only [List.cons_append, BaseQuickModVersion.parseReferencesLoop]
    cases BaseQuickModVersion.parseReference t s val with
    | error e => rfl
    | ok s' => exact ih s'

/-- The loop over the objects written for the entries of one map: the entries are
appended to that map of the version, in a run that keeps the relation `Same`. -/
theorem parseReferencesLoop_section {V : Type} (t : UidText)
    (get : BaseQuickModVersion → QMap V) (json : QuickModRef × V → JsonValue)
    (Same : BaseQuickModVersion → BaseQuickModVersion → Prop)
    (Good : QuickModRef × V → Prop)
    (hrefl : ∀ s, Same s s) (htrans : ∀ a b c, Same a b → Same b c → Same a c)
    (hstep : ∀ s e, Good e →
      ∃ s', BaseQuickModVersion.parseReference t s (json e) = .ok s' ∧
        get s' = (get s).insert e.1 e.2 ∧ Same s s') :
    ∀ (es : List (QuickModRef × V)) (s : BaseQuickModVersion),
      (∀ e ∈ es, Good e) →
      (((get s).entries ++ es).map Prod.fst).Pairwise (fun a b => a < b) →
      ∃ s', BaseQuickModVersion.parseReferencesLoop t (es.map json) s = .ok s' ∧
        (get s').entries = (get s).entries ++ es ∧ Same s s' := by
  intro es
  induction es with
  | nil =>
    intro s _ _
    exact ⟨s, rfl, (List.append_nil _).symm, hrefl s⟩
  | cons e es ih =>
    intro s hg hs
    obtain ⟨s1, h1, hget, hsame⟩ := hstep s e (hg e (List.mem_cons_self _ _))
    have hlt : ∀ x ∈ (get s).entries, x.1 < e.1 := by
      intro x hx
      rw [List.map_append, List.pairwise_append] at hs
      exact hs.2.2 x.1 (List.mem_map_of_mem _ hx) e.1
        (List.mem_map_of_mem _ (List.mem_cons_self _ _))
    have hent : (get s1).entries = (get s).entries ++ [e] := by
      rw [hget]
      exact insertEntry_append e.1 e.2 _ hlt
    have hs1 : (((get s1).entries ++ es).map Prod.fst).Pairwise (fun a b => a < b) := by
      rw [hent, List.append_assoc]
      exact hs
    obtain ⟨s2, h2, hget2, hsame2⟩ := ih s1 (fun x hx => hg x (List.mem_cons_of_mem _ hx)) hs1
    refine ⟨s2, ?_, ?_, htrans _ _ _ hsame hsame2⟩
    · simp only [List.map_cons, BaseQuickModVersion.parseReferencesLoop, h1]
      exact h2
    · rw [hget2, hent, List.append_assoc]
      rfl

/-- The loop over the array "references" that `toJson` writes for a version whose
references name their keys, from a version whose maps are empty: the maps of the
version written. -/
theorem parseReferencesLoop_toJson (t : UidText) (r : BaseQuickModVersion)
    (huid : ∀ k, t.ofString (t.toString k) = k) (hrefs : RefsNameKeys r)
    (s : BaseQuickModVersion)
    (hd : s.dependencies = QMap.empty) (hr : s.recommendations = QMap.empty)
    (hs : s.suggestions = QMap.empty) (hc : s.conflicts = QMap.empty)
    (hp : s.provides = QMap.empty) :
    ∃ s', BaseQuickModVersion.parseReferencesLoop t (referencesJson t r) s = .ok s' ∧
      s'.dependencies = r.dependencies ∧ s'.recommendations = r.recommendations ∧
      s'.suggestions = r.suggestions ∧ s'.conflicts = r.conflicts ∧
      s'.provides = r.provides := by
  obtain ⟨gd, gr, gs, gc, gp⟩ := hrefs
  -- the section of the dependencies
  obtain ⟨s1, h1, e1, k1⟩ := parseReferencesLoop_section t (fun x => x.dependencies)
    (dependsToJson t)
    (fun a b => b.recommendations = a.recommendations ∧ b.suggestions = a.suggestions ∧
      b.conflicts = a.conflicts ∧ b.provides = a.provides)
    (fun e => NamesUid e.1 e.2.1)
    (fun _ => ⟨rfl, rfl, rfl, rfl⟩)
    (fun a b c hab hbc => ⟨hbc.1.trans hab.1, hbc.2.1.trans hab.2.1,
      hbc.2.2.1.trans hab.2.2.1, hbc.2.2.2.trans hab.2.2.2⟩)
    (fun s e he => ⟨_, parseReference_depends t s e, by
      simp only [huid, make_toString_of_namesUid _ _ he], rfl, rfl, rfl, rfl⟩)
    r.dependencies.entries s gd (by beta_reduce; rw [hd]; exact r.dependencies.sorted)
  obtain ⟨s2, h2, e2, k2⟩ := parseReferencesLoop_section t (fun x => x.recommendations)
    (referenceToJson t "recommends")
    (fun a b => b.dependencies = a.dependencies ∧ b.suggestions = a.suggestions ∧
      b.conflicts = a.conflicts ∧ b.provides = a.provides)
    (fun e => NamesUid e.1 e.2)
    (fun _ => ⟨rfl, rfl, rfl, rfl⟩)
    (fun a b c hab hbc => ⟨hbc.1.trans hab.1, hbc.2.1.trans hab.2.1,
      hbc.2.2.1.trans hab.2.2.1, hbc.2.2.2.trans hab.2.2.2⟩)
    (fun s e he => ⟨_, (parseReference_reference t s e).1, by
      simp only [huid, make_toString_of_namesUid _ _ he], rfl, rfl, rfl, rfl⟩)
    r.recommendations.entries s1 gr (by beta_reduce; rw [k1.1, hr]; exact r.recommendations.sorted)
  obtain ⟨s3, h3, e3, k3⟩ := parseReferencesLoop_section t (fun x => x.suggestions)
    (referenceToJson t "suggests")
    (fun a b => b.dependencies = a.dependencies ∧ b.recommendations = a.recommendations ∧
      b.conflicts = a.conflicts ∧ b.provides = a.provides)
    (fun e => NamesUid e.1 e.2)
    (fun _ => ⟨rfl, rfl, rfl, rfl⟩)
    (fun a b c hab hbc => ⟨hbc.1.trans hab.1, hbc.2.1.trans hab.2.1,
      hbc.2.2.1.trans hab.2.2.1, hbc.2.2.2.trans hab.2.2.2⟩)
    (fun s e he => ⟨_, (parseReference_reference t s e).2.1, by
      simp only [huid, make_toString_of_namesUid _ _ he], rfl, rfl, rfl, rfl⟩)
    r.suggestions.entries s2 gs (by beta_reduce; rw [k2.2.1, k1.2.1, hs]; exact r.suggestions.sorted)
  obtain ⟨s4, h4, e4, k4⟩ := parseReferencesLoop_section t (fun x => x.conflicts)
    (referenceToJson t "conflicts")
    (fun a b => b.dependencies = a.dependencies ∧ b.recommendations = a.recommendations ∧
      b.suggestions = a.suggestions ∧ b.provides = a.provides)
    (fun e => NamesUid e.1 e.2)
    (fun _ => ⟨rfl, rfl, rfl, rfl⟩)
    (fun a b c hab hbc => ⟨hbc.1.trans hab.1, hbc.2.1.trans hab.2.1,
      hbc.2.2.1.trans hab.2.2.1, hbc.2.2.2.trans hab.2.2.2⟩)
    (fun s e he => ⟨_, (parseReference_reference t s e).2.2.1, by
      simp only [huid, make_toString_of_namesUid _ _ he], rfl, rfl, rfl, rfl⟩)
    r.conflicts.entries s3 gc
    (by beta_reduce; rw [k3.2.2.1, k2.2.2.1, k1.2.2.1, hc]; exact r.conflicts.sorted)
  obtain ⟨s5, h5, e5, k5⟩ := parseReferencesLoop_section t (fun x => x.provides)
    (referenceToJson t "provides")
    (fun a b => b.dependencies = a.dependencies ∧ b.recommendations = a.recommendations ∧
      b.suggestions = a.suggestions ∧ b.conflicts = a.conflicts)
    (fun e => NamesUid e.1 e.2)
    (fun _ => ⟨rfl, rfl, rfl, rfl⟩)
    (fun a b c hab hbc => ⟨hbc.1.trans hab.1, hbc.2.1.trans hab.2.1,
      hbc.2.2.1.trans hab.2.2.1, hbc.2.2.2.trans hab.2.2.2⟩)
    (fun s e he => ⟨_, (parseReference_reference t s e).2.2.2, by
      simp only [huid, make_toString_of_namesUid _ _ he], rfl, rfl, rfl, rfl⟩)
    r.provides.entries s4 gp
    (by beta_reduce; rw [k4.2.2.2, k3.2.2.2, k2.2.2.2, k1.2.2.2, hp]; exact r.provides.sorted)
  refine ⟨s5, ?_, ?_, ?_, ?_, ?_, ?_⟩
  · unfold referencesJson
    rw [parseReferencesLoop_append, parseReferencesLoop_append, parseReferencesLoop_append,
      parseReferencesLoop_append, h1]
    simp only [Except.bind, h2, h3, h4]
    exact h5
  · rw [k5.1, k4.1, k3.1, k2.1]
    exact QMap.ext_entries _ _ (by rw [e1, hd]; rfl)
  · rw [k5.2.1, k4.2.1, k3.2.1]
    exact QMap.ext_entries _ _ (by rw [e2, k1.1, hr]; rfl)
  · rw [k5.2.2.1, k4.2.2.1]
    exact QMap.ext_entries _ _ (by rw [e3, k2.2.1, k1.2.1, hs]; rfl)
  · rw [k5.2.2.2]
    exact QMap.ext_entries _ _ (by rw [e4, k3.2.2.1, k2.2.2.1, k1.2.2.1, hc]; rfl)
  · exact QMap.ext_entries _ _ (by rw [e5, k4.2.2.2, k3.2.2.2, k2.2.2.2, k1.2.2.2, hp]; rfl)

theorem parseReferences_toJson (t : UidText) (dl : QuickModDownload → JsonObject)
    (r : BaseQuickModVersion) (huid : ∀ k, t.ofString (t.toString k) = k)
    (hrefs : RefsNameKeys r) (self : BaseQuickModVersion) :
    ∃ self', self.parseReferences t (r.toJson t dl) = .ok self' ∧
      self'.dependencies = r.dependencies ∧ self'.recommendations = r.recommendations ∧
      self'.suggestions = r.suggestions ∧ self'.conflicts = r.conflicts ∧
      self'.provides = r.provides := by
  obtain ⟨hc, hv⟩ := toJson_references t dl r
  unfold BaseQuickModVersion.parseReferences
  simp only [hc, hv, if_true, MMCJson.ensureArray, bind, Except.bind]
  exact parseReferencesLoop_toJson t r huid hrefs _ rfl rfl rfl rfl rfl

theorem parseReference_installType (t : UidText) (s s' : BaseQuickModVersion)
    (val : JsonValue) (h : BaseQuickModVersion.parseReference t s val = .ok s') :
    s'.installType = s.installType := by
  unfold BaseQuickModVersion.parseReference at h
  simp only [bind, Except.bind, pure, Except.pure] at h
  split at h
  · cases h
  split at h
  · cases h
  split at h
  · cases h
  split at h
  · cases h
  split_ifs at h <;> (cases h; rfl)

theorem parseReferencesLoop_installType (t : UidText) (vals : List JsonValue) :
    ∀ s s', BaseQuickModVersion.parseReferencesLoop t vals s = .ok s' →
      s'.installType = s.installType := by
  induction vals with
  | nil => intro s s' h; cases h; rfl
  | cons val rest ih =>
    intro s s' h
    simp only [BaseQuickModVersion.parseReferencesLoop] at h
    cases h1 : BaseQuickModVersion.parseReference t s val with
    | error e => rw [h1] at h; cases h
    | ok s1 =>
      rw [h1] at h
      exact (ih s1 s' h).trans (parseReference_installType t s s1 val h1)

theorem parseReferences_installType (t : UidText) (s s' : BaseQuickModVersion)
    (object : JsonObject) (h : s.parseReferences t object = .ok s') :
    s'.installType = s.installType := by
  unfold BaseQuickModVersion.parseReferences at h
  simp only [bind, Except.bind, pure, Except.pure] at h
  split at h
  · split at h
    · cases h
    · have h' := parseReferencesLoop_installType t _ _ _ h
      exact h'
  · cases h; rfl

theorem parseNames_installType (s s' : BaseQuickModVersion) (object : JsonObject)
    (h : s.parseNames object = .ok s') : s'.installType = s.installType := by
  unfold BaseQuickModVersion.parseNames at h
  simp only [bind, Except.bind, pure, Except.pure] at h
  repeat' first | split at h | cases h
  all_goals rfl

/-- What the parts of `parse` behind the references keep: the install type and the
five maps of references. -/
theorem parseLibraries_keeps (s s' : BaseQuickModVersion) (object : JsonObject)
    (h : s.parseLibraries object = .ok s') :
    s'.installType = s.installType ∧ s'.dependencies = s.dependencies ∧
      s'.recommendations = s.recommendations ∧ s'.suggestions = s.suggestions ∧
      s'.conflicts = s.conflicts ∧ s'.provides = s.provides := by
  unfold BaseQuickModVersion.parseLibraries at h
  simp only [bind, Except.bind, pure, Except.pure] at h
  split_ifs at h
  · split at h
    · cases h
    · split at h
      · cases h
      · cases h; exact ⟨rfl, rfl, rfl, rfl, rfl, rfl⟩
  · cases h; exact ⟨rfl, rfl, rfl, rfl, rfl, rfl⟩

theorem parseDownloads_keeps (s s' : BaseQuickModVersion) (object : JsonObject)
    (h : s.parseDownloads object = .ok s') :
    s'.installType = s.installType ∧ s'.dependencies = s.dependencies ∧
      s'.recommendations = s.recommendations ∧ s'.suggestions = s.suggestions ∧
      s'.conflicts = s.conflicts ∧ s'.provides = s.provides := by
  unfold BaseQuickModVersion.parseDownloads at h
  simp only [bind, Except.bind, pure, Except.pure] at h
  split at h
  · cases h
  · split at h
    · cases h
    · cases h; exact ⟨rfl, rfl, rfl, rfl, rfl, rfl⟩

theorem parse_ok_parts (t : UidText) (self v : BaseQuickModVersion) (object : JsonObject)
    (h : self.parse t object = .ok v) :
    ∃ s1 s2 s3, self.parseNames object = .ok s1 ∧ s1.parseReferences t object = .ok s2 ∧
      s2.parseLibraries object = .ok s3 ∧ s3.parseDownloads object = .ok v := by
  unfold BaseQuickModVersion.parse at h
  simp only [bind, Except.bind] at h
  cases h1 : self.parseNames object with
  | error e => rw [h1] at h; cases h
  | ok s1 =>
    rw [h1] at h
    simp only [] at h
    cases h2 : s1.parseReferences t object with
    | error e => rw [h2] at h; cases h
    | ok s2 =>
      rw [h2] at h
      simp only [] at h
      cases h3 : s2.parseLibraries object with
      | error e => rw [h3] at h; cases h
      | ok s3 =>
        rw [h3] at h
        exact ⟨s1, s2, s3, rfl, h2, h3, h⟩

theorem construct_toJson (t : UidText) (dl : QuickModDownload → JsonObject)
    (r : BaseQuickModVersion) (mod : QuickModMetadata) :
    ∃ ptr, BaseQuickModVersion.construct (r.toJson t dl) mod = .ok ptr ∧
      ptr.installType = r.installType ∧ ptr.mod = mod := by
  unfold BaseQuickModVersion.construct
  rw [toJson_installType]
  cases r.installType <;>
    exact ⟨_, by simp [installTypeText, JsonValue.toString]; rfl, rfl, rfl⟩

theorem parseReference_rejects (t : UidText) (s : BaseQuickModVersion) (val : JsonValue)
    (h : ∀ ty ∈ referenceTypes, JsonObject.value val.toObject "type" ≠ .string ty) :
    ∃ e, BaseQuickModVersion.parseReference t s val = .error e := by
  unfold BaseQuickModVersion.parseReference
  simp only [bind, Except.bind, pure, Except.pure]
  cases val with
  | object members =>
    simp only [MMCJson.ensureObject]
    cases hu : JsonObject.value members "uid" with
    | string uid =>
      simp only [MMCJson.ensureString]
      cases hv : JsonObject.value members "version" with
      | string version =>
        simp only []
        cases hty : JsonObject.value members "type" with
        | string ty =>
          simp only []
          have h1 : ∀ x ∈ referenceTypes, ty ≠ x := fun x hx hxe =>
            h x hx (by rw [← hxe]; exact hty)
          simp only [referenceTypes, List.mem_cons, List.mem_singleton, forall_eq_or_imp,
            forall_eq, List.not_mem_nil, false_implies, implies_true, and_true] at h1
          rw [if_neg h1.1, if_neg h1.2.1, if_neg h1.2.2.1, if_neg h1.2.2.2.1,
            if_neg h1.2.2.2.2]
          exact ⟨_, rfl⟩
        | _ => exact ⟨_, rfl⟩
      | _ => exact ⟨_, rfl⟩
    | _ => exact ⟨_, rfl⟩
  | _ => exact ⟨_, rfl⟩

theorem parseReferencesLoop_rejects (t : UidText) (bad : JsonValue)
    (hbad : ∀ s, ∃ e, BaseQuickModVersion.parseReference t s bad = .error e) :
    ∀ (vals : List JsonValue) (s : BaseQuickModVersion), bad ∈ vals →
      ∃ e, BaseQuickModVersion.parseReferencesLoop t vals s = .error e := by
  intro vals
  induction vals with
  | nil => intro s h; cases h
  | cons val rest ih =>
    intro s hmem
    simp only [BaseQuickModVersion.parseReferencesLoop]
    cases h1 : BaseQuickModVersion.parseReference t s val with
    | error e => exact ⟨e, rfl⟩
    | ok s1 =>
      rcases List.mem_cons.mp hmem with hb | hr
      · obtain ⟨e, he⟩ := hbad s
        rw [hb, h1] at he
        cases he
      · exact ih s1 hr

theorem contains_of_value (o : JsonObject) (key : String) (v : JsonValue)
    (h : JsonObject.value o key = v) (hv : v ≠ JsonValue.undefined) :
    JsonObject.contains o key = true := by
  cases hc : JsonObject.contains o key with
  | true => rfl
  | false => exact absurd ((value_of_contains_false o key hc).symm.trans h).symm hv

theorem parse_rejects (t : UidText) (self : BaseQuickModVersion) (object : JsonObject)
    (vals : List JsonValue) (bad : JsonValue)
    (hv : JsonObject.value object "references" = .array vals) (hmem : bad ∈ vals)
    (h : ∀ ty ∈ referenceTypes, JsonObject.value bad.toObject "type" ≠ .string ty) :
    ∃ e, self.parse t object = .error e := by
  unfold BaseQuickModVersion.parse
  simp only [bind, Except.bind]
  cases h1 : self.parseNames object with
  | error e => exact ⟨e, rfl⟩
  | ok s1 =>
    simp only []
    have h2 : ∃ e, s1.parseReferences t object = .error e := by
      unfold BaseQuickModVersion.parseReferences
      simp only [contains_of_value object "references" _ hv (fun hh => by cases hh), hv,
        if_true, MMCJson.ensureArray, bind, Except.bind]
      exact parseReferencesLoop_rejects t bad (fun s => parseReference_rejects t s bad h)
        vals _ hmem
    obtain ⟨e, he⟩ := h2
    rw [he]
    exact ⟨e, rfl⟩

theorem construct_rejects (object : JsonObject) (mod : QuickModMetadata) (text : String)
    (hv : JsonObject.value object "installType" = .string text)
    (h : text ∉ installTypes) :
    BaseQuickModVersion.construct object mod = .error MMCError.unknownInstallType := by
  unfold BaseQuickModVersion.construct
  simp only [installTypes, List.mem_cons, List.mem_singleton, List.not_mem_nil, or_false,
    not_or] at h
  simp only [hv, JsonValue.toString]
  rw [if_neg h.1, if_neg h.2.1, if_neg h.2.2.1, if_neg h.2.2.2.1, if_neg h.2.2.2.2.1,
    if_neg h.2.2.2.2.2]

/-! ## Lemmas on reading back the object that `toJson` writes -/

theorem toJson_eq (t : UidText) (dl : QuickModDownload → JsonObject)
    (self : BaseQuickModVersion) :
    self.toJson t dl =
      MMCJson.writeObjectList
        (JsonObject.insert
          (JsonObject.insert (toJsonHead self) "references" (.array (referencesJson t self)))
          "installType" (.string (installTypeText self.installType)))
        "urls" (self.downloads.map dl) := by
  unfold BaseQuickModVersion.toJson toJsonHead
  cases self.installType <;>
    simp [referencesJson, refToJson, installTypeText]

theorem value_writeString_same (o : JsonObject) (key value : String) :
    JsonObject.value (MMCJson.writeString o key value) key =
      if value = "" then JsonObject.value o key else .string value := by
  unfold MMCJson.writeString
  split_ifs
  · rfl
  · exact value_insert_same o key _

theorem contains_writeString_same (o : JsonObject) (key value : String) :
    JsonObject.contains (MMCJson.writeString o key value) key =
      if value = "" then JsonObject.contains o key else true := by
  unfold MMCJson.writeString
  split_ifs
  · rfl
  · exact contains_insert_same o key _

theorem contains_writeString_ne (o : JsonObject) (key key' value : String) (h : key ≠ key') :
    JsonObject.contains (MMCJson.writeString o key value) key' =
      JsonObject.contains o key' := by
  unfold MMCJson.writeString
  split_ifs
  · rfl
  · exact contains_insert_ne o key key' _ h

theorem value_writeObjectList_same (o : JsonObject) (key : String)
    (values : List JsonObject) (h : values ≠ []) :
    JsonObject.value (MMCJson.writeObjectList o key values) key =
      .array (values.map JsonValue.object) := by
  unfold MMCJson.writeObjectList
  rw [if_neg (by simpa using h)]
  exact value_insert_same o key _

theorem contains_writeObjectList_same (o : JsonObject) (key : String)
    (values : List JsonObject) :
    JsonObject.contains (MMCJson.writeObjectList o key values) key =
      if values.isEmpty then JsonObject.contains o key else true := by
  unfold MMCJson.writeObjectList
  split_ifs
  · rfl
  · exact contains_insert_same o key _

/-- The members "name", "version" and "type" of the object that `toJson` writes. -/
theorem toJson_names (t : UidText) (dl : QuickModDownload → JsonObject)
    (self : BaseQuickModVersion) :
    JsonObject.contains (self.toJson t dl) "name" = true ∧
    JsonObject.value (self.toJson t dl) "name" = .string self.versionName ∧
    JsonObject.contains (self.toJson t dl) "version" =
      (if self.versionString = "" then false else true) ∧
    JsonObject.value (self.toJson t dl) "version" =
      (if self.versionString = "" then .undefined else .string self.versionString) ∧
    JsonObject.contains (self.toJson t dl) "type" =
      (if self.type = "" then false else true) ∧
    JsonObject.value (self.toJson t dl) "type" =
      (if self.type = "" then .undefined else .string self.type) := by
  rw [toJson_eq]
  unfold toJsonHead
  refine ⟨?_, ?_, ?_, ?_, ?_, ?_⟩
  · rw [contains_writeObjectList_ne _ _ _ _ (by decide), contains_insert_ne _ _ _ _ (by decide),
      contains_insert_ne _ _ _ _ (by decide), contains_writeObjectList_ne _ _ _ _ (by decide),
      contains_writeString_ne _ _ _ _ (by decide), contains_writeString_ne _ _ _ _ (by decide),
      contains_writeString_ne _ _ _ _ (by decide), contains_insert_same]
  · rw [value_writeObjectList_ne _ _ _ _ (by decide), value_insert_ne _ _ _ _ (by decide),
      value_insert_ne _ _ _ _ (by decide), value_writeObjectList_ne _ _ _ _ (by decide),
      value_writeString_ne _ _ _ _ (by decide), value_writeString_ne _ _ _ _ (by decide),
      value_writeString_ne _ _ _ _ (by decide), value_insert_same]
  · rw [contains_writeObjectList_ne _ _ _ _ (by decide), contains_insert_ne _ _ _ _ (by decide),
      contains_insert_ne _ _ _ _ (by decide), contains_writeObjectList_ne _ _ _ _ (by decide),
      contains_writeString_ne _ _ _ _ (by decide), contains_writeString_ne _ _ _ _ (by decide),
      contains_writeString_same, contains_insert_ne _ _ _ _ (by decide)]
    rfl
  · rw [value_writeObjectList_ne _ _ _ _ (by decide), value_insert_ne _ _ _ _ (by decide),
      value_insert_ne _ _ _ _ (by decide), value_writeObjectList_ne _ _ _ _ (by decide),
      value_writeString_ne _ _ _ _ (by decide), value_writeString_ne _ _ _ _ (by decide),
      value_writeString_same, value_insert_ne _ _ _ _ (by decide)]
    rfl
  · rw [contains_writeObjectList_ne _ _ _ _ (by decide), contains_insert_ne _ _ _ _ (by decide),
      contains_insert_ne _ _ _ _ (by decide), contains_writeObjectList_ne _ _ _ _ (by decide),
      contains_writeString_ne _ _ _ _ (by decide), contains_writeString_same,
      contains_writeString_ne _ _ _ _ (by decide), contains_insert_ne _ _ _ _ (by decide)]
    rfl
  · rw [value_writeObjectList_ne _ _ _ _ (by decide), value_insert_ne _ _ _ _ (by decide),
      value_insert_ne _ _ _ _ (by decide), value_writeObjectList_ne _ _ _ _ (by decide),
      value_writeString_ne _ _ _ _ (by decide), value_writeString_same,
      value_writeString_ne _ _ _ _ (by decide), value_insert_ne _ _ _ _ (by decide)]
    rfl

/-- The member "libraries" of the object that `toJson` writes. -/
theorem toJson_libraries (t : UidText) (dl : QuickModDownload → JsonObject)
    (self : BaseQuickModVersion) :
    JsonObject.contains (self.toJson t dl) "libraries" =
      (if self.libraries = [] then false else true) ∧
    (self.libraries ≠ [] → JsonObject.value (self.toJson t dl) "libraries" =
      .array ((self.libraries.map Library.toJson).map JsonValue.object)) := by
  rw [toJson_eq]
  unfold toJsonHead
  refine ⟨?_, fun h => ?_⟩
  · rw [contains_writeObjectList_ne _ _ _ _ (by decide), contains_insert_ne _ _ _ _ (by decide),
      contains_insert_ne _ _ _ _ (by decide), contains_writeObjectList_same,
      contains_writeString_ne _ _ _ _ (by decide), contains_writeString_ne _ _ _ _ (by decide),
      contains_writeString_ne _ _ _ _ (by decide), contains_insert_ne _ _ _ _ (by decide)]
    cases self.libraries <;> simp [JsonObject.contains, JsonObject.insert]
  · rw [value_writeObjectList_ne _ _ _ _ (by decide), value_insert_ne _ _ _ _ (by decide),
      value_insert_ne _ _ _ _ (by decide),
      value_writeObjectList_same _ _ _ (by simpa using h)]

/-- The member "urls" of the object that `toJson` writes for a version with downloads. -/
theorem toJson_urls (t : UidText) (dl : QuickModDownload → JsonObject)
    (self : BaseQuickModVersion) (h : self.downloads ≠ []) :
    JsonObject.value (self.toJson t dl) "urls" =
      .array ((self.downloads.map dl).map JsonValue.object) := by
  rw [toJson_eq, value_writeObjectList_same _ _ _ (by simpa using h)]

theorem parseNames_toJson (t : UidText) (dl : QuickModDownload → JsonObject)
    (r self : BaseQuickModVersion) :
    ∃ s, self.parseNames (r.toJson t dl) = .ok s := by
  obtain ⟨h1, h2, h3, h4, h5, h6⟩ := toJson_names t dl r
  unfold BaseQuickModVersion.parseNames
  simp only [h1, h2, h3, h4, h5, h6, bind, Except.bind, pure, Except.pure]
  by_cases hv : r.versionString = "" <;> by_cases ht : r.type = "" <;>
    simp [hv, ht, MMCJson.ensureString]

theorem parseLibrary_toJson_empty (name : String) :
    BaseQuickModVersion.parseLibrary (.object (Library.toJson ⟨name, ""⟩)) =
      .ok ⟨name, "http://repo1.maven.org/maven2/"⟩ := by
  simp [BaseQuickModVersion.parseLibrary, Library.toJson, MMCJson.ensureObject,
    MMCJson.ensureString, JsonObject.value, JsonObject.contains,
    JsonObject.insert, bind, Except.bind, pure, Except.pure]

theorem parseLibrariesLoop_toJson (libs : List Library) (h : ∀ lib ∈ libs, lib.repo = "") :
    ∀ acc, ∃ out, BaseQuickModVersion.parseLibrariesLoop
      ((libs.map Library.toJson).map JsonValue.object) acc = .ok out := by
  induction libs with
  | nil => intro acc; exact ⟨acc, rfl⟩
  | cons lib rest ih =>
    intro acc
    obtain ⟨name, repo⟩ := lib
    have hr : repo = "" := h ⟨name, repo⟩ (List.mem_cons_self _ _)
    subst hr
    simp only [List.map_cons, BaseQuickModVersion.parseLibrariesLoop,
      parseLibrary_toJson_empty]
    exact ih (fun l hl => h l (List.mem_cons_of_mem _ hl)) _

theorem parseLibraries_toJson (t : UidText) (dl : QuickModDownload → JsonObject)
    (r self : BaseQuickModVersion) (h : ∀ lib ∈ r.libraries, lib.repo = "") :
    ∃ s, self.parseLibraries (r.toJson t dl) = .ok s := by
  obtain ⟨h1, h2⟩ := toJson_libraries t dl r
  unfold BaseQuickModVersion.parseLibraries
  by_cases hl : r.libraries = []
  · simp [h1, hl, pure, Except.pure]
  · obtain ⟨out, ho⟩ := parseLibrariesLoop_toJson r.libraries h []
    simp only [h1, if_neg hl, if_true, h2 hl, MMCJson.ensureArray, bind, Except.bind, pure,
      Except.pure, ho]
    exact ⟨_, rfl⟩

theorem parseDownloadsLoop_toJson (dl : QuickModDownload → JsonObject)
    (ds : List QuickModDownload)
    (h : ∀ d ∈ ds, ∃ d', BaseQuickModVersion.parseDownload (.object (dl d)) = .ok d') :
    ∀ acc, ∃ out, BaseQuickModVersion.parseDownloadsLoop
      ((ds.map dl).map JsonValue.object) acc = .ok out := by
  induction ds with
  | nil => intro acc; exact ⟨acc, rfl⟩
  | cons d rest ih =>
    intro acc
    obtain ⟨d', hd⟩ := h d (List.mem_cons_self _ _)
    simp only [List.map_cons, BaseQuickModVersion.parseDownloadsLoop, hd]
    exact ih (fun x hx => h x (List.mem_cons_of_mem _ hx)) _

theorem parseDownloads_toJson (t : UidText) (dl : QuickModDownload → JsonObject)
    (r self : BaseQuickModVersion) (hne : r.downloads ≠ [])
    (h : ∀ d ∈ r.downloads,
      ∃ d', BaseQuickModVersion.parseDownload (.object (dl d)) = .ok d') :
    ∃ s, self.parseDownloads (r.toJson t dl) = .ok s := by
  obtain ⟨out, ho⟩ := parseDownloadsLoop_toJson dl r.downloads h []
  unfold BaseQuickModVersion.parseDownloads
  simp only [toJson_urls t dl r hne, MMCJson.ensureArray, bind, Except.bind, pure,
    Except.pure, ho]
  exact ⟨_, rfl⟩

/-- Reading back the object that `toJson` writes: `parseSingle` returns, and the version
returned has the install type and the five maps of the version written. -/
theorem parseSingle_toJson (t : UidText) (dl : QuickModDownload → JsonObject)
    (r : BaseQuickModVersion) (huid : ∀ k, t.ofString (t.toString k) = k)
    (hrefs : RefsNameKeys r) (hne : r.downloads ≠ [])
    (hread : ∀ d ∈ r.downloads,
      ∃ d', BaseQuickModVersion.parseDownload (.object (dl d)) = .ok d')
    (hlib : ∀ lib ∈ r.libraries, lib.repo = "") (mod : QuickModMetadata) :
    ∃ v, BaseQuickModVersion.parseSingle t (r.toJson t dl) mod = .ok v ∧
      v.installType = r.installType ∧
      v.dependencies = r.dependencies ∧ v.recommendations = r.recommendations ∧
      v.suggestions = r.suggestions ∧ v.conflicts = r.conflicts ∧
      v.provides = r.provides := by
  obtain ⟨ptr, hp, hi, _⟩ := construct_toJson t dl r mod
  obtain ⟨s1, h1⟩ := parseNames_toJson t dl r ptr
  obtain ⟨s2, h2, hd, hr, hs, hc, hpv⟩ := parseReferences_toJson t dl r huid hrefs s1
  obtain ⟨s3, h3⟩ := parseLibraries_toJson t dl r s2 hlib
  obtain ⟨v, h4⟩ := parseDownloads_toJson t dl r s3 hne hread
  have k1 := parseNames_installType _ _ _ h1
  have k2 := parseReferences_installType t _ _ _ h2
  have k3 := parseLibraries_keeps _ _ _ h3
  have k4 := parseDownloads_keeps _ _ _ h4
  refine ⟨v, ?_, ?_, ?_, ?_, ?_, ?_, ?_⟩
  · unfold BaseQuickModVersion.parseSingle BaseQuickModVersion.parse
    simp only [bind, Except.bind, hp, h1, h2, h3]
    exact h4
  · rw [k4.1, k3.1, k2, k1, hi]
  · rw [k4.2.1, k3.2.1, hd]
  · rw [k4.2.2.1, k3.2.2.1, hr]
  · rw [k4.2.2.2.1, k3.2.2.2.1, hs]
  · rw [k4.2.2.2.2.1, k3.2.2.2.2.1, hc]
  · rw [k4.2.2.2.2.2, k3.2.2.2.2.2, hpv]

theorem mem_insertEntry {V : Type} (k : QuickModRef) (v : V) (e : QuickModRef × V) :
    ∀ l : List (QuickModRef × V), e ∈ QMap.insertEntry k v l → e = (k, v) ∨ e ∈ l := by
  intro l
  induction l with
  | nil =>
    intro h
    exact Or.inl (List.mem_singleton.mp h)
  | cons a l ih =>
    intro h
    unfold QMap.insertEntry at h
    split_ifs at h
    · rcases List.mem_cons.mp h with h1 | h1
      · exact Or.inr (h1 ▸ List.mem_cons_self _ _)
      · rcases ih h1 with h2 | h2
        · exact Or.inl h2
        · exact Or.inr (List.mem_cons_of_mem _ h2)
    · rcases List.mem_cons.mp h with h1 | h1
      · exact Or.inl h1
      · exact Or.inr (List.mem_cons_of_mem _ h1)
    · rcases List.mem_cons.mp h with h1 | h1
      · exact Or.inl h1
      · exact Or.inr h1

theorem forall_insert {V : Type} (P : QuickModRef × V → Prop) (m : QMap V)
    (k : QuickModRef) (v : V) (hm : ∀ e ∈ m.entries, P e) (hk : P (k, v)) :
    ∀ e ∈ (m.insert k v).entries, P e := by
  intro e he
  rcases mem_insertEntry k v e m.entries he with h | h
  · rw [h]; exact hk
  · exact hm e h

theorem namesUid_make (k : QuickModRef) (id : String) :
    NamesUid k (QuickModVersionRef.make k id) := by
  unfold NamesUid QuickModVersionRef.make
  rfl

theorem parseReference_refsNameKeys (t : UidText) (s s' : BaseQuickModVersion)
    (val : JsonValue) (h : BaseQuickModVersion.parseReference t s val = .ok s')
    (hs : RefsNameKeys s) : RefsNameKeys s' := by
  unfold BaseQuickModVersion.parseReference at h
  simp only [bind, Except.bind, pure, Except.pure] at h
  split at h
  · cases h
  split at h
  · cases h
  split at h
  · cases h
  split at h
  · cases h
  obtain ⟨g1, g2, g3, g4, g5⟩ := hs
  split_ifs at h
  · cases h
    exact ⟨forall_insert (fun e : QuickModRef × (QuickModVersionRef × Bool) =>
      NamesUid e.1 e.2.1) _ _ _ g1 (namesUid_make _ _), g2, g3, g4, g5⟩
  · cases h
    exact ⟨g1, forall_insert (fun e : QuickModRef × QuickModVersionRef =>
      NamesUid e.1 e.2) _ _ _ g2 (namesUid_make _ _), g3, g4, g5⟩
  · cases h
    exact ⟨g1, g2, forall_insert (fun e : QuickModRef × QuickModVersionRef =>
      NamesUid e.1 e.2) _ _ _ g3 (namesUid_make _ _), g4, g5⟩
  · cases h
    exact ⟨g1, g2, g3, forall_insert (fun e : QuickModRef × QuickModVersionRef =>
      NamesUid e.1 e.2) _ _ _ g4 (namesUid_make _ _), g5⟩
  · cases h
    exact ⟨g1, g2, g3, g4, forall_insert (fun e : QuickModRef × QuickModVersionRef =>
      NamesUid e.1 e.2) _ _ _ g5 (namesUid_make _ _)⟩

theorem parseReferencesLoop_refsNameKeys (t : UidText) (vals : List JsonValue) :
    ∀ s s', BaseQuickModVersion.parseReferencesLoop t vals s = .ok s' →
      RefsNameKeys s → RefsNameKeys s' := by
  induction vals with
  | nil => intro s s' h hs; cases h; exact hs
  | cons val rest ih =>
    intro s s' h hs
    simp only [BaseQuickModVersion.parseReferencesLoop] at h
    cases h1 : BaseQuickModVersion.parseReference t s val with
    | error e => rw [h1] at h; cases h
    | ok s1 =>
      rw [h1] at h
      exact ih s1 s' h (parseReference_refsNameKeys t s s1 val h1 hs)

theorem parseReferences_refsNameKeys (t : UidText) (s s' : BaseQuickModVersion)
    (object : JsonObject) (h : s.parseReferences t object = .ok s') : RefsNameKeys s' := by
  have h0 : ∀ x : BaseQuickModVersion, x.dependencies = QMap.empty →
      x.recommendations = QMap.empty → x.suggestions = QMap.empty →
      x.conflicts = QMap.empty → x.provides = QMap.empty → RefsNameKeys x := by
    intro x h1 h2 h3 h4 h5
    unfold RefsNameKeys
    rw [h1, h2, h3, h4, h5]
    exact ⟨fun e he => (by cases he), fun e he => (by cases he), fun e he => (by cases he),
      fun e he => (by cases he), fun e he => (by cases he)⟩
  unfold BaseQuickModVersion.parseReferences at h
  simp only [bind, Except.bind, pure, Except.pure] at h
  split at h
  · split at h
    · cases h
    · exact parseReferencesLoop_refsNameKeys t _ _ _ h (h0 _ rfl rfl rfl rfl rfl)
  · cases h
    exact h0 _ rfl rfl rfl rfl rfl

/-- Every version that `parse` returns has references that name their keys. -/
theorem parse_refsNameKeys (t : UidText) (self v : BaseQuickModVersion)
    (object : JsonObject) (h : self.parse t object = .ok v) : RefsNameKeys v := by
  obtain ⟨s1, s2, s3, _, h2, h3, h4⟩ := parse_ok_parts t self v object h
  have g := parseReferences_refsNameKeys t s1 s2 object h2
  have k3 := parseLibraries_keeps _ _ _ h3
  have k4 := parseDownloads_keeps _ _ _ h4
  unfold RefsNameKeys at g ⊢
  rw [k4.2.1, k3.2.1, k4.2.2.1, k3.2.2.1, k4.2.2.2.1, k3.2.2.2.1, k4.2.2.2.2.1,
    k3.2.2.2.2.1, k4.2.2.2.2.2, k3.2.2.2.2.2]
  exact g

/-- The hypothesis on the references cannot be left out for a version that `parse` did
not build: the edge of `exMismatch` to the uid 1 carries a reference to version "x" of
the uid 2, and is read back with a reference to version "x" of the uid 1. -/
theorem parseSingle_toJson_mismatch :
    exMismatch.dependencies.entries = [(1, (some (2, "x"), false))] ∧
    ∃ v, BaseQuickModVersion.parseSingle exText (exMismatch.toJson exText exDownloadToJson)
        ⟨0, "repo", "A"⟩ = .ok v ∧
      v.dependencies.entries = [(1, (some (1, "x"), false))] :=
  ⟨rfl, _, rfl, rfl⟩

/-! ## C23 -/

/-- C23 as stated fails: `parseSingle` reads the version `exNoUrls` from an object with
an empty array "urls" and the version `exWithLibrary` from an object with a library; for
the first, `toJson` writes no member "urls", and `parseSingle` rejects the object
written with the error for "urls"; for the second, `toJson` writes the URL of the library
as "url", and `parseSingle` rejects the object written with the error for
"library repo".  No version is built from either, whatever the downloads are written
as. -/
theorem parseSingle_toJson_rejected :
    BaseQuickModVersion.parseSingle exText [("name", .string "1.0"), ("urls", .array [])]
        ⟨0, "repo", "A"⟩ = .ok exNoUrls ∧
    (∀ dl : QuickModDownload → JsonObject,
      BaseQuickModVersion.parseSingle exText (exNoUrls.toJson exText dl) ⟨0, "repo", "A"⟩ =
        .error (MMCError.validation "urls")) ∧
    BaseQuickModVersion.parseSingle exText
        [("name", .string "1.0"), ("libraries", .array [.object [("name", .string "lib")]]),
          ("urls", .array [.object [("url", .string "a")]])]
        ⟨0, "repo", "A"⟩ = .ok exWithLibrary ∧
    (∀ dl : QuickModDownload → JsonObject,
      BaseQuickModVersion.parseSingle exText (exWithLibrary.toJson exText dl)
          ⟨0, "repo", "A"⟩ =
        .error (MMCError.validation "library repo")) :=
  ⟨rfl, fun _ => rfl, rfl, fun _ => rfl⟩

/-- C23, as the code has it: let the text of every uid be read back as that uid and the
downloads of a version be written as objects that `parse` reads.  For every version that
has a download and no library with a repository URL, and whose references name the uid
that they are filed under, `parseSingle` returns for the object that `toJson` writes a
version of the same install type whose five maps of references (the dependencies with
the version and the flag `isSoft` of each edge) are those of the version written.  The
references of every version that `parse` returns name the uid that they are filed under.
An object whose array "references" holds a reference of a type that is none of the five
is rejected by `parse` with an error, and an object whose field "installType" is a text
that is none of the six is rejected by `parseSingle` with the error for the install
type. -/
theorem parse_toJson_references (t : UidText) (dl : QuickModDownload → JsonObject)
    (r : BaseQuickModVersion) (huid : ∀ k, t.ofString (t.toString k) = k)
    (hread : ∀ d ∈ r.downloads,
      ∃ d', BaseQuickModVersion.parseDownload (.object (dl d)) = .ok d')
    (hne : r.downloads ≠ []) (hlib : ∀ lib ∈ r.libraries, lib.repo = "")
    (hrefs : RefsNameKeys r) :
    (∀ mod, ∃ v, BaseQuickModVersion.parseSingle t (r.toJson t dl) mod = .ok v ∧
        v.installType = r.installType ∧
        v.dependencies = r.dependencies ∧ v.recommendations = r.recommendations ∧
        v.suggestions = r.suggestions ∧ v.conflicts = r.conflicts ∧
        v.provides = r.provides) ∧
    (∀ (self : BaseQuickModVersion) (object : JsonObject) (v : BaseQuickModVersion),
        self.parse t object = .ok v → RefsNameKeys v) ∧
    (∀ (self : BaseQuickModVersion) (object : JsonObject) (vals : List JsonValue)
        (bad : JsonValue),
        JsonObject.value object "references" = .array vals → bad ∈ vals →
        (∀ ty ∈ referenceTypes, JsonObject.value bad.toObject "type" ≠ .string ty) →
        ∃ e, self.parse t object = .error e) ∧
    (∀ (object : JsonObject) (mod : QuickModMetadata) (text : String),
        JsonObject.value object "installType" = .string text → text ∉ installTypes →
        BaseQuickModVersion.parseSingle t object mod = .error MMCError.unknownInstallType) := by
  refine ⟨parseSingle_toJson t dl r huid hrefs hne hread hlib, ?_, ?_, ?_⟩
  · intro self object v h
    exact parse_refsNameKeys t self v object h
  · intro self object vals bad hv hmem hbad
    exact parse_rejects t self object vals bad hv hmem hbad
  · intro object mod text hv htext
    unfold BaseQuickModVersion.parseSingle
    simp only [bind, Except.bind, construct_rejects object mod text hv htext]

/-- C23, as the code has it, at an example: the version `exRead`, which `parseSingle`
reads from `exReadObject`, is read back from the object that `toJson` writes for it. -/
theorem parse_toJson_references_witness :
    BaseQuickModVersion.parseSingle exText exReadObject ⟨0, "repo", "A"⟩ = .ok exRead ∧
    BaseQuickModVersion.parseSingle exText (exRead.toJson exText exDownloadToJson)
      ⟨0, "repo", "A"⟩ = .ok exRead ∧
    (∀ k, exText.ofString (exText.toString k) = k) ∧
    (∀ d ∈ exRead.downloads,
      ∃ d', BaseQuickModVersion.parseDownload (.object (exDownloadToJson d)) = .ok d') ∧
    exRead.downloads ≠ [] ∧ (∀ lib ∈ exRead.libraries, lib.repo = "") ∧
    RefsNameKeys exRead ∧
    ∃ v, BaseQuickModVersion.parseSingle exText (exRead.toJson exText exDownloadToJson)
        ⟨0, "repo", "A"⟩ = .ok v ∧
      v.installType = InstallType.ForgeCoreMod ∧
      v.dependencies = exRead.dependencies ∧ v.recommendations = exRead.recommendations ∧
      v.suggestions = exRead.suggestions ∧ v.conflicts = exRead.conflicts ∧
      v.provides = exRead.provides :=
  have huid : ∀ k, exText.ofString (exText.toString k) = k :=
    fun k => by simp [exText, String.length]
  have hread : ∀ d ∈ exRead.downloads,
      ∃ d', BaseQuickModVersion.parseDownload (.object (exDownloadToJson d)) = .ok d' :=
    fun d hd => by
      rcases List.mem_singleton.mp hd with rfl
      exact ⟨_, rfl⟩
  have hne : exRead.downloads ≠ [] := fun h => by cases h
  have hlib : ∀ lib ∈ exRead.libraries, lib.repo = "" := fun lib hl => by cases hl
  have hrefs : RefsNameKeys exRead :=
    parse_refsNameKeys exText (QuickModForgeModVersion ⟨0, "repo", "A"⟩
      InstallType.ForgeCoreMod) exRead exReadObject rfl
  ⟨rfl, rfl, huid, hread, hne, hlib, hrefs,
    (parse_toJson_references exText exDownloadToJson exRead huid hread hne hlib hrefs).1 _⟩

/-! ## C24 -/

/-- C24: the code at the failing input.  For a library with a non-empty repository
URL, reading the object that `Library::toJson` writes fails with the validation error
for the item "library repo": the URL is written as the member "url", and `parse`, which
tests for the member "url", reads the member "repo".  A library object without a member
"url" is read with the default repository. -/
theorem parseLibrary_toJson_fails :
    (∀ (name : String) (repo : QUrl), repo ≠ "" →
      BaseQuickModVersion.parseLibrary (.object (Library.toJson ⟨name, repo⟩)) =
        .error (MMCError.validation "library repo")) ∧
    (∀ (libObj : JsonObject) (name : String),
      JsonObject.value libObj "name" = .string name →
      JsonObject.contains libObj "url" = false →
      BaseQuickModVersion.parseLibrary (.object libObj) =
        .ok ⟨name, "http://repo1.maven.org/maven2/"⟩) := by
  refine ⟨fun name repo hrepo => ?_, fun libObj name hn hu => ?_⟩
  · simp [BaseQuickModVersion.parseLibrary, Library.toJson, hrepo, MMCJson.ensureObject,
      MMCJson.ensureString, MMCJson.ensureUrl, JsonObject.value, JsonObject.contains,
      JsonObject.insert, bind, Except.bind, pure, Except.pure]
  · simp [BaseQuickModVersion.parseLibrary, hn, hu, MMCJson.ensureObject,
      MMCJson.ensureString, bind, Except.bind, pure, Except.pure]

/-- C24 at an example: the library "lib" of the repository
http://example.org/maven/ is written with the member "url" and is not read back; the
object with the member "name" alone is read with the default repository. -/
theorem parseLibrary_toJson_fails_witness :
    Library.toJson exLibrary =
      [("url", .string "http://example.org/maven/"), ("name", .string "lib")] ∧
    BaseQuickModVersion.parseLibrary (.object (Library.toJson exLibrary)) =
      .error (MMCError.validation "library repo") ∧
    BaseQuickModVersion.parseLibrary (.object [("name", .string "lib")]) =
      .ok ⟨"lib", "http://repo1.maven.org/maven2/"⟩ :=
  ⟨rfl, parseLibrary_toJson_fails.1 "lib" "http://example.org/maven/" (by decide),
    parseLibrary_toJson_fails.2 [("name", .string "lib")] "lib" rfl rfl⟩

end QuickMod
